import Mathlib

/-!
# Spreadsheet core: cells, cycle check, cache, sparse grid

A shallow embedding of `cell.cpp`, `formula.cpp` and `sheet.cpp`.

* `std::string` is `String`; only its list of characters (`String.data`) is inspected.
* `std::vector<std::vector<std::unique_ptr<Cell>>>` is `List (List (Option Cell))`.
* A `Cell*` is identified with the grid position that owns the cell; the
  `std::unordered_set<const Cell*>` of the cycle check is a list of positions.
* An exception is a value of `Except`; a method that mutates returns the state after the call
  next to its result, also when it throws.
* The formula compiler (`FormulaAST`) is not part of these sources: it is a parameter
  (`FormulaCompiler`), and `double` is the abstract carrier `Num` of that parameter.
* The two recursions of the sources, the cycle check and the evaluation through formula
  references, take a bound on their nesting. `Cell.Set` passes a bound the cycle check never
  reaches; `Cell.GetValue` returns `none` when its bound is reached.
-/

namespace Spreadsheet

/-! ## Positions, errors, values -/

deriving instance DecidableEq for Except

/-- Position of `common.h`: two C++ `int`s. -/
structure Position where
  row : Int
  col : Int
deriving DecidableEq, Repr

/-- Modelled from the spec: `Position::MAX_ROWS` of `common.h`, the classic limit 16384. -/
def Position.MAX_ROWS : Int := 16384

/-- Modelled from the spec: `Position::MAX_COLS` of `common.h`, the classic limit 16384. -/
def Position.MAX_COLS : Int := 16384

/-- Modelled from the spec: `Position::IsValid` of `common.h` returns false outside `[0, max)` in
either axis; the sentinel `NONE = (-1, -1)` lies outside. -/
def Position.IsValid (p : Position) : Bool :=
  decide (0 ≤ p.row) && decide (0 ≤ p.col) &&
    decide (p.row < Position.MAX_ROWS) && decide (p.col < Position.MAX_COLS)

/-- Modelled from the spec: the distinguished "none" sentinel `Position::NONE` of `common.h`. -/
def Position.NONE : Position := ⟨-1, -1⟩

/-- The enum `FormulaError::Category`. -/
inductive Category where
  | Ref
  | Value
  | Arithmetic
deriving DecidableEq, Repr

/-- The class `FormulaError`: one private field `category_`. -/
structure FormulaError where
  category_ : Category
deriving DecidableEq, Repr

/-- The exceptions of the Cell/Sheet API: `InvalidPositionException`, `FormulaException`,
`CircularDependencyException`. -/
inductive SheetError where
  | InvalidPosition
  | Formula
  | CircularDependency
deriving DecidableEq, Repr

/-- The type `CellInterface::Value = std::variant<std::string, double, FormulaError>`. -/
inductive Value (Num : Type) where
  | str : String → Value Num
  | num : Num → Value Num
  | err : FormulaError → Value Num
deriving DecidableEq, Repr

/-! ## The formula compiler boundary -/

/-- Modelled from the spec: what `FormulaAST::Execute(args_func)` does with its resolver. It either
finishes with a number or a thrown `FormulaError`, or calls the resolver at a position and goes on
with what the call gave (a number, or the `FormulaError` the resolver threw). Every run calls the
resolver finitely often. -/
inductive Exec (Num : Type) where
  | done : Except FormulaError Num → Exec Num
  | ask : Position → (Except FormulaError Num → Exec Num) → Exec Num

/-- Modelled from the spec: the formula compiler of `FormulaAST.h` (section 6 of the spec), together
with the two facts about `double` the sources use: the literal `0.0` and the extraction
`std::istringstream >> double` of the standard library. -/
structure FormulaCompiler (Num AST : Type) where
  /-- The literal `0.0`. -/
  zero : Num
  /-- The extraction `in >> result` into a `double`, from a new `std::istringstream` over the
  characters given: `none` when the extraction fails (the stream then converts to `false`);
  otherwise the number that was read, with the characters the extraction has left unread. -/
  extract : List Char → Option (Num × List Char)
  /-- The function `ParseFormulaAST(expression)`; `none` when it throws. -/
  ParseFormulaAST : String → Option AST
  /-- The method `FormulaAST::Execute`. -/
  Execute : AST → Exec Num
  /-- The method `FormulaAST::PrintFormula`, as the string written. -/
  PrintFormula : AST → String
  /-- The method `FormulaAST::GetCells`: the positions in the expression, in source order. -/
  GetCells : AST → List Position

/-! ## formula.cpp -/

/-- The method `FormulaError::operator==`. -/
def FormulaError.eq (lhs rhs : FormulaError) : Bool :=
  decide (lhs.category_ = rhs.category_)

/-- The method `FormulaError::ToString`. -/
def FormulaError.ToString (fe : FormulaError) : String :=
  match fe.category_ with
  | Category.Ref => "#REF!"
  | Category.Value => "#VALUE!"
  | Category.Arithmetic => "#ARITHM!"

/-- The algorithm `std::unique` on a whole vector, followed by the `resize`: of every run of
consecutive equal elements only the first is kept. -/
def stdUnique {α : Type} [DecidableEq α] : List α → List α
  | [] => []
  | [a] => [a]
  | a :: b :: rest => if a = b then stdUnique (b :: rest) else a :: stdUnique (b :: rest)

/-- The body of `Formula::GetReferencedCells`, given what `ast_.GetCells()` returned: keep the valid
positions, then `std::unique`. -/
def referencedOf (cells : List Position) : List Position :=
  stdUnique (cells.filter fun cell => cell.IsValid)

variable {Num AST : Type}

/-- The method `Formula::GetReferencedCells`. -/
def Formula.GetReferencedCells (fc : FormulaCompiler Num AST) (ast_ : AST) : List Position :=
  referencedOf (fc.GetCells ast_)

/-- The method `Formula::GetExpression`. -/
def Formula.GetExpression (fc : FormulaCompiler Num AST) (ast_ : AST) : String :=
  fc.PrintFormula ast_

/-! ## cell.cpp: the content variants -/

/-- The classes `Cell::EmptyImpl`, `Cell::TextImpl`, `Cell::FormulaImpl` with the fields `value_`
and `text_` of their base `Cell::Impl`; `FormulaImpl` adds `formula_int_`, the compiled formula. -/
inductive Impl (Num AST : Type) where
  | EmptyImpl (value_ : Value Num) (text_ : String)
  | TextImpl (value_ : Value Num) (text_ : String)
  | FormulaImpl (value_ : Value Num) (text_ : String) (formula_int_ : AST)
deriving DecidableEq

/-- The apostrophe, the escape sign tested by `TextImpl`. -/
def apostrophe : Char := Char.ofNat 39

/-- The constructor `EmptyImpl()`. -/
def EmptyImpl.new : Impl Num AST :=
  Impl.EmptyImpl (Value.str "") ""

/-- The constructor `TextImpl(text)`: `text_` is the text, `value_` the text without one leading
apostrophe. -/
def TextImpl.new (text : String) : Impl Num AST :=
  Impl.TextImpl
    (Value.str (if text.data.head? = some apostrophe then String.mk (text.data.drop 1) else text))
    text

/-- The constructor `FormulaImpl(formula)`: drops the equals sign, compiles the rest with
`ParseFormula` (which throws `FormulaException` when the compiler throws), and stores the text
`"=" + GetExpression()`. -/
def FormulaImpl.new (fc : FormulaCompiler Num AST) (formula : String) :
    Except SheetError (Impl Num AST) :=
  let formula1 := String.mk (formula.data.drop 1)
  match fc.ParseFormulaAST formula1 with
  | none => Except.error SheetError.Formula
  | some ast => Except.ok (Impl.FormulaImpl (Value.str formula1)
      (String.mk ("=".data ++ (Formula.GetExpression fc ast).data)) ast)

/-- The method `Impl::GetText`. -/
def Impl.GetText : Impl Num AST → String
  | Impl.EmptyImpl _ text_ => text_
  | Impl.TextImpl _ text_ => text_
  | Impl.FormulaImpl _ text_ _ => text_

/-- The method `Impl::GetReferencedCells`: empty by default, overridden by `FormulaImpl`. -/
def Impl.GetReferencedCells (fc : FormulaCompiler Num AST) : Impl Num AST → List Position
  | Impl.EmptyImpl _ _ => []
  | Impl.TextImpl _ _ => []
  | Impl.FormulaImpl _ _ formula_int_ => Formula.GetReferencedCells fc formula_int_

/-- The test `dynamic_cast<FormulaImpl*>(impl_.get())`. -/
def Impl.isFormula : Impl Num AST → Bool
  | Impl.FormulaImpl _ _ _ => true
  | _ => false

/-- The class `Cell` without its back-reference `sheet_`, which every operation below takes as an
argument: the content `impl_` and the cache `cache_`. -/
structure Cell (Num AST : Type) where
  impl_ : Impl Num AST
  cache_ : Option (Value Num)
deriving DecidableEq

/-- The constructor `Cell(sheet)`: empty content, no cached value. -/
def Cell.new : Cell Num AST :=
  { impl_ := EmptyImpl.new, cache_ := none }

/-- The method `Cell::GetText`. -/
def Cell.GetText (c : Cell Num AST) : String :=
  c.impl_.GetText

/-- The method `Cell::GetReferencedCells`. -/
def Cell.GetReferencedCells (fc : FormulaCompiler Num AST) (c : Cell Num AST) : List Position :=
  c.impl_.GetReferencedCells fc

/-- The method `Cell::InvalidateCache`. -/
def Cell.InvalidateCache (c : Cell Num AST) : Cell Num AST :=
  { c with cache_ := none }

/-- The method `Cell::SetImpl`: replace the content, then drop the cache. -/
def Cell.SetImpl (c : Cell Num AST) (impl : Impl Num AST) : Cell Num AST :=
  Cell.InvalidateCache { c with impl_ := impl }

/-- The method `Cell::Clear`. -/
def Cell.Clear (c : Cell Num AST) : Cell Num AST :=
  c.SetImpl EmptyImpl.new

/-! ## sheet.cpp: the grid -/

/-- The class `Sheet`: the member `cells_`, rows of optional owned cells. -/
structure Sheet (Num AST : Type) where
  cells_ : List (List (Option (Cell Num AST)))
deriving DecidableEq

/-- The sheet `CreateSheet()` returns: no rows. -/
def Sheet.empty : Sheet Num AST :=
  { cells_ := [] }

/-- The method `std::vector::resize(n)` with value-initialised new elements `d`. -/
def vecResize {α : Type} (v : List α) (n : Nat) (d : α) : List α :=
  v.take n ++ List.replicate (n - v.length) d

/-- The expression `cells_[row][col]`; `none` is the null pointer (also outside the allocated
extent, where the sources never index). -/
def Sheet.slot (s : Sheet Num AST) (row col : Nat) : Option (Cell Num AST) :=
  ((s.cells_.getD row []).getD col none)

/-- The assignment `cells_[row][col] = x`. -/
def Sheet.putSlot (s : Sheet Num AST) (row col : Nat) (x : Option (Cell Num AST)) :
    Sheet Num AST :=
  { cells_ := s.cells_.set row ((s.cells_.getD row []).set col x) }

/-- The method `Sheet::GetCell` (both overloads have the same body). -/
def Sheet.GetCell (s : Sheet Num AST) (pos : Position) :
    Except SheetError (Option (Cell Num AST)) :=
  if !pos.IsValid then Except.error SheetError.InvalidPosition
  else if pos.row ≥ (s.cells_.length : Int) then Except.ok none
  else if pos.col ≥ ((s.cells_.getD pos.row.toNat []).length : Int) then Except.ok none
  else Except.ok (s.slot pos.row.toNat pos.col.toNat)

/-- The method `Sheet::ClearCell`. -/
def Sheet.ClearCell (s : Sheet Num AST) (pos : Position) : Except SheetError Unit × Sheet Num AST :=
  if !pos.IsValid then (Except.error SheetError.InvalidPosition, s)
  else if pos.row ≥ (s.cells_.length : Int) then (Except.ok (), s)
  else if pos.col ≥ ((s.cells_.getD pos.row.toNat []).length : Int) then (Except.ok (), s)
  else
    match s.slot pos.row.toNat pos.col.toNat with
    | some c => (Except.ok (), s.putSlot pos.row.toNat pos.col.toNat (some c.Clear))
    | none => (Except.ok (), s)

/-- The number of allocated slots of the grid, the sum of the row sizes. -/
def Sheet.slotCount (s : Sheet Num AST) : Nat :=
  (s.cells_.map List.length).sum

/-! ## cell.cpp: the cycle check -/

/-- The loop `for (auto& pos : refs)` shared by `Cell::Set` and `Cell::HasCircularDependency`: look
the position up with `Sheet::GetCell`, skip it when there is no cell, otherwise run `visit` on the
cell found and stop with `true` as soon as one call returns `true`. The visited set is threaded
through the calls. An `InvalidPositionException` of `GetCell` leaves the loop. -/
def refsLoop (sheet : Sheet Num AST)
    (visit : List Position → Position → Cell Num AST → Except SheetError (Bool × List Position)) :
    List Position → List Position → Except SheetError (Bool × List Position)
  | visited, [] => Except.ok (false, visited)
  | visited, pos :: rest =>
    match sheet.GetCell pos with
    | Except.error e => Except.error e
    | Except.ok none => refsLoop sheet visit visited rest
    | Except.ok (some ref) =>
      match visit visited pos ref with
      | Except.error e => Except.error e
      | Except.ok (true, visited1) => Except.ok (true, visited1)
      | Except.ok (false, visited1) => refsLoop sheet visit visited1 rest

/-- The method `Cell::HasCircularDependency(target, visited)` called on the cell `c` that the sheet
owns at position `this`; the result is paired with the visited set after the call. Two cell
pointers are equal when their positions are. The first argument bounds the depth of the recursion:
every nested call has put one more cell into `visited`, so the depth never exceeds the number of
slots, and `Cell.Set` passes more than that. -/
def Cell.HasCircularDependency (fc : FormulaCompiler Num AST) (sheet : Sheet Num AST)
    (target : Position) :
    Nat → List Position → Position → Cell Num AST → Except SheetError (Bool × List Position)
  | 0, visited, _, _ => Except.ok (false, visited)
  | depth + 1, visited, this, c =>
    if this = target then Except.ok (true, visited)
    else if this ∈ visited then Except.ok (false, visited)
    else
      refsLoop sheet (Cell.HasCircularDependency fc sheet target depth) (this :: visited)
        (c.GetReferencedCells fc)

/-- The first part of `Cell::Set`: the new content built from the text. An empty text gives
`EmptyImpl`, a text longer than one character that starts with the equals sign gives `FormulaImpl`,
every other text `TextImpl`. -/
def Impl.ofText (fc : FormulaCompiler Num AST) (text : String) :
    Except SheetError (Impl Num AST) :=
  if text.data.length = 0 then Except.ok EmptyImpl.new
  else if text.data.length > 1 ∧ text.data.head? = some (Char.ofNat 61) then FormulaImpl.new fc text
  else Except.ok (TextImpl.new text)

/-- The method `Cell::Set(text)` called on the cell `c` that the sheet owns at position `this`:
the result and the cell after the call. -/
def Cell.Set (fc : FormulaCompiler Num AST) (sheet : Sheet Num AST) (this : Position)
    (c : Cell Num AST) (text : String) : Except SheetError Unit × Cell Num AST :=
  match Impl.ofText fc text with
  | Except.error e => (Except.error e, c)
  | Except.ok impl =>
    if impl.isFormula then
      match refsLoop sheet (Cell.HasCircularDependency fc sheet this (sheet.slotCount + 1)) []
          (impl.GetReferencedCells fc) with
      | Except.error e => (Except.error e, c)
      | Except.ok (true, _) => (Except.error SheetError.CircularDependency, c)
      | Except.ok (false, _) => (Except.ok (), c.SetImpl impl)
    else (Except.ok (), c.SetImpl impl)

/-- The first `resize` of `Sheet::SetCell`: not enough rows, so grow to `row + 1` rows. -/
def Sheet.growRows (s : Sheet Num AST) (row : Nat) : Sheet Num AST :=
  if s.cells_.length ≤ row then { cells_ := vecResize s.cells_ (row + 1) [] } else s

/-- The second `resize` of `Sheet::SetCell`: not enough columns in the row, so grow the row to
`col + 1` slots. -/
def Sheet.growCols (s : Sheet Num AST) (row col : Nat) : Sheet Num AST :=
  if (s.cells_.getD row []).length ≤ col then
    { cells_ := s.cells_.set row (vecResize (s.cells_.getD row []) (col + 1) none) }
  else s

/-- The two `resize` calls of `Sheet::SetCell`: grow the rows, then the columns of the row. -/
def Sheet.grow (s : Sheet Num AST) (row col : Nat) : Sheet Num AST :=
  (s.growRows row).growCols row col

/-- The method `Sheet::SetCell`: the result and the sheet after the call. After growing the grid,
a null slot gets a new empty cell; then `Cell::Set` runs on the cell of the slot. -/
def Sheet.SetCell (fc : FormulaCompiler Num AST) (s : Sheet Num AST) (pos : Position)
    (text : String) : Except SheetError Unit × Sheet Num AST :=
  if !pos.IsValid then (Except.error SheetError.InvalidPosition, s)
  else
    let s1 := s.grow pos.row.toNat pos.col.toNat
    let c : Cell Num AST :=
      match s1.slot pos.row.toNat pos.col.toNat with
      | some c => c
      | none => Cell.new
    let s2 := s1.putSlot pos.row.toNat pos.col.toNat (some c)
    let r := Cell.Set fc s2 pos c text
    (r.1, s2.putSlot pos.row.toNat pos.col.toNat (some r.2))

/-- The struct `Size` of `common.h`. -/
structure Size where
  rows : Nat
  cols : Nat
deriving DecidableEq, Repr

/-- The method `Sheet::GetPrintableSize`: both loops run over the allocated extent. -/
def Sheet.GetPrintableSize (s : Sheet Num AST) : Size :=
  (List.range s.cells_.length).foldl
    (fun result row =>
      (List.range (s.cells_.getD row []).length).foldl
        (fun result col =>
          match s.slot row col with
          | some cell =>
            if cell.GetText.data.length ≠ 0 then
              { rows := max result.rows (row + 1), cols := max result.cols (col + 1) }
            else result
          | none => result)
        result)
    { rows := 0, cols := 0 }

/-! ## Evaluation: `Formula::Evaluate`, `FormulaImpl::GetValue`, `Cell::GetValue` -/

/-- The assignment `cache_ = v` in the cell at a position. -/
def Sheet.setCache (s : Sheet Num AST) (pos : Position) (v : Value Num) : Sheet Num AST :=
  match s.slot pos.row.toNat pos.col.toNat with
  | some c => s.putSlot pos.row.toNat pos.col.toNat (some { c with cache_ := some v })
  | none => s

/-- The second half of the lambda `args_func` of `Formula::Evaluate`, after `cell->GetValue()`: a
number is returned as it is; an empty string is `0.0`; for another string the test
`in >> result && in.eof()` decides: the extraction has to succeed and `in.eof()` has to hold after
it, otherwise `Value` is thrown; an error value is thrown again. After a successful extraction of
a `double` the stream has `eofbit` set exactly when the extraction stopped at the end of the
characters, that is when it left none unread. -/
def argOfValue (fc : FormulaCompiler Num AST) : Value Num → Except FormulaError Num
  | Value.num num => Except.ok num
  | Value.str str =>
    if str.data.length = 0 then Except.ok fc.zero
    else
      match fc.extract str.data with
      | some (result, rest) =>
        if rest.isEmpty then Except.ok result else Except.error ⟨Category.Value⟩
      | none => Except.error ⟨Category.Value⟩
  | Value.err e => Except.error e

/-- The lambda `args_func` of `Formula::Evaluate`, given `Cell::GetValue` as `getValue`: the number
for a position, or the `FormulaError` thrown, with the sheet after the call (reading a cell may
fill caches). An invalid position throws `Ref`, a position without a cell gives `0.0`. The result
is `none` when the call does not return. -/
def args_func (fc : FormulaCompiler Num AST)
    (getValue : Sheet Num AST → Position → Option (Value Num × Sheet Num AST))
    (sheet : Sheet Num AST) (pos : Position) :
    Option (Except FormulaError Num × Sheet Num AST) :=
  if !pos.IsValid then some (Except.error ⟨Category.Ref⟩, sheet)
  else
    match sheet.GetCell pos with
    | Except.error _ => none
    | Except.ok none => some (Except.ok fc.zero, sheet)
    | Except.ok (some _) =>
      match getValue sheet pos with
      | none => none
      | some (val, sheet1) => some (argOfValue fc val, sheet1)

/-- The call `ast_.Execute(args_func)`: the program of the compiled formula run against
the resolver. -/
def runExec (resolve : Sheet Num AST → Position → Option (Except FormulaError Num × Sheet Num AST)) :
    Exec Num → Sheet Num AST → Option (Except FormulaError Num × Sheet Num AST)
  | Exec.done r, sheet => some (r, sheet)
  | Exec.ask pos k, sheet =>
    match resolve sheet pos with
    | none => none
    | some (r, sheet1) => runExec resolve (k r) sheet1

/-- The conversion at the end of `FormulaImpl::GetValue`: what `Formula::Evaluate` returned, a
number or the caught `FormulaError`, as a cell value. -/
def Value.ofEvaluate : Except FormulaError Num → Value Num
  | Except.ok x => Value.num x
  | Except.error e => Value.err e

/-- The method `Cell::GetValue` called on the cell the sheet owns at `pos`: the value returned and
the sheet after the call. A present cache is returned as it is; otherwise the content is evaluated
(`EmptyImpl`/`TextImpl` give `value_`, `FormulaImpl` runs `Formula::Evaluate`) and the result is
stored in the cache. The first argument bounds the nesting of `GetValue` calls through formula
references; the result is `none` when the bound is hit (a chain of references that deep, or a
cycle) or when there is no cell at `pos`. Here the steps `FormulaImpl::GetValue` and
`Formula::Evaluate` are taken at once and a `FormulaError` is a value throughout;
`Cell.GetValueThrowing` below goes through both methods with the thrown errors explicit. -/
def Cell.GetValue (fc : FormulaCompiler Num AST) :
    Nat → Sheet Num AST → Position → Option (Value Num × Sheet Num AST)
  | depth, sheet, pos =>
    match sheet.slot pos.row.toNat pos.col.toNat with
    | none => none
    | some c =>
      match c.cache_ with
      | some v => some (v, sheet)
      | none =>
        match c.impl_ with
        | Impl.EmptyImpl value_ _ => some (value_, sheet.setCache pos value_)
        | Impl.TextImpl value_ _ => some (value_, sheet.setCache pos value_)
        | Impl.FormulaImpl _ _ formula_int_ =>
          match depth with
          | 0 => none
          | depth1 + 1 =>
            match runExec (args_func fc (Cell.GetValue fc depth1)) (fc.Execute formula_int_)
                sheet with
            | none => none
            | some (r, sheet1) =>
              some (Value.ofEvaluate r, sheet1.setCache pos (Value.ofEvaluate r))

/-! ## Operation sequences -/

/-- One call on the sheet's public interface: `SetCell(pos, text)`, `ClearCell(pos)`, or
`GetCell(pos)->GetValue()` (with the bound on the nesting of the evaluation). -/
inductive Op where
  | setCell : Position → String → Op
  | clearCell : Position → Op
  | getValue : Nat → Position → Op
deriving DecidableEq

/-- The sheet after one call; `none` when a `GetValue` call does not return or has no cell to be
called on (`GetCell` threw or returned null). A `SetCell` or `ClearCell` that throws still yields
the sheet it leaves behind. -/
def Sheet.step (fc : FormulaCompiler Num AST) (s : Sheet Num AST) : Op → Option (Sheet Num AST)
  | Op.setCell pos text => some (Sheet.SetCell fc s pos text).2
  | Op.clearCell pos => some (Sheet.ClearCell s pos).2
  | Op.getValue depth pos =>
    match s.GetCell pos with
    | Except.ok (some _) => (Cell.GetValue fc depth s pos).map Prod.snd
    | _ => none

/-- The sheet after a sequence of calls, first call first. -/
def Sheet.run (fc : FormulaCompiler Num AST) : Sheet Num AST → List Op → Option (Sheet Num AST)
  | s, [] => some s
  | s, op :: ops =>
    match s.step fc op with
    | none => none
    | some s1 => Sheet.run fc s1 ops

/-- A call that changes content: `SetCell` or `ClearCell`. -/
def Op.isMutation : Op → Bool
  | Op.getValue _ _ => false
  | _ => true

/-! ## A compiler instance for concrete evaluation

The fragment of the formula language made of cell references (`A1` to `Z9`) joined by `+`, with
integers for numbers. It serves to run the definitions above on concrete sheets. -/

namespace Example

/-- A reference: a capital letter for the column and a digit from 1 to 9 for the row. -/
def parseRef (l d : Char) : Option Position :=
  if 65 ≤ l.toNat ∧ l.toNat ≤ 90 ∧ 49 ≤ d.toNat ∧ d.toNat ≤ 57 then
    some ⟨(d.toNat - 49 : Nat), (l.toNat - 65 : Nat)⟩
  else none

/-- References joined by `+`. -/
def parseSum : List Char → Option (List Position)
  | [l, d] => (parseRef l d).map fun p => [p]
  | l :: d :: plus :: rest =>
    if plus = Char.ofNat 43 then
      match parseRef l d, parseSum rest with
      | some p, some ps => some (p :: ps)
      | _, _ => none
    else none
  | _ => none

/-- The canonical text of a reference. -/
def printRef (p : Position) : List Char :=
  [Char.ofNat (65 + p.col.toNat), Char.ofNat (49 + p.row.toNat)]

/-- The canonical text of a sum of references. -/
def printSum : List Position → List Char
  | [] => []
  | [p] => printRef p
  | p :: q :: rest => printRef p ++ Char.ofNat 43 :: printSum (q :: rest)

/-- The sum of the referenced values, read left to right; the first error of the resolver ends
the run. -/
def execSum : List Position → Int → Exec Int
  | [], acc => Exec.done (Except.ok acc)
  | p :: ps, acc =>
    Exec.ask p fun r =>
      match r with
      | Except.ok x => execSum ps (acc + x)
      | Except.error e => Exec.done (Except.error e)

/-- The longest prefix of decimal digits read as a number, with the characters after it. -/
def readDigits : List Char → Int → Int × List Char
  | [], acc => (acc, [])
  | d :: ds, acc =>
    if 48 ≤ d.toNat ∧ d.toNat ≤ 57 then readDigits ds (10 * acc + (d.toNat - 48 : Nat))
    else (acc, d :: ds)

/-- An extraction that reads decimal digits: it fails when the first character is not a digit,
and stops at the first character that is not a digit. -/
def extractDigits : List Char → Option (Int × List Char)
  | [] => none
  | d :: ds => if 48 ≤ d.toNat ∧ d.toNat ≤ 57 then some (readDigits (d :: ds) 0) else none

/-- The compiler instance. -/
def compiler : FormulaCompiler Int (List Position) where
  zero := 0
  extract := extractDigits
  ParseFormulaAST expression := parseSum expression.data
  Execute ast := execSum ast 0
  PrintFormula ast := String.mk (printSum ast)
  GetCells ast := ast

/-- The position written `A1`. -/
def A1 : Position := ⟨0, 0⟩

/-- The position written `B1`. -/
def B1 : Position := ⟨0, 1⟩

/-- The position written `C5`. -/
def C5 : Position := ⟨4, 2⟩

/-- Two calls: `SetCell(A1, "=B1")`, then `SetCell(B1, "=A1")`, which fails. -/
def opsAB : List Op := [Op.setCell A1 "=B1", Op.setCell B1 "=A1"]

/-- The sheet after `opsAB`. -/
def sheetAB : Sheet Int (List Position) :=
  (Sheet.SetCell compiler (Sheet.SetCell compiler Sheet.empty A1 "=B1").2 B1 "=A1").2

/-- The sheet after `SetCell(B1, "1")` and `SetCell(A1, "=B1")`. -/
def sheetB1A1 : Sheet Int (List Position) :=
  (Sheet.SetCell compiler (Sheet.SetCell compiler Sheet.empty B1 "1").2 A1 "=B1").2

/-- The sheet `sheetB1A1` after `GetValue()` on `A1`: both cells hold a cached value. -/
def sheetB1A1read : Sheet Int (List Position) :=
  { cells_ := [[some ⟨Impl.FormulaImpl (Value.str "B1") "=B1" [B1], some (Value.num 1)⟩,
               some ⟨Impl.TextImpl (Value.str "1") "1", some (Value.str "1")⟩]] }

/-- The sheet after `SetCell(B1, "1")`, `SetCell(A1, "=B1")`, `GetValue()` on `A1` and
`SetCell(B1, "2")`: the cache of `A1` still holds the number 1. -/
def sheetStale : Sheet Int (List Position) :=
  { cells_ := [[some ⟨Impl.FormulaImpl (Value.str "B1") "=B1" [B1], some (Value.num 1)⟩,
               some ⟨Impl.TextImpl (Value.str "2") "2", none⟩]] }

/-- The sheet after `SetCell(C5, "x")` on the empty sheet. -/
def sheetC5 : Sheet Int (List Position) :=
  (Sheet.SetCell compiler Sheet.empty C5 "x").2

/-- The position written `C1`. -/
def C1 : Position := ⟨0, 2⟩

/-- Three calls: `SetCell(B1, "x")`, `SetCell(A1, "=B1")`, `SetCell(C1, "=A1")`. -/
def opsErr : List Op := [Op.setCell B1 "x", Op.setCell A1 "=B1", Op.setCell C1 "=A1"]

/-- The sheet after `opsErr`: `A1` reads the text `x` and evaluates to the error `Value`. -/
def sheetErr : Sheet Int (List Position) :=
  { cells_ := [[some ⟨Impl.FormulaImpl (Value.str "B1") "=B1" [B1], none⟩,
               some ⟨Impl.TextImpl (Value.str "x") "x", none⟩,
               some ⟨Impl.FormulaImpl (Value.str "A1") "=A1" [A1], none⟩]] }

/-- A sheet state with a cycle, which no sequence of calls produces: `=B1` in `A1` and `=A1`
in `B1`. -/
def sheetCycle : Sheet Int (List Position) :=
  { cells_ := [[some ⟨Impl.FormulaImpl (Value.str "B1") "=B1" [B1], none⟩,
               some ⟨Impl.FormulaImpl (Value.str "A1") "=A1" [A1], none⟩]] }

/-- The sheet after `SetCell(A1, "12abc")` on the empty sheet. -/
def sheet12abc : Sheet Int (List Position) :=
  (Sheet.SetCell compiler Sheet.empty A1 "12abc").2

/-- The position written `D1`. -/
def D1 : Position := ⟨0, 3⟩

/-- The sheet with the text `x` in `B1`, `=B1` in `A1` and `=D1+A1` in `C1`; there is no cell
at `D1`. -/
def sheetErrSecond : Sheet Int (List Position) :=
  { cells_ := [[some ⟨Impl.FormulaImpl (Value.str "B1") "=B1" [B1], none⟩,
               some ⟨Impl.TextImpl (Value.str "x") "x", none⟩,
               some ⟨Impl.FormulaImpl (Value.str "D1+A1") "=D1+A1" [D1, A1], none⟩]] }

/-- Six calls: `SetCell(B1, "1")`, `SetCell(A1, "=B1")`, `GetValue()` on `A1`,
`SetCell(C1, "5")`, `SetCell(B1, "=A1")`, `GetValue()` on `C1`. The write to `C1` comes after
the read of `A1`, and the formula of `A1` does not read `C1`; the second write to `B1`, which
the formula of `A1` reads, fails with a circular dependency. -/
def opsKept : List Op :=
  [Op.setCell B1 "1", Op.setCell A1 "=B1", Op.getValue 1 A1, Op.setCell C1 "5",
    Op.setCell B1 "=A1", Op.getValue 0 C1]

/-- The sheet after `opsKept`: all three cells hold a cached value. -/
def sheetKept : Sheet Int (List Position) :=
  { cells_ := [[some ⟨Impl.FormulaImpl (Value.str "B1") "=B1" [B1], some (Value.num 1)⟩,
               some ⟨Impl.TextImpl (Value.str "1") "1", some (Value.str "1")⟩,
               some ⟨Impl.TextImpl (Value.str "5") "5", some (Value.str "5")⟩]] }

end Example

/-! ## Predicates and auxiliary functions used in the statements and proofs -/

/-- The cell `Sheet::SetCell` works on: the one already in the slot, or the new empty cell. -/
def Sheet.cellOrNew (s : Sheet Num AST) (row col : Nat) : Cell Num AST :=
  match (s.grow row col).slot row col with
  | some c => c
  | none => Cell.new

/-- The sheet `Sheet::SetCell` hands to `Cell::Set`: grown, with a cell in the slot. -/
def Sheet.prepared (s : Sheet Num AST) (row col : Nat) : Sheet Num AST :=
  (s.grow row col).putSlot row col (some (s.cellOrNew row col))

/-- The sheet with every cache dropped: what is left is the shape of the grid and the content of
every cell. -/
def Sheet.eraseCaches (s : Sheet Num AST) : Sheet Num AST :=
  { cells_ := s.cells_.map (List.map (Option.map Cell.InvalidateCache)) }

/-- A relation between the sheet before and after a call that holds for no change and composes. -/
structure Sheet.Frame (Rel : Sheet Num AST → Sheet Num AST → Prop) : Prop where
  refl : ∀ s, Rel s s
  trans : ∀ s1 s2 s3, Rel s1 s2 → Rel s2 s3 → Rel s1 s3

/-- A cell with non-empty text sits in the slot. -/
def Sheet.hasText (s : Sheet Num AST) (row col : Nat) : Prop :=
  ∃ cell, s.slot row col = some cell ∧ cell.GetText ≠ ""

/-- The step of the inner loop of `GetPrintableSize`. -/
def Sheet.sizeStep (s : Sheet Num AST) (row : Nat) (result : Size) (col : Nat) : Size :=
  match s.slot row col with
  | some cell =>
    if cell.GetText.data.length ≠ 0 then
      { rows := max result.rows (row + 1), cols := max result.cols (col + 1) }
    else result
  | none => result

/-- What the inner loop of `GetPrintableSize` has established after the first `n` columns
of a row. -/
def Sheet.rowInv (s : Sheet Num AST) (row : Nat) (R : Size) (n : Nat) (R1 : Size) : Prop :=
  R.rows ≤ R1.rows ∧ R.cols ≤ R1.cols ∧
  (∀ col, col < n → s.hasText row col → row + 1 ≤ R1.rows ∧ col + 1 ≤ R1.cols) ∧
  (R1.rows = R.rows ∨ (R1.rows = row + 1 ∧ ∃ col, s.hasText row col)) ∧
  (R1.cols = R.cols ∨ ∃ col, s.hasText row col ∧ R1.cols = col + 1)

/-- What the outer loop of `GetPrintableSize` has established after the first `m` rows. -/
def Sheet.gridInv (s : Sheet Num AST) (m : Nat) (F : Size) : Prop :=
  (∀ row col, row < m → s.hasText row col → row + 1 ≤ F.rows ∧ col + 1 ≤ F.cols) ∧
  (F.rows = 0 ∨ ∃ row col, s.hasText row col ∧ F.rows = row + 1) ∧
  (F.cols = 0 ∨ ∃ row col, s.hasText row col ∧ F.cols = col + 1)

/-- The referenced positions of the cell `GetCell(p)` returns; none when there is no cell. -/
def Sheet.refsAt (fc : FormulaCompiler Num AST) (s : Sheet Num AST) (p : Position) :
    List Position :=
  match s.GetCell p with
  | Except.ok (some c) => c.GetReferencedCells fc
  | _ => []

/-- An existing cell at `p` lists `q` in its `GetReferencedCells()`. -/
def Sheet.Edge (fc : FormulaCompiler Num AST) (s : Sheet Num AST) (p q : Position) : Prop :=
  q ∈ s.refsAt fc p

/-- The sheet has a cell at the position. -/
def Sheet.HasCell (s : Sheet Num AST) (p : Position) : Prop :=
  ∃ c, s.GetCell p = Except.ok (some c)

/-- An edge of the dependency graph: an existing cell at `p` lists `q` in its
`GetReferencedCells()`, and there is a cell at `q`. -/
def Sheet.Refers (fc : FormulaCompiler Num AST) (s : Sheet Num AST) (p q : Position) : Prop :=
  s.Edge fc p q ∧ s.HasCell q

/-- The positions of all allocated slots from row `row0` on. -/
def slotPositions {α : Type} : Nat → List (List α) → List Position
  | _, [] => []
  | row0, row :: rest =>
    List.map (fun col => Position.mk (Int.ofNat row0) (Int.ofNat col)) (List.range row.length)
      ++ slotPositions (row0 + 1) rest

/-- How many of the listed positions are not in the visited set. -/
def unvisited : List Position → List Position → Nat
  | [], _ => 0
  | a :: L, V => (if a ∈ V then 0 else 1) + unvisited L V

/-- What a call of the cycle check that returned `false` has done to the visited set: it only
grew, the target is not in it, and every cell it added has all its existing referenced cells
in it. -/
def Sheet.Explored (fc : FormulaCompiler Num AST) (s : Sheet Num AST) (target : Position)
    (V V1 : List Position) : Prop :=
  (∀ x, x ∈ V → x ∈ V1) ∧ target ∉ V1 ∧
  ∀ u, u ∈ V1 → u ∉ V → ∀ w, w ∈ s.refsAt fc u → s.HasCell w → w ∈ V1

/-- The outcome of a call of the cycle check or of its loop: `true`, or `false` with the visited
set explored and `Q` established. -/
def Sheet.Outcome (fc : FormulaCompiler Num AST) (s : Sheet Num AST) (target : Position)
    (V : List Position) (Q : List Position → Prop)
    (res : Except SheetError (Bool × List Position)) : Prop :=
  (∃ V1, res = Except.ok (true, V1)) ∨
  (∃ V1, res = Except.ok (false, V1) ∧ s.Explored fc target V V1 ∧ Q V1)

/-- No position reaches itself along one or more edges. -/
def Sheet.Acyclic (fc : FormulaCompiler Num AST) (s : Sheet Num AST) : Prop :=
  ∀ p, ¬ Relation.TransGen (s.Edge fc) p p

/-- The lambda `args_func` when the referenced cell is evaluated by `eval`, which reads no cache
and changes nothing. -/
def freshArg (fc : FormulaCompiler Num AST)
    (eval : Position → Option (Value Num)) (sheet : Sheet Num AST) (pos : Position) :
    Option (Except FormulaError Num) :=
  if !pos.IsValid then some (Except.error ⟨Category.Ref⟩)
  else
    match sheet.GetCell pos with
    | Except.error _ => none
    | Except.ok none => some (Except.ok fc.zero)
    | Except.ok (some _) =>
      match eval pos with
      | none => none
      | some val => some (argOfValue fc val)

/-- The call `ast_.Execute(args_func)` against a resolver that changes nothing. -/
def runFresh (resolve : Position → Option (Except FormulaError Num)) :
    Exec Num → Option (Except FormulaError Num)
  | Exec.done r => some r
  | Exec.ask pos k =>
    match resolve pos with
    | none => none
    | some r => runFresh resolve (k r)

/-- The value the content of the cell at `pos` evaluates to against the current contents of
the sheet, with all caches ignored: `Cell::GetValue` without its cache test and cache
assignment, for the cell and for every cell its formula reads. The first argument bounds the
nesting, as in `Cell.GetValue`. -/
def Sheet.freshValue (fc : FormulaCompiler Num AST) :
    Nat → Sheet Num AST → Position → Option (Value Num)
  | depth, sheet, pos =>
    match sheet.slot pos.row.toNat pos.col.toNat with
    | none => none
    | some c =>
      match c.impl_ with
      | Impl.EmptyImpl value_ _ => some value_
      | Impl.TextImpl value_ _ => some value_
      | Impl.FormulaImpl _ _ formula_int_ =>
        match depth with
        | 0 => none
        | depth1 + 1 =>
          (runFresh (freshArg fc (Sheet.freshValue fc depth1 sheet) sheet)
            (fc.Execute formula_int_)).map Value.ofEvaluate

/-- Every cached value is the value the cell's content evaluates to with all caches ignored. -/
def Sheet.Coherent (fc : FormulaCompiler Num AST) (s : Sheet Num AST) : Prop :=
  ∀ pos c v, s.GetCell pos = Except.ok (some c) → c.cache_ = some v →
    ∃ d, s.freshValue fc d pos = some v

/-- The outcome of a step of an evaluation that started from a coherent sheet: the sheet is
still coherent, no content has changed, and the result `r` is what `fresh` gives from some
nesting bound on. -/
def Sheet.Agrees {ρ : Type} (fc : FormulaCompiler Num AST) (s s1 : Sheet Num AST)
    (fresh : Nat → Option ρ) (r : ρ) : Prop :=
  s1.Coherent fc ∧ s1.eraseCaches = s.eraseCaches ∧ ∃ d, ∀ d1, d ≤ d1 → fresh d1 = some r

/-- No cell of the sheet has a cached value. -/
def Sheet.NoCache (s : Sheet Num AST) : Prop :=
  ∀ row col c, s.slot row col = some c → c.cache_ = none

/-- The value is a number or a `FormulaError`, not a string. -/
def Value.isNumOrErr : Value Num → Prop
  | Value.str _ => False
  | Value.num _ => True
  | Value.err _ => True

/-- Every cached value of a cell with a formula is a number or a `FormulaError`. -/
def Sheet.FormulaCachesEvaluated (s : Sheet Num AST) : Prop :=
  ∀ row col c w t a v, s.slot row col = some c → c.impl_ = Impl.FormulaImpl w t a →
    c.cache_ = some v → v.isNumOrErr

/-- The call is a `SetCell` or a `ClearCell` on the position. -/
def Op.writes (pos : Position) : Op → Bool
  | Op.setCell p _ => decide (p = pos)
  | Op.clearCell p => decide (p = pos)
  | Op.getValue _ _ => false

/-- The method `Sheet::PrintTexts(output)`: the content of the stream after the call, given its
content before. -/
def Sheet.PrintTexts (s : Sheet Num AST) (output : String) : String :=
  (List.range s.GetPrintableSize.rows).foldl
    (fun output row =>
      (List.range s.GetPrintableSize.cols).foldl
        (fun output col =>
          let output1 := if col > 0 then output ++ "\t" else output
          if row < s.cells_.length ∧ col < (s.cells_.getD row []).length then
            match s.slot row col with
            | some cell => output1 ++ cell.GetText
            | none => output1
          else output1)
        output ++ "\n")
    output

/-- The field printed for a slot: `GetText()` of the cell when there is one, and the empty
string when the slot is null or beyond the allocated extent. -/
def Sheet.fieldText (s : Sheet Num AST) (row col : Nat) : String :=
  match s.slot row col with
  | some cell => cell.GetText
  | none => ""

/-- Fields separated by single tab characters. -/
def tabSeparated : List String → String
  | [] => ""
  | [a] => a
  | a :: b :: rest => a ++ "\t" ++ tabSeparated (b :: rest)

/-- Lines, each terminated by a newline. -/
def linesOf : List String → String
  | [] => ""
  | l :: ls => l ++ "\n" ++ linesOf ls

/-- The layout of the printed texts: `rows` lines in increasing row order, each made of the
`cols` fields of its row in increasing column order. -/
def Sheet.textLayout (s : Sheet Num AST) (rows cols : Nat) : String :=
  linesOf ((List.range rows).map fun row =>
    tabSeparated ((List.range cols).map fun col => s.fieldText row col))

/-! ## The grid accesses with the bounds of `std::vector` made explicit

`operator[]` outside the allocated extent is undefined behaviour. The definitions below repeat
the methods of `sheet.cpp` with every `cells_[row]` and `cells_[row][col]` checked: they return
`none` as soon as an access falls outside the extent. -/

/-- The expression `cells_[row][col]` with both indices checked. -/
def Sheet.cellsAt? (s : Sheet Num AST) (row col : Nat) : Option (Option (Cell Num AST)) :=
  match s.cells_[row]? with
  | none => none
  | some r => r[col]?

/-- The method `Sheet::GetCell` with checked accesses. -/
def Sheet.GetCellChecked (s : Sheet Num AST) (pos : Position) :
    Option (Except SheetError (Option (Cell Num AST))) :=
  if !pos.IsValid then some (Except.error SheetError.InvalidPosition)
  else if pos.row ≥ (s.cells_.length : Int) then some (Except.ok none)
  else
    match s.cells_[pos.row.toNat]? with
    | none => none
    | some r =>
      if pos.col ≥ (r.length : Int) then some (Except.ok none)
      else
        match s.cellsAt? pos.row.toNat pos.col.toNat with
        | none => none
        | some x => some (Except.ok x)

/-- The method `Sheet::ClearCell` with checked accesses. -/
def Sheet.ClearCellChecked (s : Sheet Num AST) (pos : Position) :
    Option (Except SheetError Unit × Sheet Num AST) :=
  if !pos.IsValid then some (Except.error SheetError.InvalidPosition, s)
  else if pos.row ≥ (s.cells_.length : Int) then some (Except.ok (), s)
  else
    match s.cells_[pos.row.toNat]? with
    | none => none
    | some r =>
      if pos.col ≥ (r.length : Int) then some (Except.ok (), s)
      else
        match s.cellsAt? pos.row.toNat pos.col.toNat with
        | none => none
        | some (some c) =>
          some (Except.ok (), s.putSlot pos.row.toNat pos.col.toNat (some c.Clear))
        | some none => some (Except.ok (), s)

/-- The method `Sheet::SetCell` with checked accesses: `cells_[pos.row]` after the first
`resize`, and `cells_[pos.row][pos.col]` after the second. -/
def Sheet.SetCellChecked (fc : FormulaCompiler Num AST) (s : Sheet Num AST) (pos : Position)
    (text : String) : Option (Except SheetError Unit × Sheet Num AST) :=
  if !pos.IsValid then some (Except.error SheetError.InvalidPosition, s)
  else
    match (s.growRows pos.row.toNat).cells_[pos.row.toNat]? with
    | none => none
    | some _ =>
      let s1 := s.grow pos.row.toNat pos.col.toNat
      match s1.cellsAt? pos.row.toNat pos.col.toNat with
      | none => none
      | some x =>
        let c : Cell Num AST :=
          match x with
          | some c => c
          | none => Cell.new
        let s2 := s1.putSlot pos.row.toNat pos.col.toNat (some c)
        match s2.cellsAt? pos.row.toNat pos.col.toNat with
        | none => none
        | some _ =>
          let r := Cell.Set fc s2 pos c text
          some (r.1, s2.putSlot pos.row.toNat pos.col.toNat (some r.2))

/-- The method `Sheet::GetPrintableSize` with checked accesses. -/
def Sheet.GetPrintableSizeChecked (s : Sheet Num AST) : Option Size :=
  (List.range s.cells_.length).foldlM
    (fun result row =>
      match s.cells_[row]? with
      | none => none
      | some r =>
        (List.range r.length).foldlM
          (fun result col =>
            match s.cellsAt? row col with
            | none => none
            | some (some cell) =>
              if cell.GetText.data.length ≠ 0 then
                some { rows := max result.rows (row + 1), cols := max result.cols (col + 1) }
              else some result
            | some none => some result)
          result)
    { rows := 0, cols := 0 }

/-- The method `Sheet::PrintTexts` with checked accesses: `cells_[row].size()` is read only
after `row < cells_.size()` held, and `cells_[row][col]` only after both tests held. -/
def Sheet.PrintTextsChecked (s : Sheet Num AST) (output : String) : Option String :=
  (List.range s.GetPrintableSize.rows).foldlM
    (fun output row =>
      ((List.range s.GetPrintableSize.cols).foldlM
        (fun output col =>
          let output1 := if col > 0 then output ++ "\t" else output
          if row < s.cells_.length then
            match s.cells_[row]? with
            | none => none
            | some r =>
              if col < r.length then
                match s.cellsAt? row col with
                | none => none
                | some (some cell) => some (output1 ++ cell.GetText)
                | some none => some output1
              else some output1
          else some output1)
        output).map fun out => out ++ "\n")
    output

/-- The method `Sheet::PrintValues(output)`: the content of the stream and the sheet after the
call (reading a value may fill caches). `render` is `output << arg` for a value, and the first
argument bounds the nesting of each `GetValue()` call; the result is `none` when one of them
does not return. -/
def Sheet.PrintValues (fc : FormulaCompiler Num AST) (render : Value Num → String) (depth : Nat)
    (s : Sheet Num AST) (output : String) : Option (String × Sheet Num AST) :=
  (List.range s.GetPrintableSize.rows).foldlM
    (fun (st : String × Sheet Num AST) row =>
      ((List.range s.GetPrintableSize.cols).foldlM
        (fun (st : String × Sheet Num AST) col =>
          let output1 := if col > 0 then st.1 ++ "\t" else st.1
          if row < st.2.cells_.length ∧ col < (st.2.cells_.getD row []).length then
            match st.2.slot row col with
            | some _ =>
              match Cell.GetValue fc depth st.2 ⟨Int.ofNat row, Int.ofNat col⟩ with
              | none => none
              | some (value, sheet1) => some (output1 ++ render value, sheet1)
            | none => some (output1, st.2)
          else some (output1, st.2))
        st).map fun st1 => (st1.1 ++ "\n", st1.2))
    (output, s)

/-- The method `Sheet::PrintValues` with checked accesses. -/
def Sheet.PrintValuesChecked (fc : FormulaCompiler Num AST) (render : Value Num → String)
    (depth : Nat) (s : Sheet Num AST) (output : String) : Option (String × Sheet Num AST) :=
  (List.range s.GetPrintableSize.rows).foldlM
    (fun (st : String × Sheet Num AST) row =>
      ((List.range s.GetPrintableSize.cols).foldlM
        (fun (st : String × Sheet Num AST) col =>
          let output1 := if col > 0 then st.1 ++ "\t" else st.1
          if row < st.2.cells_.length then
            match st.2.cells_[row]? with
            | none => none
            | some r =>
              if col < r.length then
                match st.2.cellsAt? row col with
                | none => none
                | some (some _) =>
                  match Cell.GetValue fc depth st.2 ⟨Int.ofNat row, Int.ofNat col⟩ with
                  | none => none
                  | some (value, sheet1) => some (output1 ++ render value, sheet1)
                | some none => some (output1, st.2)
              else some (output1, st.2)
          else some (output1, st.2))
        st).map fun st1 => (st1.1 ++ "\n", st1.2))
    (output, s)

/-- The position may be handed to the resolver during a run of the program. -/
inductive Exec.Asks : Exec Num → Position → Prop where
  | here (p : Position) (k : Except FormulaError Num → Exec Num) : Exec.Asks (Exec.ask p k) p
  | later (p : Position) (k : Except FormulaError Num → Exec Num) (r : Except FormulaError Num)
      (q : Position) : Exec.Asks (k r) q → Exec.Asks (Exec.ask p k) q

/-- Modelled from the spec: `Execute` calls the resolver only at positions that appear in the
expression, which are the positions `GetCells` lists (section 6 of the spec). -/
def FormulaCompiler.AsksOnlyCells (fc : FormulaCompiler Num AST) : Prop :=
  ∀ ast p, (fc.Execute ast).Asks p → p ∈ fc.GetCells ast

/-- Every chain of references that starts at the position has at most `n` edges. -/
def Sheet.heightLE (fc : FormulaCompiler Num AST) (s : Sheet Num AST) : Nat → Position → Prop
  | 0, p => ∀ q, ¬ s.Edge fc p q
  | n + 1, p => ∀ q, s.Edge fc p q → Sheet.heightLE fc s n q

/-- The loop `for (auto& pos : refs)` of the cycle check when a nested call may fail to return:
the loop of `refsLoop`, with `none` as soon as one call of `visit` has not returned. -/
def refsLoopOpt (sheet : Sheet Num AST)
    (visit : List Position → Position → Cell Num AST →
      Option (Except SheetError (Bool × List Position))) :
    List Position → List Position → Option (Except SheetError (Bool × List Position))
  | visited, [] => some (Except.ok (false, visited))
  | visited, pos :: rest =>
    match sheet.GetCell pos with
    | Except.error e => some (Except.error e)
    | Except.ok none => refsLoopOpt sheet visit visited rest
    | Except.ok (some ref) =>
      match visit visited pos ref with
      | none => none
      | some (Except.error e) => some (Except.error e)
      | some (Except.ok (true, visited1)) => some (Except.ok (true, visited1))
      | some (Except.ok (false, visited1)) => refsLoopOpt sheet visit visited1 rest

/-- The method `Cell::HasCircularDependency(target, visited)` with its nesting counted: the body
of `Cell.HasCircularDependency`, except that a call which would need more than `depth` nested
calls gives `none`, "has not returned", where `Cell.HasCircularDependency` gives `false`. -/
def Cell.HasCircularDependencyOpt (fc : FormulaCompiler Num AST) (sheet : Sheet Num AST)
    (target : Position) :
    Nat → List Position → Position → Cell Num AST →
      Option (Except SheetError (Bool × List Position))
  | 0, _, _, _ => none
  | depth + 1, visited, this, c =>
    if this = target then some (Except.ok (true, visited))
    else if this ∈ visited then some (Except.ok (false, visited))
    else
      refsLoopOpt sheet (Cell.HasCircularDependencyOpt fc sheet target depth) (this :: visited)
        (c.GetReferencedCells fc)

/-! ## Evaluation with the thrown `FormulaError` made explicit

In `Cell.GetValue` above a `FormulaError` is only ever a value. The definitions of this section
repeat the chain `Cell::GetValue`, `FormulaImpl::GetValue`, `Formula::Evaluate`, `args_func`
with results of type `Except FormulaError _`: `Except.error e` is the exception `e` leaving the
call, `Except.ok x` is the call returning `x`. -/

/-- The type `FormulaInterface::Value = std::variant<double, FormulaError>`. -/
inductive FormulaInterface.Value (Num : Type) where
  | num : Num → FormulaInterface.Value Num
  | err : FormulaError → FormulaInterface.Value Num
deriving DecidableEq, Repr

/-- The lambda `args_func` of `Formula::Evaluate`, given `Cell::GetValue` as `getValue`, a call
that may throw: the exception of `cell->GetValue()` leaves the lambda as it is. The rest is the
body of `args_func`. -/
def args_funcThrowing (fc : FormulaCompiler Num AST)
    (getValue : Sheet Num AST → Position →
      Option (Except FormulaError (Value Num) × Sheet Num AST))
    (sheet : Sheet Num AST) (pos : Position) :
    Option (Except FormulaError Num × Sheet Num AST) :=
  if !pos.IsValid then some (Except.error ⟨Category.Ref⟩, sheet)
  else
    match sheet.GetCell pos with
    | Except.error _ => none
    | Except.ok none => some (Except.ok fc.zero, sheet)
    | Except.ok (some _) =>
      match getValue sheet pos with
      | none => none
      | some (Except.error e, sheet1) => some (Except.error e, sheet1)
      | some (Except.ok val, sheet1) => some (argOfValue fc val, sheet1)

/-- The method `Formula::Evaluate(sheet)`, given `Cell::GetValue` as `getValue`: the `try` block
returns the number `ast_.Execute(args_func)` computed; a `FormulaError` thrown during the run,
by the resolver or by the expression, is caught and returned. The result is `none` when the
call does not return. -/
def Formula.Evaluate (fc : FormulaCompiler Num AST)
    (getValue : Sheet Num AST → Position →
      Option (Except FormulaError (Value Num) × Sheet Num AST))
    (ast_ : AST) (sheet : Sheet Num AST) :
    Option (Except FormulaError (FormulaInterface.Value Num) × Sheet Num AST) :=
  match runExec (args_funcThrowing fc getValue) (fc.Execute ast_) sheet with
  | none => none
  | some (Except.ok x, sheet1) => some (Except.ok (FormulaInterface.Value.num x), sheet1)
  | some (Except.error e, sheet1) => some (Except.ok (FormulaInterface.Value.err e), sheet1)

/-- The method `FormulaImpl::GetValue(sheet)`: the number or the `FormulaError` that
`formula_int_->Evaluate(sheet)` returned, as a cell value; an exception of `Evaluate` would
leave the method. -/
def FormulaImpl.GetValue (fc : FormulaCompiler Num AST)
    (getValue : Sheet Num AST → Position →
      Option (Except FormulaError (Value Num) × Sheet Num AST))
    (formula_int_ : AST) (sheet : Sheet Num AST) :
    Option (Except FormulaError (Value Num) × Sheet Num AST) :=
  match Formula.Evaluate fc getValue formula_int_ sheet with
  | none => none
  | some (Except.error e, sheet1) => some (Except.error e, sheet1)
  | some (Except.ok (FormulaInterface.Value.num x), sheet1) =>
    some (Except.ok (Value.num x), sheet1)
  | some (Except.ok (FormulaInterface.Value.err e), sheet1) =>
    some (Except.ok (Value.err e), sheet1)

/-- The method `Cell::GetValue` called on the cell the sheet owns at `pos`, where
`impl_->GetValue(sheet_)` may throw: the exception leaves `Cell::GetValue` before `cache_` is
assigned. The first argument bounds the nesting, as in `Cell.GetValue`. -/
def Cell.GetValueThrowing (fc : FormulaCompiler Num AST) :
    Nat → Sheet Num AST → Position → Option (Except FormulaError (Value Num) × Sheet Num AST)
  | depth, sheet, pos =>
    match sheet.slot pos.row.toNat pos.col.toNat with
    | none => none
    | some c =>
      match c.cache_ with
      | some v => some (Except.ok v, sheet)
      | none =>
        match c.impl_ with
        | Impl.EmptyImpl value_ _ => some (Except.ok value_, sheet.setCache pos value_)
        | Impl.TextImpl value_ _ => some (Except.ok value_, sheet.setCache pos value_)
        | Impl.FormulaImpl _ _ formula_int_ =>
          match depth with
          | 0 => none
          | depth1 + 1 =>
            match FormulaImpl.GetValue fc (Cell.GetValueThrowing fc depth1) formula_int_
                sheet with
            | none => none
            | some (Except.error e, sheet1) => some (Except.error e, sheet1)
            | some (Except.ok value, sheet1) =>
              some (Except.ok value, sheet1.setCache pos value)

/-- The program has no `catch` around its calls of the resolver: when a call throws, the run
ends by throwing that error. -/
inductive Exec.Propagates : Exec Num → Prop where
  | done (r : Except FormulaError Num) : Exec.Propagates (Exec.done r)
  | ask (p : Position) (k : Except FormulaError Num → Exec Num) :
      (∀ e, k (Except.error e) = Exec.done (Except.error e)) →
      (∀ x, Exec.Propagates (k (Except.ok x))) → Exec.Propagates (Exec.ask p k)

/-- The calls of the resolver made during a run, first call first: the position asked and the
sheet at the time of the call. -/
def execReads
    (resolve : Sheet Num AST → Position → Option (Except FormulaError Num × Sheet Num AST)) :
    Exec Num → Sheet Num AST → List (Position × Sheet Num AST)
  | Exec.done _, _ => []
  | Exec.ask pos k, sheet =>
    match resolve sheet pos with
    | none => [(pos, sheet)]
    | some (r, sheet1) => (pos, sheet) :: execReads resolve (k r) sheet1

/-- The value the content of the cell at `pos` evaluates to, as `Sheet.freshValue` computes it,
when every formula the evaluation goes through belongs to a cell that holds a cached value;
`none` as soon as the evaluation meets a formula cell without one. -/
def Sheet.settledValue (fc : FormulaCompiler Num AST) :
    Nat → Sheet Num AST → Position → Option (Value Num)
  | depth, sheet, pos =>
    match sheet.slot pos.row.toNat pos.col.toNat with
    | none => none
    | some c =>
      match c.impl_ with
      | Impl.EmptyImpl value_ _ => some value_
      | Impl.TextImpl value_ _ => some value_
      | Impl.FormulaImpl _ _ formula_int_ =>
        match c.cache_ with
        | none => none
        | some _ =>
          match depth with
          | 0 => none
          | depth1 + 1 =>
            (runFresh (freshArg fc (Sheet.settledValue fc depth1 sheet) sheet)
              (fc.Execute formula_int_)).map Value.ofEvaluate

/-- Every cached value is the value the cell's content evaluates to, and that evaluation goes
only through formulas of cells that hold a cached value. -/
def Sheet.Settled (fc : FormulaCompiler Num AST) (s : Sheet Num AST) : Prop :=
  ∀ pos c v, s.GetCell pos = Except.ok (some c) → c.cache_ = some v →
    ∃ d, s.settledValue fc d pos = some v

/-- The sheet `s1` has the contents of `s` and every cached value of `s`. -/
def Sheet.CacheLE (s s1 : Sheet Num AST) : Prop :=
  s1.eraseCaches = s.eraseCaches ∧
  ∀ row col c v, s.slot row col = some c → c.cache_ = some v →
    ∃ c1, s1.slot row col = some c1 ∧ c1.cache_ = some v

/-- Some cell with a present cache holds a formula whose execution may call the resolver at
the position. -/
def Sheet.CachedReader (fc : FormulaCompiler Num AST) (s : Sheet Num AST) (pos : Position) :
    Prop :=
  ∃ q c v w t a, s.GetCell q = Except.ok (some c) ∧ c.cache_ = some v ∧
    c.impl_ = Impl.FormulaImpl w t a ∧ (fc.Execute a).Asks pos

/-- The call changes the content at a position that the formula of a cell with a present cache
may read: a `SetCell` on that position that succeeds, or a `ClearCell` on that position when
there is a cell. -/
def Sheet.Stales (fc : FormulaCompiler Num AST) (s : Sheet Num AST) : Op → Prop
  | Op.setCell pos text =>
    s.CachedReader fc pos ∧ (Sheet.SetCell fc s pos text).1 = Except.ok ()
  | Op.clearCell pos => s.CachedReader fc pos ∧ s.HasCell pos
  | Op.getValue _ _ => False

/-- In the sequence of calls started in the sheet `s`, no successful `SetCell` and no
`ClearCell` of an existing cell is made on a position that, at the time of the call, the
formula of a cell with a present cache may read. -/
def Sheet.KeepsCaches (fc : FormulaCompiler Num AST) : Sheet Num AST → List Op → Prop
  | _, [] => True
  | s, op :: ops =>
    ¬ s.Stales fc op ∧ ∀ s1, s.step fc op = some s1 → Sheet.KeepsCaches fc s1 ops

/-- Some cell with a present cache holds a formula that lists the position in `GetCells()`. -/
def Sheet.cachedLister (fc : FormulaCompiler Num AST) (s : Sheet Num AST) (pos : Position) :
    Bool :=
  s.cells_.any fun row => row.any fun x =>
    match x with
    | some c =>
      match c.cache_, c.impl_ with
      | some _, Impl.FormulaImpl _ _ a => decide (pos ∈ fc.GetCells a)
      | _, _ => false
    | none => false

/-- The test of `Sheet.KeepsCaches` with `GetCells()` for the positions a formula may read. -/
def Sheet.keepsCachesTest (fc : FormulaCompiler Num AST) : Sheet Num AST → List Op → Bool
  | _, [] => true
  | s, op :: ops =>
    (match op with
      | Op.setCell pos text =>
        !(s.cachedLister fc pos && decide ((Sheet.SetCell fc s pos text).1 = Except.ok ()))
      | Op.clearCell pos =>
        !(s.cachedLister fc pos &&
          (match s.GetCell pos with
            | Except.ok (some _) => true
            | _ => false))
      | Op.getValue _ _ => true) &&
    (match s.step fc op with
      | none => true
      | some s1 => Sheet.keepsCachesTest fc s1 ops)

/-! ## Referenced cells -/

theorem stdUnique_subset {α : Type} [DecidableEq α] (l : List α) (x : α)
    (hx : x ∈ stdUnique l) : x ∈ l := by
  induction l using stdUnique.induct with
  | case1 => simp [stdUnique] at hx
  | case2 a => simpa [stdUnique] using hx
  | case3 a rest ih =>
    rw [stdUnique, if_pos rfl] at hx
    exact List.mem_cons_of_mem _ (ih hx)
  | case4 a b rest hab ih =>
    rw [stdUnique, if_neg hab] at hx
    rcases List.mem_cons.mp hx with h | h
    · exact h ▸ List.mem_cons_self _ _
    · exact List.mem_cons_of_mem _ (ih h)

theorem referencedOf_valid (cells : List Position) (p : Position) (hp : p ∈ referencedOf cells) :
    p.IsValid = true := by
  have h := stdUnique_subset _ _ hp
  exact (List.mem_filter.mp h).2

theorem Impl.GetReferencedCells_valid (fc : FormulaCompiler Num AST) (impl : Impl Num AST)
    (p : Position) (hp : p ∈ impl.GetReferencedCells fc) : p.IsValid = true := by
  cases impl with
  | EmptyImpl v t => simp [Impl.GetReferencedCells] at hp
  | TextImpl v t => simp [Impl.GetReferencedCells] at hp
  | FormulaImpl v t a => exact referencedOf_valid _ _ hp

/-! ## C5: duplicates in `GetReferencedCells` -/

/-- C5 (defect in the code): for the formula `A1+B1+A1`, whose `GetCells()` is `A1, B1, A1`,
`Formula::GetReferencedCells` returns `A1, B1, A1`: `std::unique` removes only adjacent repeats,
so the list returned contains `A1` twice. -/
theorem C5_GetReferencedCells_repeats_position :
    Example.compiler.ParseFormulaAST "A1+B1+A1" = some [Example.A1, Example.B1, Example.A1] ∧
    Formula.GetReferencedCells Example.compiler [Example.A1, Example.B1, Example.A1]
      = [Example.A1, Example.B1, Example.A1] ∧
    ¬ (Formula.GetReferencedCells Example.compiler
        [Example.A1, Example.B1, Example.A1]).Nodup := by
  decide

/-! ## C4, C8: `Cell::Set` on one cell -/

theorem Cell.Set_of_error (fc : FormulaCompiler Num AST) (sheet : Sheet Num AST)
    (this : Position) (c : Cell Num AST) (text : String) (e : SheetError)
    (hfail : (Cell.Set fc sheet this c text).1 = Except.error e) :
    (Cell.Set fc sheet this c text).2 = c := by
  unfold Cell.Set at hfail ⊢
  cases hof : Impl.ofText fc text with
  | error e1 => simp
  | ok impl =>
    simp only [hof] at hfail ⊢
    by_cases hform : impl.isFormula = true
    · simp only [hform, if_true] at hfail ⊢
      generalize refsLoop sheet (Cell.HasCircularDependency fc sheet this (sheet.slotCount + 1)) []
        (impl.GetReferencedCells fc) = res at hfail ⊢
      rcases res with e1 | ⟨b, v⟩
      · rfl
      · cases b
        · simp at hfail
        · rfl
    · simp [hform] at hfail

/-- C4: when `Cell::Set(text)` fails (with a compilation error, a circular-dependency error, or any
other error), the cell after the call is the cell before the call: same content variant, hence
same `GetText()` and `GetReferencedCells()`, and same cache. -/
theorem C4_Set_failure_keeps_cell (fc : FormulaCompiler Num AST) (sheet : Sheet Num AST)
    (this : Position) (c : Cell Num AST) (text : String) (e : SheetError)
    (hfail : (Cell.Set fc sheet this c text).1 = Except.error e) :
    (Cell.Set fc sheet this c text).2 = c ∧
    (Cell.Set fc sheet this c text).2.GetText = c.GetText ∧
    (Cell.Set fc sheet this c text).2.GetReferencedCells fc = c.GetReferencedCells fc ∧
    (Cell.Set fc sheet this c text).2.cache_ = c.cache_ := by
  rw [Cell.Set_of_error fc sheet this c text e hfail]
  exact ⟨rfl, rfl, rfl, rfl⟩

/-- Witness for C4: on the sheet whose only cell is the empty cell at `A1`, `Set("=A1")` on that
cell fails with the circular-dependency error and leaves the cell as it was. -/
theorem C4_Set_failure_keeps_cell_witness :
    (Cell.Set Example.compiler ⟨[[some Cell.new]]⟩ Example.A1 Cell.new "=A1").1
      = Except.error SheetError.CircularDependency ∧
    (Cell.Set Example.compiler ⟨[[some Cell.new]]⟩ Example.A1 Cell.new "=A1").2 = Cell.new :=
  ⟨by decide,
    (C4_Set_failure_keeps_cell Example.compiler ⟨[[some Cell.new]]⟩ Example.A1 Cell.new "=A1"
      SheetError.CircularDependency (by decide)).1⟩

/-- What `Cell::GetValue` returns for a cell without a formula whose cache is empty: the stored
`value_`, at every bound on the nesting. -/
theorem Cell.GetValue_of_not_formula (fc : FormulaCompiler Num AST) (depth : Nat)
    (s : Sheet Num AST) (pos : Position) (c : Cell Num AST) (v : Value Num) (t : String)
    (hslot : s.slot pos.row.toNat pos.col.toNat = some c) (hcache : c.cache_ = none)
    (himpl : c.impl_ = Impl.EmptyImpl v t ∨ c.impl_ = Impl.TextImpl v t) :
    Cell.GetValue fc depth s pos = some (v, s.setCache pos v) := by
  cases depth <;> rcases himpl with h | h <;> simp [Cell.GetValue, hslot, hcache, h]

/-- C8: for a text `t` that is empty, is exactly `=`, or does not start with `=`, `Cell::Set(t)`
succeeds whatever the cell held before; afterwards `GetText()` is `t`, `GetReferencedCells()` is
empty, the cache is empty, and `GetValue()` (in any sheet that owns the cell, at any bound)
returns the string `t` without one leading apostrophe, never a number. -/
theorem C8_Set_non_formula (fc : FormulaCompiler Num AST) (sheet : Sheet Num AST)
    (this : Position) (c : Cell Num AST) (t : String)
    (ht : t = "" ∨ t = "=" ∨ t.data.head? ≠ some (Char.ofNat 61)) :
    (Cell.Set fc sheet this c t).1 = Except.ok () ∧
    (Cell.Set fc sheet this c t).2.GetText = t ∧
    (Cell.Set fc sheet this c t).2.GetReferencedCells fc = [] ∧
    (Cell.Set fc sheet this c t).2.cache_ = none ∧
    ∀ (s : Sheet Num AST) (pos : Position) (depth : Nat),
      s.slot pos.row.toNat pos.col.toNat = some (Cell.Set fc sheet this c t).2 →
      (Cell.GetValue fc depth s pos).map Prod.fst
        = some (Value.str
            (if t.data.head? = some apostrophe then String.mk (t.data.drop 1) else t)) := by
  have hof : Impl.ofText fc t = Except.ok EmptyImpl.new ∧ t = "" ∨
      Impl.ofText fc t = Except.ok (TextImpl.new t) := by
    rcases ht with h | h | h
    · left; subst h; exact ⟨rfl, rfl⟩
    · right; subst h; rfl
    · by_cases hlen : t.data.length = 0
      · left
        have : t = "" := by
          cases t with
          | mk l => cases l with
            | nil => rfl
            | cons a l => simp at hlen
        subst this; exact ⟨rfl, rfl⟩
      · right
        unfold Impl.ofText
        rw [if_neg hlen, if_neg (fun hc => h hc.2)]
  rcases hof with ⟨hof, rfl⟩ | hof
  · have hset : Cell.Set fc sheet this c "" = (Except.ok (), c.SetImpl EmptyImpl.new) := by
      simp [Cell.Set, hof, Impl.isFormula, EmptyImpl.new]
    rw [hset]
    refine ⟨rfl, rfl, rfl, rfl, ?_⟩
    intro s pos depth hslot
    rw [Cell.GetValue_of_not_formula fc depth s pos _ (Value.str "") "" hslot rfl (Or.inl rfl)]
    rfl
  · have hset : Cell.Set fc sheet this c t = (Except.ok (), c.SetImpl (TextImpl.new t)) := by
      simp [Cell.Set, hof, Impl.isFormula, TextImpl.new]
    rw [hset]
    refine ⟨rfl, rfl, rfl, rfl, ?_⟩
    intro s pos depth hslot
    rw [Cell.GetValue_of_not_formula fc depth s pos _ _ t hslot rfl (Or.inr rfl)]
    rfl

/-- Witness for C8: `Set` with the text made of an apostrophe and `123` on a cell that held the
formula `=B1` with a cached number. -/
theorem C8_Set_non_formula_witness :
    (Cell.Set Example.compiler ⟨[[some Cell.new]]⟩ Example.A1
        ⟨Impl.FormulaImpl (Value.str "B1") "=B1" [Example.B1], some (Value.num 7)⟩
        (String.mk [apostrophe, Char.ofNat 49, Char.ofNat 50, Char.ofNat 51])).2.GetText
      = String.mk [apostrophe, Char.ofNat 49, Char.ofNat 50, Char.ofNat 51] :=
  (C8_Set_non_formula Example.compiler ⟨[[some Cell.new]]⟩ Example.A1
    ⟨Impl.FormulaImpl (Value.str "B1") "=B1" [Example.B1], some (Value.num 7)⟩
    (String.mk [apostrophe, Char.ofNat 49, Char.ofNat 50, Char.ofNat 51])
    (Or.inr (Or.inr (by decide)))).2.1

/-! ## The grid: slots -/

theorem Sheet.slot_some_lt (s : Sheet Num AST) (row col : Nat) (x : Cell Num AST)
    (h : s.slot row col = some x) :
    row < s.cells_.length ∧ col < (s.cells_.getD row []).length := by
  unfold Sheet.slot at h
  by_cases hr : row < s.cells_.length
  · refine ⟨hr, ?_⟩
    by_contra hc
    rw [List.getD_eq_default _ _ (Nat.le_of_not_lt hc)] at h
    cases h
  · rw [List.getD_eq_default s.cells_ _ (Nat.le_of_not_lt hr)] at h
    simp at h

/-! ## The grid: growing and assigning -/

theorem getD_set {α : Type} (l : List α) (i j : Nat) (a d : α) :
    (l.set i a).getD j d = if i = j ∧ i < l.length then a else l.getD j d := by
  simp only [List.getD_eq_getElem?_getD, List.getElem?_set]
  by_cases hij : i = j
  · subst hij
    by_cases hi : i < l.length
    · simp [hi]
    · simp [hi, List.getElem?_eq_none (Nat.le_of_not_lt hi)]
  · simp [hij]

theorem getD_vecResize {α : Type} (v : List α) (n i : Nat) (d : α) (h : v.length ≤ n) :
    (vecResize v n d).getD i d = v.getD i d := by
  unfold vecResize
  rw [List.take_of_length_le h]
  simp only [List.getD_eq_getElem?_getD, List.getElem?_append, List.getElem?_replicate]
  by_cases hi : i < v.length
  · simp [hi]
  · rw [if_neg hi, List.getElem?_eq_none (Nat.le_of_not_lt hi)]
    split <;> rfl

theorem length_vecResize {α : Type} (v : List α) (n : Nat) (d : α) :
    (vecResize v n d).length = n := by
  unfold vecResize
  simp only [List.length_append, List.length_take, List.length_replicate]
  omega

theorem Sheet.slot_growRows (s : Sheet Num AST) (row row1 col1 : Nat) :
    (s.growRows row).slot row1 col1 = s.slot row1 col1 := by
  unfold Sheet.growRows
  by_cases h1 : s.cells_.length ≤ row
  · rw [if_pos h1]
    unfold Sheet.slot
    show ((vecResize s.cells_ (row + 1) []).getD row1 []).getD col1 none = _
    rw [getD_vecResize _ _ _ _ (Nat.le_succ_of_le h1)]
  · rw [if_neg h1]

theorem Sheet.slot_growCols (s : Sheet Num AST) (row col row1 col1 : Nat) :
    (s.growCols row col).slot row1 col1 = s.slot row1 col1 := by
  unfold Sheet.growCols
  by_cases h2 : (s.cells_.getD row []).length ≤ col
  · rw [if_pos h2]
    unfold Sheet.slot
    show ((s.cells_.set row (vecResize (s.cells_.getD row []) (col + 1) none)).getD row1 []).getD
      col1 none = _
    rw [getD_set]
    by_cases hr : row = row1 ∧ row < s.cells_.length
    · rw [if_pos hr, getD_vecResize _ _ _ _ (Nat.le_succ_of_le h2), hr.1]
    · rw [if_neg hr]
  · rw [if_neg h2]

theorem Sheet.slot_grow (s : Sheet Num AST) (row col row1 col1 : Nat) :
    (s.grow row col).slot row1 col1 = s.slot row1 col1 := by
  unfold Sheet.grow
  rw [Sheet.slot_growCols, Sheet.slot_growRows]

theorem Sheet.growRows_length (s : Sheet Num AST) (row : Nat) :
    row < (s.growRows row).cells_.length := by
  unfold Sheet.growRows
  by_cases h1 : s.cells_.length ≤ row
  · rw [if_pos h1]
    show row < (vecResize s.cells_ (row + 1) []).length
    rw [length_vecResize]
    exact Nat.lt_succ_self _
  · rw [if_neg h1]
    exact Nat.lt_of_not_le h1

theorem Sheet.growCols_bounds (s : Sheet Num AST) (row col : Nat) (h : row < s.cells_.length) :
    row < (s.growCols row col).cells_.length ∧
    col < ((s.growCols row col).cells_.getD row []).length := by
  unfold Sheet.growCols
  by_cases h2 : (s.cells_.getD row []).length ≤ col
  · rw [if_pos h2]
    show row < (s.cells_.set row _).length ∧ col < ((s.cells_.set row _).getD row []).length
    rw [List.length_set, getD_set, if_pos ⟨rfl, h⟩, length_vecResize]
    exact ⟨h, Nat.lt_succ_self _⟩
  · rw [if_neg h2]
    exact ⟨h, Nat.lt_of_not_le h2⟩

theorem Sheet.grow_bounds (s : Sheet Num AST) (row col : Nat) :
    row < (s.grow row col).cells_.length ∧ col < ((s.grow row col).cells_.getD row []).length :=
  Sheet.growCols_bounds _ row col (s.growRows_length row)

theorem Sheet.slot_putSlot (s : Sheet Num AST) (row col row1 col1 : Nat)
    (x : Option (Cell Num AST)) (hr : row < s.cells_.length)
    (hc : col < (s.cells_.getD row []).length) :
    (s.putSlot row col x).slot row1 col1
      = if row1 = row ∧ col1 = col then x else s.slot row1 col1 := by
  unfold Sheet.putSlot Sheet.slot
  show ((s.cells_.set row ((s.cells_.getD row []).set col x)).getD row1 []).getD col1 none = _
  rw [getD_set]
  by_cases h1 : row = row1
  · subst h1
    rw [if_pos ⟨rfl, hr⟩, getD_set]
    by_cases h2 : col = col1
    · subst h2
      rw [if_pos ⟨rfl, hc⟩, if_pos ⟨rfl, rfl⟩]
    · rw [if_neg (fun h => h2 h.1), if_neg (fun h => h2 h.2.symm)]
  · rw [if_neg (fun h => h1 h.1), if_neg (fun h => h1 h.1.symm)]

theorem Sheet.putSlot_bounds (s : Sheet Num AST) (row col : Nat) (x : Option (Cell Num AST))
    (row1 : Nat) :
    (s.putSlot row col x).cells_.length = s.cells_.length ∧
    ((s.putSlot row col x).cells_.getD row1 []).length = (s.cells_.getD row1 []).length := by
  unfold Sheet.putSlot
  refine ⟨List.length_set _ _ _, ?_⟩
  simp only [getD_set]
  by_cases h : row = row1 ∧ row < s.cells_.length
  · rw [if_pos h, List.length_set, h.1]
  · rw [if_neg h]

theorem Sheet.GetCell_of_valid (s : Sheet Num AST) (pos : Position) (h : pos.IsValid = true) :
    s.GetCell pos = Except.ok (s.slot pos.row.toNat pos.col.toNat) := by
  have hv := h
  unfold Position.IsValid at hv
  simp only [Bool.and_eq_true, decide_eq_true_eq] at hv
  obtain ⟨⟨⟨h0, h1⟩, _⟩, _⟩ := hv
  unfold Sheet.GetCell
  simp only [h, Bool.not_true, Bool.false_eq_true, if_false]
  by_cases hr : pos.row ≥ (s.cells_.length : Int)
  · rw [if_pos hr]
    have : s.cells_.length ≤ pos.row.toNat := by omega
    unfold Sheet.slot
    rw [List.getD_eq_default _ _ this]
    rfl
  · rw [if_neg hr]
    by_cases hc : pos.col ≥ ((s.cells_.getD pos.row.toNat []).length : Int)
    · rw [if_pos hc]
      have : (s.cells_.getD pos.row.toNat []).length ≤ pos.col.toNat := by omega
      unfold Sheet.slot
      rw [List.getD_eq_default _ _ this]
    · rw [if_neg hc]

theorem Sheet.GetCell_of_invalid (s : Sheet Num AST) (pos : Position) (h : pos.IsValid = false) :
    s.GetCell pos = Except.error SheetError.InvalidPosition := by
  unfold Sheet.GetCell
  simp [h]

/-! ## `Sheet::SetCell` and `Sheet::ClearCell` slot by slot -/

theorem Sheet.cellOrNew_eq (s : Sheet Num AST) (row col : Nat) :
    s.cellOrNew row col = (s.slot row col).getD Cell.new := by
  unfold Sheet.cellOrNew
  rw [Sheet.slot_grow]
  cases s.slot row col <;> rfl

theorem Sheet.slot_prepared (s : Sheet Num AST) (row col row1 col1 : Nat) :
    (s.prepared row col).slot row1 col1
      = if row1 = row ∧ col1 = col then some (s.cellOrNew row col) else s.slot row1 col1 := by
  unfold Sheet.prepared
  rw [Sheet.slot_putSlot _ _ _ _ _ _ (s.grow_bounds row col).1 (s.grow_bounds row col).2,
    Sheet.slot_grow]

theorem Sheet.prepared_bounds (s : Sheet Num AST) (row col : Nat) :
    row < (s.prepared row col).cells_.length ∧
    col < ((s.prepared row col).cells_.getD row []).length := by
  unfold Sheet.prepared
  obtain ⟨h1, h2⟩ := Sheet.putSlot_bounds (s.grow row col) row col (some (s.cellOrNew row col)) row
  rw [h1, h2]
  exact s.grow_bounds row col

theorem Sheet.SetCell_of_valid (fc : FormulaCompiler Num AST) (s : Sheet Num AST) (pos : Position)
    (text : String) (h : pos.IsValid = true) :
    Sheet.SetCell fc s pos text =
      ((Cell.Set fc (s.prepared pos.row.toNat pos.col.toNat) pos
          (s.cellOrNew pos.row.toNat pos.col.toNat) text).1,
       (s.prepared pos.row.toNat pos.col.toNat).putSlot pos.row.toNat pos.col.toNat
         (some (Cell.Set fc (s.prepared pos.row.toNat pos.col.toNat) pos
          (s.cellOrNew pos.row.toNat pos.col.toNat) text).2)) := by
  unfold Sheet.SetCell
  simp only [h, Bool.not_true, Bool.false_eq_true, if_false]
  rfl

theorem Sheet.SetCell_of_invalid (fc : FormulaCompiler Num AST) (s : Sheet Num AST)
    (pos : Position) (text : String) (h : pos.IsValid = false) :
    Sheet.SetCell fc s pos text = (Except.error SheetError.InvalidPosition, s) := by
  unfold Sheet.SetCell
  simp [h]

/-- The slots after `SetCell` at a valid position: the slot of the position holds the cell
`Cell::Set` left, every other slot is as before. -/
theorem Sheet.slot_SetCell (fc : FormulaCompiler Num AST) (s : Sheet Num AST) (pos : Position)
    (text : String) (h : pos.IsValid = true) (row1 col1 : Nat) :
    (Sheet.SetCell fc s pos text).2.slot row1 col1
      = if row1 = pos.row.toNat ∧ col1 = pos.col.toNat then
          some (Cell.Set fc (s.prepared pos.row.toNat pos.col.toNat) pos
            (s.cellOrNew pos.row.toNat pos.col.toNat) text).2
        else s.slot row1 col1 := by
  rw [Sheet.SetCell_of_valid fc s pos text h]
  show ((s.prepared _ _).putSlot _ _ _).slot row1 col1 = _
  rw [Sheet.slot_putSlot _ _ _ _ _ _ (s.prepared_bounds _ _).1 (s.prepared_bounds _ _).2,
    Sheet.slot_prepared]
  by_cases hc : row1 = pos.row.toNat ∧ col1 = pos.col.toNat
  · rw [if_pos hc, if_pos hc]
  · rw [if_neg hc, if_neg hc, if_neg hc]

theorem Position.toNat_injective (p q : Position) (hp : p.IsValid = true) (hq : q.IsValid = true)
    (hr : p.row.toNat = q.row.toNat) (hc : p.col.toNat = q.col.toNat) : p = q := by
  unfold Position.IsValid at hp hq
  simp only [Bool.and_eq_true, decide_eq_true_eq] at hp hq
  cases p with
  | mk pr pc =>
    cases q with
    | mk qr qc =>
      simp only at hp hq hr hc
      have h1 : pr = qr := by omega
      have h2 : pc = qc := by omega
      rw [h1, h2]

/-- The slots after `ClearCell`: a cell in the slot of a valid position is replaced by its
cleared state; nothing else changes. -/
theorem Sheet.slot_ClearCell (s : Sheet Num AST) (pos : Position) (row1 col1 : Nat) :
    (Sheet.ClearCell s pos).2.slot row1 col1
      = if pos.IsValid = true ∧ row1 = pos.row.toNat ∧ col1 = pos.col.toNat then
          (s.slot row1 col1).map Cell.Clear
        else s.slot row1 col1 := by
  unfold Sheet.ClearCell
  by_cases hv : pos.IsValid = true
  · simp only [hv, Bool.not_true, Bool.false_eq_true, if_false, true_and]
    by_cases hr : pos.row ≥ (s.cells_.length : Int)
    · rw [if_pos hr]
      show s.slot row1 col1 = _
      split
      · next hc =>
        obtain ⟨h1, h2⟩ := hc
        subst h1; subst h2
        cases hs : s.slot pos.row.toNat pos.col.toNat with
        | none => rfl
        | some x =>
          have := (s.slot_some_lt _ _ x hs).1
          omega
      · rfl
    · rw [if_neg hr]
      by_cases hc : pos.col ≥ ((s.cells_.getD pos.row.toNat []).length : Int)
      · rw [if_pos hc]
        show s.slot row1 col1 = _
        split
        · next hc1 =>
          obtain ⟨h1, h2⟩ := hc1
          subst h1; subst h2
          cases hs : s.slot pos.row.toNat pos.col.toNat with
          | none => rfl
          | some x =>
            have := (s.slot_some_lt _ _ x hs).2
            omega
        · rfl
      · rw [if_neg hc]
        cases hs : s.slot pos.row.toNat pos.col.toNat with
        | none =>
          show s.slot row1 col1 = _
          split
          · next hc1 =>
            obtain ⟨h1, h2⟩ := hc1
            subst h1; subst h2
            rw [hs]; rfl
          · rfl
        | some x =>
          obtain ⟨b1, b2⟩ := s.slot_some_lt _ _ x hs
          show (s.putSlot _ _ _).slot row1 col1 = _
          rw [Sheet.slot_putSlot _ _ _ _ _ _ b1 b2]
          split
          · next hc1 =>
            obtain ⟨h1, h2⟩ := hc1
            subst h1; subst h2
            rw [hs]; rfl
          · rfl
  · have hv1 : pos.IsValid = false := by simpa using hv
    simp [hv1]

/-! ## `Cell::GetValue` changes caches only -/

theorem map_set_of_eq {α β : Type} (f : α → β) (l : List α) (i : Nat) (a d : α)
    (h : i < l.length → f a = f (l.getD i d)) : (l.set i a).map f = l.map f := by
  apply List.ext_getElem?
  intro j
  simp only [List.getElem?_map, List.getElem?_set]
  by_cases hij : i = j
  · subst hij
    by_cases hi : i < l.length
    · have h1 := h hi
      rw [List.getD_eq_getElem?_getD, List.getElem?_eq_getElem hi] at h1
      simp [hi, List.getElem?_eq_getElem hi, h1]
    · simp [hi, List.getElem?_eq_none (Nat.le_of_not_lt hi)]
  · simp [hij]

theorem Sheet.eraseCaches_putSlot (s : Sheet Num AST) (row col : Nat) (c c1 : Cell Num AST)
    (hs : s.slot row col = some c) (himpl : c1.impl_ = c.impl_) :
    (s.putSlot row col (some c1)).eraseCaches = s.eraseCaches := by
  unfold Sheet.eraseCaches Sheet.putSlot
  congr 1
  apply map_set_of_eq _ _ _ _ []
  intro _
  apply map_set_of_eq _ _ _ _ none
  intro _
  have : (s.cells_.getD row []).getD col none = some c := hs
  rw [this]
  simp [Cell.InvalidateCache, himpl]

theorem Sheet.eraseCaches_setCache (s : Sheet Num AST) (pos : Position) (v : Value Num) :
    (s.setCache pos v).eraseCaches = s.eraseCaches := by
  unfold Sheet.setCache
  cases hs : s.slot pos.row.toNat pos.col.toNat with
  | none => rfl
  | some c => exact s.eraseCaches_putSlot _ _ c _ hs rfl

theorem Sheet.slot_eraseCaches (s : Sheet Num AST) (row col : Nat) :
    s.eraseCaches.slot row col = (s.slot row col).map Cell.InvalidateCache := by
  unfold Sheet.eraseCaches Sheet.slot
  simp only [List.getD_eq_getElem?_getD, List.getElem?_map]
  cases h1 : s.cells_[row]? with
  | none => simp
  | some r =>
    simp only [Option.map_some', Option.getD_some, List.getElem?_map]
    cases h2 : r[col]? with
    | none => simp
    | some x => simp

theorem args_func_frame (fc : FormulaCompiler Num AST)
    (Rel : Sheet Num AST → Sheet Num AST → Prop) (hR : Sheet.Frame Rel)
    (getValue : Sheet Num AST → Position → Option (Value Num × Sheet Num AST))
    (hget : ∀ s p v s1, getValue s p = some (v, s1) → Rel s s1)
    (s : Sheet Num AST) (p : Position) (r : Except FormulaError Num) (s1 : Sheet Num AST)
    (h : args_func fc getValue s p = some (r, s1)) : Rel s s1 := by
  unfold args_func at h
  by_cases hv : p.IsValid = true
  · simp only [hv, Bool.not_true, Bool.false_eq_true, if_false] at h
    cases hg : s.GetCell p with
    | error e => rw [hg] at h; cases h
    | ok oc =>
      rw [hg] at h
      cases oc with
      | none =>
        simp only [Option.some.injEq, Prod.mk.injEq] at h
        rw [← h.2]; exact hR.refl s
      | some c =>
        simp only at h
        cases hgv : getValue s p with
        | none => rw [hgv] at h; cases h
        | some vs =>
          obtain ⟨v, s2⟩ := vs
          have hrel := hget s p v s2 hgv
          rw [hgv] at h
          simp only [Option.some.injEq, Prod.mk.injEq] at h
          rw [← h.2]; exact hrel
  · have hv1 : p.IsValid = false := by simpa using hv
    simp only [hv1, Bool.not_false, if_true, Option.some.injEq, Prod.mk.injEq] at h
    rw [← h.2]; exact hR.refl s

theorem runExec_frame (Rel : Sheet Num AST → Sheet Num AST → Prop) (hR : Sheet.Frame Rel)
    (resolve : Sheet Num AST → Position → Option (Except FormulaError Num × Sheet Num AST))
    (hres : ∀ s p r s1, resolve s p = some (r, s1) → Rel s s1)
    (e : Exec Num) :
    ∀ (s : Sheet Num AST) (r : Except FormulaError Num) (s1 : Sheet Num AST),
      runExec resolve e s = some (r, s1) → Rel s s1 := by
  induction e with
  | done r0 =>
    intro s r s1 h
    simp only [runExec, Option.some.injEq, Prod.mk.injEq] at h
    rw [← h.2]; exact hR.refl s
  | ask p k ih =>
    intro s r s1 h
    simp only [runExec] at h
    cases hrs : resolve s p with
    | none => rw [hrs] at h; cases h
    | some rs =>
      obtain ⟨r2, s2⟩ := rs
      rw [hrs] at h
      exact hR.trans _ _ _ (hres s p r2 s2 hrs) (ih r2 s2 r s1 h)

/-- The unfolding of `Cell::GetValue` for a cell with a formula and an empty cache. -/
theorem Cell.GetValue_formula (fc : FormulaCompiler Num AST) (depth : Nat) (s : Sheet Num AST)
    (pos : Position) (c : Cell Num AST) (v : Value Num) (t : String) (a : AST)
    (hslot : s.slot pos.row.toNat pos.col.toNat = some c) (hcache : c.cache_ = none)
    (himpl : c.impl_ = Impl.FormulaImpl v t a) :
    Cell.GetValue fc (depth + 1) s pos =
      match runExec (args_func fc (Cell.GetValue fc depth)) (fc.Execute a) s with
      | none => none
      | some (r, sheet1) => some (Value.ofEvaluate r, sheet1.setCache pos (Value.ofEvaluate r)) := by
  rw [Cell.GetValue]
  simp only [hslot, hcache, himpl]

theorem Cell.GetValue_formula_zero (fc : FormulaCompiler Num AST) (s : Sheet Num AST)
    (pos : Position) (c : Cell Num AST) (v : Value Num) (t : String) (a : AST)
    (hslot : s.slot pos.row.toNat pos.col.toNat = some c) (hcache : c.cache_ = none)
    (himpl : c.impl_ = Impl.FormulaImpl v t a) :
    Cell.GetValue fc 0 s pos = none := by
  rw [Cell.GetValue]
  simp only [hslot, hcache, himpl]

theorem Cell.GetValue_cached (fc : FormulaCompiler Num AST) (depth : Nat) (s : Sheet Num AST)
    (pos : Position) (c : Cell Num AST) (v : Value Num)
    (hslot : s.slot pos.row.toNat pos.col.toNat = some c) (hcache : c.cache_ = some v) :
    Cell.GetValue fc depth s pos = some (v, s) := by
  cases depth <;> (rw [Cell.GetValue]; simp only [hslot, hcache])

theorem Cell.GetValue_no_cell (fc : FormulaCompiler Num AST) (depth : Nat) (s : Sheet Num AST)
    (pos : Position) (hslot : s.slot pos.row.toNat pos.col.toNat = none) :
    Cell.GetValue fc depth s pos = none := by
  cases depth <;> (rw [Cell.GetValue]; simp only [hslot])

/-- A relation that holds across every cache assignment holds across `Cell::GetValue`. -/
theorem Cell.GetValue_frame (fc : FormulaCompiler Num AST)
    (Rel : Sheet Num AST → Sheet Num AST → Prop) (hR : Sheet.Frame Rel)
    (hset : ∀ s pos v, Rel s (s.setCache pos v)) (depth : Nat) :
    ∀ (s : Sheet Num AST) (pos : Position) (v : Value Num) (s1 : Sheet Num AST),
      Cell.GetValue fc depth s pos = some (v, s1) → Rel s s1 := by
  induction depth with
  | zero =>
    intro s pos v s1 h
    cases hslot : s.slot pos.row.toNat pos.col.toNat with
    | none => rw [Cell.GetValue_no_cell fc _ s pos hslot] at h; cases h
    | some c =>
      cases hcache : c.cache_ with
      | some w =>
        rw [Cell.GetValue_cached fc _ s pos c w hslot hcache] at h
        simp only [Option.some.injEq, Prod.mk.injEq] at h
        rw [← h.2]; exact hR.refl s
      | none =>
        cases himpl : c.impl_ with
        | EmptyImpl w t =>
          rw [Cell.GetValue_of_not_formula fc _ s pos c w t hslot hcache (Or.inl himpl)] at h
          simp only [Option.some.injEq, Prod.mk.injEq] at h
          rw [← h.2]; exact hset _ _ _
        | TextImpl w t =>
          rw [Cell.GetValue_of_not_formula fc _ s pos c w t hslot hcache (Or.inr himpl)] at h
          simp only [Option.some.injEq, Prod.mk.injEq] at h
          rw [← h.2]; exact hset _ _ _
        | FormulaImpl w t a =>
          rw [Cell.GetValue_formula_zero fc s pos c w t a hslot hcache himpl] at h
          cases h
  | succ d ih =>
    intro s pos v s1 h
    cases hslot : s.slot pos.row.toNat pos.col.toNat with
    | none => rw [Cell.GetValue_no_cell fc _ s pos hslot] at h; cases h
    | some c =>
      cases hcache : c.cache_ with
      | some w =>
        rw [Cell.GetValue_cached fc _ s pos c w hslot hcache] at h
        simp only [Option.some.injEq, Prod.mk.injEq] at h
        rw [← h.2]; exact hR.refl s
      | none =>
        cases himpl : c.impl_ with
        | EmptyImpl w t =>
          rw [Cell.GetValue_of_not_formula fc _ s pos c w t hslot hcache (Or.inl himpl)] at h
          simp only [Option.some.injEq, Prod.mk.injEq] at h
          rw [← h.2]; exact hset _ _ _
        | TextImpl w t =>
          rw [Cell.GetValue_of_not_formula fc _ s pos c w t hslot hcache (Or.inr himpl)] at h
          simp only [Option.some.injEq, Prod.mk.injEq] at h
          rw [← h.2]; exact hset _ _ _
        | FormulaImpl w t a =>
          rw [Cell.GetValue_formula fc d s pos c w t a hslot hcache himpl] at h
          cases hrun : runExec (args_func fc (Cell.GetValue fc d)) (fc.Execute a) s with
          | none => rw [hrun] at h; cases h
          | some rs =>
            obtain ⟨r, s2⟩ := rs
            rw [hrun] at h
            simp only [Option.some.injEq, Prod.mk.injEq] at h
            rw [← h.2]
            refine hR.trans _ _ _ ?_ (hset _ _ _)
            exact runExec_frame Rel hR _ (args_func_frame fc Rel hR _ ih) _ s r s2 hrun

theorem Cell.GetValue_eraseCaches (fc : FormulaCompiler Num AST) (depth : Nat)
    (s : Sheet Num AST) (pos : Position) (v : Value Num) (s1 : Sheet Num AST)
    (h : Cell.GetValue fc depth s pos = some (v, s1)) : s1.eraseCaches = s.eraseCaches :=
  Cell.GetValue_frame fc (fun a b => b.eraseCaches = a.eraseCaches)
    ⟨fun _ => rfl, fun _ _ _ h1 h2 => h2.trans h1⟩
    (fun s pos v => s.eraseCaches_setCache pos v) depth s pos v s1 h

theorem runExec_eraseCaches (fc : FormulaCompiler Num AST) (depth : Nat) (e : Exec Num)
    (s : Sheet Num AST) (r : Except FormulaError Num) (s1 : Sheet Num AST)
    (h : runExec (args_func fc (Cell.GetValue fc depth)) e s = some (r, s1)) :
    s1.eraseCaches = s.eraseCaches :=
  runExec_frame (fun a b => b.eraseCaches = a.eraseCaches)
    ⟨fun _ => rfl, fun _ _ _ h1 h2 => h2.trans h1⟩ _
    (args_func_frame fc (fun a b => b.eraseCaches = a.eraseCaches)
      ⟨fun _ => rfl, fun _ _ _ h1 h2 => h2.trans h1⟩ _
      (fun s p v s1 hg => Cell.GetValue_eraseCaches fc depth s p v s1 hg))
    e s r s1 h

/-! ## C3: a failing `SetCell` -/

/-- C3 as stated fails: on the empty sheet `SetCell(A1, "=A1")` fails with the circular-dependency
error, `GetCell(A1)` was absent before the call, and after the call it is an (empty) cell. -/
theorem C3_failed_SetCell_leaves_cell :
    (Sheet.SetCell Example.compiler Sheet.empty Example.A1 "=A1").1
      = Except.error SheetError.CircularDependency ∧
    (Sheet.empty : Sheet Int (List Position)).GetCell Example.A1 = Except.ok none ∧
    (Sheet.SetCell Example.compiler Sheet.empty Example.A1 "=A1").2.GetCell Example.A1
      = Except.ok (some Cell.new) := by
  decide

/-- C3, amended: when `SetCell(pos, text)` fails, an invalid `pos` leaves the sheet as it was;
for a valid `pos`, `GetCell(q)` is the same as before at every other position `q` (absent stays
absent, a cell keeps content and cache), a cell that existed at `pos` is unchanged, and a `pos`
that had no cell now holds a new empty cell with an empty cache. -/
theorem C3_failed_SetCell_effect (fc : FormulaCompiler Num AST) (s : Sheet Num AST)
    (pos : Position) (text : String) (e : SheetError)
    (hfail : (Sheet.SetCell fc s pos text).1 = Except.error e) :
    (pos.IsValid = false → (Sheet.SetCell fc s pos text).2 = s) ∧
    (∀ q, q ≠ pos → (Sheet.SetCell fc s pos text).2.GetCell q = s.GetCell q) ∧
    (∀ c, s.GetCell pos = Except.ok (some c) →
      (Sheet.SetCell fc s pos text).2.GetCell pos = Except.ok (some c)) ∧
    (s.GetCell pos = Except.ok none →
      (Sheet.SetCell fc s pos text).2.GetCell pos = Except.ok (some Cell.new)) := by
  by_cases hv : pos.IsValid = true
  · have hcell : (Cell.Set fc (s.prepared pos.row.toNat pos.col.toNat) pos
        (s.cellOrNew pos.row.toNat pos.col.toNat) text).2
        = s.cellOrNew pos.row.toNat pos.col.toNat := by
      apply Cell.Set_of_error fc _ pos _ text e
      rw [Sheet.SetCell_of_valid fc s pos text hv] at hfail
      exact hfail
    have hpos : (Sheet.SetCell fc s pos text).2.GetCell pos
        = Except.ok (some ((s.slot pos.row.toNat pos.col.toNat).getD Cell.new)) := by
      rw [Sheet.GetCell_of_valid _ pos hv, Sheet.slot_SetCell fc s pos text hv,
        if_pos ⟨rfl, rfl⟩, hcell, Sheet.cellOrNew_eq]
    refine ⟨fun h => absurd (hv.symm.trans h) (by decide), ?_, ?_, ?_⟩
    · intro q hq
      by_cases hqv : q.IsValid = true
      · rw [Sheet.GetCell_of_valid _ q hqv, Sheet.GetCell_of_valid _ q hqv,
          Sheet.slot_SetCell fc s pos text hv, if_neg]
        rintro ⟨h1, h2⟩
        exact hq (Position.toNat_injective q pos hqv hv h1 h2)
      · have hqv1 : q.IsValid = false := by simpa using hqv
        rw [Sheet.GetCell_of_invalid _ q hqv1, Sheet.GetCell_of_invalid _ q hqv1]
    · intro c hc
      rw [Sheet.GetCell_of_valid _ pos hv] at hc
      rw [hpos]
      injection hc with hc
      rw [hc]; rfl
    · intro hc
      rw [Sheet.GetCell_of_valid _ pos hv] at hc
      rw [hpos]
      injection hc with hc
      rw [hc]; rfl
  · have hv1 : pos.IsValid = false := by simpa using hv
    rw [Sheet.SetCell_of_invalid fc s pos text hv1]
    refine ⟨fun _ => rfl, fun q _ => rfl, fun c hc => hc, ?_⟩
    intro hc
    rw [Sheet.GetCell_of_invalid _ pos hv1] at hc
    cases hc

/-- Witness for C3: on the sheet where `A1` holds `=B1`, `SetCell(B1, "=A1")` fails; `A1` is read
back unchanged. -/
theorem C3_failed_SetCell_effect_witness :
    (Sheet.SetCell Example.compiler
        (Sheet.SetCell Example.compiler Sheet.empty Example.A1 "=B1").2 Example.B1 "=A1").2.GetCell
        Example.A1
      = (Sheet.SetCell Example.compiler Sheet.empty Example.A1 "=B1").2.GetCell Example.A1 :=
  (C3_failed_SetCell_effect Example.compiler
    (Sheet.SetCell Example.compiler Sheet.empty Example.A1 "=B1").2 Example.B1 "=A1"
    SheetError.CircularDependency (by decide)).2.1 Example.A1 (by decide)

/-! ## C9: `GetPrintableSize` -/

theorem foldl_range_invariant {β : Type} (f : β → Nat → β) (init : β) (P : Nat → β → Prop)
    (n : Nat) (h0 : P 0 init) (hstep : ∀ i b, i < n → P i b → P (i + 1) (f b i)) :
    P n ((List.range n).foldl f init) := by
  induction n with
  | zero => simpa using h0
  | succ k ih =>
    rw [List.range_succ, List.foldl_append]
    simp only [List.foldl_cons, List.foldl_nil]
    exact hstep k _ (Nat.lt_succ_self k)
      (ih (fun i b hi hP => hstep i b (Nat.lt_succ_of_lt hi) hP))

theorem String.data_length_ne_zero (t : String) : t.data.length ≠ 0 ↔ t ≠ "" := by
  cases t with
  | mk l =>
    cases l with
    | nil => simp
    | cons a l =>
      constructor
      · intro _ h
        have := congrArg String.data h
        simp at this
      · intro _
        simp

theorem Sheet.GetPrintableSize_eq (s : Sheet Num AST) :
    s.GetPrintableSize = (List.range s.cells_.length).foldl
      (fun result row => (List.range (s.cells_.getD row []).length).foldl (s.sizeStep row) result)
      { rows := 0, cols := 0 } := rfl

theorem Sheet.sizeStep_spec (s : Sheet Num AST) (row col : Nat) (R : Size) :
    (s.hasText row col ∧ s.sizeStep row R col = ⟨max R.rows (row + 1), max R.cols (col + 1)⟩) ∨
    (¬ s.hasText row col ∧ s.sizeStep row R col = R) := by
  unfold Sheet.sizeStep Sheet.hasText
  cases hs : s.slot row col with
  | none => right; simp
  | some cell =>
    by_cases ht : cell.GetText.data.length ≠ 0
    · left
      refine ⟨⟨cell, rfl, (String.data_length_ne_zero _).mp ht⟩, ?_⟩
      simp only [if_pos ht]
    · right
      refine ⟨?_, ?_⟩
      · rintro ⟨cell1, h1, h2⟩
        cases h1
        exact ht ((String.data_length_ne_zero _).mpr h2)
      · simp only [if_neg ht]

theorem Sheet.rowInv_fold (s : Sheet Num AST) (row : Nat) (R : Size) (n : Nat) :
    s.rowInv row R n ((List.range n).foldl (s.sizeStep row) R) := by
  apply foldl_range_invariant (s.sizeStep row) R (s.rowInv row R) n
  · exact ⟨le_refl _, le_refl _, fun col h => absurd h (Nat.not_lt_zero _), Or.inl rfl, Or.inl rfl⟩
  · intro i b _ hinv
    obtain ⟨h1, h2, h3, h4, h5⟩ := hinv
    rcases s.sizeStep_spec row i b with ⟨ht, heq⟩ | ⟨ht, heq⟩
    · rw [heq]
      refine ⟨le_trans h1 (le_max_left _ _), le_trans h2 (le_max_left _ _), ?_, ?_, ?_⟩
      · intro col hcol hcolt
        rcases Nat.lt_succ_iff_lt_or_eq.mp hcol with hlt | heq1
        · obtain ⟨a, b1⟩ := h3 col hlt hcolt
          exact ⟨le_trans a (le_max_left _ _), le_trans b1 (le_max_left _ _)⟩
        · subst heq1
          exact ⟨le_max_right _ _, le_max_right _ _⟩
      · show max b.rows (row + 1) = R.rows ∨ (max b.rows (row + 1) = row + 1 ∧ _)
        rcases h4 with h4 | ⟨h4, _⟩
        · rcases le_total b.rows (row + 1) with hle | hle
          · right; exact ⟨max_eq_right hle, i, ht⟩
          · left; rw [max_eq_left hle, h4]
        · right; exact ⟨by rw [h4]; exact max_self _, i, ht⟩
      · show max b.cols (i + 1) = R.cols ∨ ∃ col, s.hasText row col ∧ max b.cols (i + 1) = col + 1
        rcases le_total b.cols (i + 1) with hle | hle
        · right; exact ⟨i, ht, max_eq_right hle⟩
        · rw [max_eq_left hle]
          exact h5
    · rw [heq]
      refine ⟨h1, h2, ?_, h4, h5⟩
      intro col hcol hcolt
      rcases Nat.lt_succ_iff_lt_or_eq.mp hcol with hlt | heq1
      · exact h3 col hlt hcolt
      · subst heq1
        exact absurd hcolt ht

theorem Sheet.gridInv_GetPrintableSize (s : Sheet Num AST) :
    s.gridInv s.cells_.length s.GetPrintableSize := by
  rw [Sheet.GetPrintableSize_eq]
  apply foldl_range_invariant _ _ (s.gridInv) s.cells_.length
  · exact ⟨fun row col h => absurd h (Nat.not_lt_zero _), Or.inl rfl, Or.inl rfl⟩
  · intro i b _ hinv
    obtain ⟨g1, g2, g3⟩ := hinv
    obtain ⟨h1, h2, h3, h4, h5⟩ := s.rowInv_fold i b (s.cells_.getD i []).length
    refine ⟨?_, ?_, ?_⟩
    · intro row col hrow ht
      rcases Nat.lt_succ_iff_lt_or_eq.mp hrow with hlt | heq1
      · obtain ⟨a, b1⟩ := g1 row col hlt ht
        exact ⟨le_trans a h1, le_trans b1 h2⟩
      · subst heq1
        obtain ⟨cell, hc, _⟩ := ht
        exact h3 col (s.slot_some_lt row col cell hc).2 ⟨cell, hc, by assumption⟩
    · rcases h4 with h4 | ⟨h4, col, hcol⟩
      · rw [h4]; exact g2
      · right; exact ⟨i, col, hcol, h4⟩
    · rcases h5 with h5 | ⟨col, hcol, h5⟩
      · rw [h5]; exact g3
      · right; exact ⟨i, col, hcol, h5⟩

/-- C9: `GetPrintableSize()` is the minimal bounding box of the cells with non-empty text. Every
such cell lies at a row below `rows` and a column below `cols`; when `rows` is not 0 some such
cell sits in row `rows - 1`, and when `cols` is not 0 some such cell sits in column `cols - 1`
(so `rows` and `cols` are 1 + the largest row and column index of such a cell); without such a
cell the size is (0, 0); no smaller `rows` or `cols` bounds all such cells; and setting only `C5`
gives rows = 5 and cols = 3. -/
theorem C9_GetPrintableSize_minimal_box (s : Sheet Num AST) :
    (∀ row col, s.hasText row col →
      row < s.GetPrintableSize.rows ∧ col < s.GetPrintableSize.cols) ∧
    (s.GetPrintableSize.rows ≠ 0 → ∃ col, s.hasText (s.GetPrintableSize.rows - 1) col) ∧
    (s.GetPrintableSize.cols ≠ 0 → ∃ row, s.hasText row (s.GetPrintableSize.cols - 1)) ∧
    ((∀ row col, ¬ s.hasText row col) → s.GetPrintableSize = ⟨0, 0⟩) ∧
    (∀ rows : Nat, (∀ row col, s.hasText row col → row < rows) →
      s.GetPrintableSize.rows ≤ rows) ∧
    (∀ cols : Nat, (∀ row col, s.hasText row col → col < cols) →
      s.GetPrintableSize.cols ≤ cols) ∧
    (Sheet.SetCell Example.compiler Sheet.empty Example.C5 "x").2.GetPrintableSize = ⟨5, 3⟩ := by
  obtain ⟨g1, g2, g3⟩ := s.gridInv_GetPrintableSize
  have hrows : s.GetPrintableSize.rows ≠ 0 → ∃ col, s.hasText (s.GetPrintableSize.rows - 1) col := by
    intro hne
    rcases g2 with h | ⟨row, col, ht, h⟩
    · exact absurd h hne
    · exact ⟨col, by rw [h]; exact ht⟩
  have hcols : s.GetPrintableSize.cols ≠ 0 → ∃ row, s.hasText row (s.GetPrintableSize.cols - 1) := by
    intro hne
    rcases g3 with h | ⟨row, col, ht, h⟩
    · exact absurd h hne
    · exact ⟨row, by rw [h]; exact ht⟩
  refine ⟨?_, hrows, hcols, ?_, ?_, ?_, by decide⟩
  · intro row col ht
    obtain ⟨cell, hc, _⟩ := ht
    exact g1 row col (s.slot_some_lt row col cell hc).1 ⟨cell, hc, by assumption⟩
  · intro hnone
    have hr : s.GetPrintableSize.rows = 0 := by
      by_contra hne
      obtain ⟨col, ht⟩ := hrows hne
      exact hnone _ _ ht
    have hc : s.GetPrintableSize.cols = 0 := by
      by_contra hne
      obtain ⟨row, ht⟩ := hcols hne
      exact hnone _ _ ht
    cases hsz : s.GetPrintableSize with
    | mk rows cols =>
      rw [hsz] at hr hc
      simp only at hr hc
      rw [hr, hc]
  · intro rows hb
    by_contra hlt
    have hne : s.GetPrintableSize.rows ≠ 0 := by omega
    obtain ⟨col, ht⟩ := hrows hne
    have := hb _ _ ht
    omega
  · intro cols hb
    by_contra hlt
    have hne : s.GetPrintableSize.cols ≠ 0 := by omega
    obtain ⟨row, ht⟩ := hcols hne
    have := hb _ _ ht
    omega

/-- Witness for C9: in the sheet where only `C5` was set, the last row of the printable box,
row 4, holds a cell with non-empty text. -/
theorem C9_GetPrintableSize_minimal_box_witness :
    Example.sheetC5.GetPrintableSize.rows ≠ 0 ∧
    ∃ col, Example.sheetC5.hasText (Example.sheetC5.GetPrintableSize.rows - 1) col :=
  ⟨by decide, (C9_GetPrintableSize_minimal_box Example.sheetC5).2.1 (by decide)⟩

/-! ## C10: `Sheet::GetCell` -/

theorem Sheet.step_getValue (fc : FormulaCompiler Num AST) (s s1 : Sheet Num AST) (depth : Nat)
    (pos : Position) (h : s.step fc (Op.getValue depth pos) = some s1) :
    ∃ c v, s.GetCell pos = Except.ok (some c) ∧ Cell.GetValue fc depth s pos = some (v, s1) := by
  simp only [Sheet.step] at h
  split at h
  · next c hc =>
    simp only [Option.map_eq_some'] at h
    obtain ⟨⟨v, s2⟩, hgv, heq⟩ := h
    simp only at heq
    subst heq
    exact ⟨c, v, hc, hgv⟩
  · cases h

theorem Sheet.slot_isNone_of_eraseCaches (s s1 : Sheet Num AST)
    (h : s1.eraseCaches = s.eraseCaches) (row col : Nat) :
    s1.slot row col = none ↔ s.slot row col = none := by
  have h1 := s1.slot_eraseCaches row col
  rw [h, s.slot_eraseCaches] at h1
  cases ha : s1.slot row col <;> cases hb : s.slot row col <;> simp [ha, hb] at h1 ⊢

/-- After one call, the slot of a valid position is null exactly when it was null before and the
call was not a `SetCell` on that position. -/
theorem Sheet.step_slot_none (fc : FormulaCompiler Num AST) (s s1 : Sheet Num AST) (op : Op)
    (hstep : s.step fc op = some s1) (pos : Position) (hv : pos.IsValid = true) :
    s1.slot pos.row.toNat pos.col.toNat = none ↔
      (s.slot pos.row.toNat pos.col.toNat = none ∧ ∀ text, op ≠ Op.setCell pos text) := by
  cases op with
  | setCell p t =>
    simp only [Sheet.step, Option.some.injEq] at hstep
    subst hstep
    by_cases hpv : p.IsValid = true
    · rw [Sheet.slot_SetCell fc s p t hpv]
      by_cases hc : pos.row.toNat = p.row.toNat ∧ pos.col.toNat = p.col.toNat
      · rw [if_pos hc]
        have : pos = p := Position.toNat_injective pos p hv hpv hc.1 hc.2
        subst this
        simp
      · rw [if_neg hc]
        constructor
        · intro h
          refine ⟨h, ?_⟩
          intro text heq
          injection heq with h1 h2
          subst h1
          exact hc ⟨rfl, rfl⟩
        · exact fun h => h.1
    · have hpv1 : p.IsValid = false := by simpa using hpv
      rw [Sheet.SetCell_of_invalid fc s p t hpv1]
      constructor
      · intro h
        refine ⟨h, ?_⟩
        intro text heq
        injection heq with h1 h2
        subst h1
        rw [hv] at hpv1
        cases hpv1
      · exact fun h => h.1
  | clearCell p =>
    simp only [Sheet.step, Option.some.injEq] at hstep
    subst hstep
    rw [Sheet.slot_ClearCell]
    have hne : ∀ text, Op.clearCell p ≠ Op.setCell pos text := fun _ h => by cases h
    split
    · cases s.slot pos.row.toNat pos.col.toNat <;> simp
    · simp
  | getValue d p =>
    obtain ⟨_, v, _, hgv⟩ := Sheet.step_getValue fc s s1 d p hstep
    rw [Sheet.slot_isNone_of_eraseCaches s s1 (Cell.GetValue_eraseCaches fc d s p v s1 hgv)]
    have hne : ∀ text, Op.getValue d p ≠ Op.setCell pos text := fun _ h => by cases h
    simp

theorem Sheet.run_slot_none (fc : FormulaCompiler Num AST) (ops : List Op) :
    ∀ (s0 s : Sheet Num AST), Sheet.run fc s0 ops = some s →
      ∀ pos : Position, pos.IsValid = true →
        (s.slot pos.row.toNat pos.col.toNat = none ↔
          (s0.slot pos.row.toNat pos.col.toNat = none ∧ ∀ text, Op.setCell pos text ∉ ops)) := by
  induction ops with
  | nil =>
    intro s0 s hrun pos _
    simp only [Sheet.run, Option.some.injEq] at hrun
    subst hrun
    simp
  | cons op ops ih =>
    intro s0 s hrun pos hv
    simp only [Sheet.run] at hrun
    cases hstep : s0.step fc op with
    | none => rw [hstep] at hrun; cases hrun
    | some s1 =>
      rw [hstep] at hrun
      rw [ih s1 s hrun pos hv, Sheet.step_slot_none fc s0 s1 op hstep pos hv]
      constructor
      · rintro ⟨⟨h1, h2⟩, h3⟩
        refine ⟨h1, ?_⟩
        intro text hmem
        rcases List.mem_cons.mp hmem with h | h
        · exact h2 text h.symm
        · exact h3 text h
      · rintro ⟨h1, h2⟩
        exact ⟨⟨h1, fun text h => h2 text (h ▸ List.mem_cons_self _ _)⟩,
          fun text h => h2 text (List.mem_cons_of_mem _ h)⟩

theorem Cell.Set_of_ok (fc : FormulaCompiler Num AST) (sheet : Sheet Num AST)
    (this : Position) (c : Cell Num AST) (text : String)
    (hok : (Cell.Set fc sheet this c text).1 = Except.ok ()) :
    ∃ impl, Impl.ofText fc text = Except.ok impl ∧
      (Cell.Set fc sheet this c text).2 = { impl_ := impl, cache_ := none } := by
  unfold Cell.Set at hok ⊢
  cases hof : Impl.ofText fc text with
  | error e1 => rw [hof] at hok; cases hok
  | ok impl =>
    refine ⟨impl, rfl, ?_⟩
    simp only [hof] at hok ⊢
    by_cases hform : impl.isFormula = true
    · simp only [hform, if_true] at hok ⊢
      generalize refsLoop sheet (Cell.HasCircularDependency fc sheet this (sheet.slotCount + 1)) []
        (impl.GetReferencedCells fc) = res at hok ⊢
      rcases res with e1 | ⟨b, v⟩
      · cases hok
      · cases b
        · rfl
        · cases hok
    · simp only [hform, Bool.false_eq_true, if_false]
      rfl

/-- C10: in a sheet reached from the empty sheet by `SetCell`, `ClearCell` and `GetValue` calls,
`GetCell(pos)` fails with the invalid-position error exactly when `pos` is invalid; for a valid
`pos` it returns absent exactly when no `SetCell` call on `pos` was ever made, and it returns what
the slot of `pos` holds; and after a successful `SetCell(pos, text)`, `GetCell(pos)` returns the
cell with the content built from `text` and an empty cache. -/
theorem C10_GetCell_contract (fc : FormulaCompiler Num AST) (ops : List Op) (s : Sheet Num AST)
    (hrun : Sheet.run fc Sheet.empty ops = some s) (pos : Position) :
    (s.GetCell pos = Except.error SheetError.InvalidPosition ↔ pos.IsValid = false) ∧
    (pos.IsValid = true →
      (s.GetCell pos = Except.ok none ↔ ∀ text, Op.setCell pos text ∉ ops) ∧
      s.GetCell pos = Except.ok (s.slot pos.row.toNat pos.col.toNat)) ∧
    (∀ text, (Sheet.SetCell fc s pos text).1 = Except.ok () →
      ∃ impl, Impl.ofText fc text = Except.ok impl ∧
        (Sheet.SetCell fc s pos text).2.GetCell pos
          = Except.ok (some { impl_ := impl, cache_ := none })) := by
  refine ⟨?_, ?_, ?_⟩
  · by_cases hv : pos.IsValid = true
    · rw [Sheet.GetCell_of_valid s pos hv, hv]
      simp
    · have hv1 : pos.IsValid = false := by simpa using hv
      rw [Sheet.GetCell_of_invalid s pos hv1]
      simp [hv1]
  · intro hv
    rw [Sheet.GetCell_of_valid s pos hv]
    refine ⟨?_, rfl⟩
    have h := Sheet.run_slot_none fc ops Sheet.empty s hrun pos hv
    have hempty : (Sheet.empty : Sheet Num AST).slot pos.row.toNat pos.col.toNat = none := by
      simp [Sheet.empty, Sheet.slot]
    rw [hempty] at h
    constructor
    · intro hnone
      injection hnone with hnone
      exact (h.mp hnone).2
    · intro hno
      rw [h.mpr ⟨rfl, hno⟩]
  · intro text hok
    by_cases hv : pos.IsValid = true
    · rw [Sheet.SetCell_of_valid fc s pos text hv] at hok
      obtain ⟨impl, himpl, hcell⟩ := Cell.Set_of_ok fc _ pos _ text hok
      refine ⟨impl, himpl, ?_⟩
      rw [Sheet.GetCell_of_valid _ pos hv, Sheet.slot_SetCell fc s pos text hv,
        if_pos ⟨rfl, rfl⟩, hcell]
    · have hv1 : pos.IsValid = false := by simpa using hv
      rw [Sheet.SetCell_of_invalid fc s pos text hv1] at hok
      cases hok

/-- Witness for C10: after `SetCell(A1, "=B1")` and a failing `SetCell(B1, "=A1")`, the position
`B1` is not absent, a `SetCell` on it having been made. -/
theorem C10_GetCell_contract_witness :
    (Example.sheetAB.GetCell Example.B1 = Except.ok none ↔
      ∀ text, Op.setCell Example.B1 text ∉ Example.opsAB) ∧
    Example.sheetAB.GetCell Example.B1 = Except.ok (Example.sheetAB.slot 0 1) :=
  (C10_GetCell_contract Example.compiler Example.opsAB Example.sheetAB (by decide)
    Example.B1).2.1 (by decide)

/-! ## The reference graph -/

theorem Sheet.refsAt_of_cell (fc : FormulaCompiler Num AST) (s : Sheet Num AST) (p : Position)
    (c : Cell Num AST) (h : s.GetCell p = Except.ok (some c)) :
    s.refsAt fc p = c.GetReferencedCells fc := by
  unfold Sheet.refsAt
  rw [h]

theorem Sheet.refsAt_valid (fc : FormulaCompiler Num AST) (s : Sheet Num AST) (p q : Position)
    (h : q ∈ s.refsAt fc p) : q.IsValid = true := by
  unfold Sheet.refsAt at h
  split at h
  · exact Impl.GetReferencedCells_valid fc _ q h
  · cases h

theorem Sheet.Edge.hasCell (fc : FormulaCompiler Num AST) (s : Sheet Num AST) (p q : Position)
    (h : s.Edge fc p q) : s.HasCell p := by
  unfold Sheet.Edge Sheet.refsAt at h
  split at h
  · next c hc => exact ⟨c, hc⟩
  · cases h

theorem length_slotPositions {α : Type} (rows : List (List α)) :
    ∀ row0, (slotPositions row0 rows).length = (rows.map List.length).sum := by
  induction rows with
  | nil => intro _; rfl
  | cons row rest ih =>
    intro row0
    simp only [slotPositions, List.length_append, List.length_map, List.length_range,
      List.map_cons, List.sum_cons, ih]

theorem mem_slotPositions {α : Type} (rows : List (List α)) :
    ∀ (row0 r c : Nat), r < rows.length → c < (rows.getD r []).length →
      Position.mk (Int.ofNat (row0 + r)) (Int.ofNat c) ∈ slotPositions row0 rows := by
  induction rows with
  | nil => intro _ r _ hr; simp at hr
  | cons row rest ih =>
    intro row0 r c hr hc
    simp only [slotPositions, List.mem_append, List.mem_map, List.mem_range]
    cases r with
    | zero =>
      left
      exact ⟨c, by simpa using hc, rfl⟩
    | succ r1 =>
      right
      have h1 : r1 < rest.length := by simpa using hr
      have h2 : c < (rest.getD r1 []).length := by simpa using hc
      have := ih (row0 + 1) r1 c h1 h2
      have he : row0 + 1 + r1 = row0 + (r1 + 1) := by omega
      rw [he] at this
      exact this

theorem Sheet.mem_slotPositions_of_cell (s : Sheet Num AST) (p : Position) (c : Cell Num AST)
    (h : s.GetCell p = Except.ok (some c)) : p ∈ slotPositions 0 s.cells_ := by
  have hv : p.IsValid = true := by
    by_contra hv
    have hv1 : p.IsValid = false := by simpa using hv
    rw [Sheet.GetCell_of_invalid s p hv1] at h
    cases h
  rw [Sheet.GetCell_of_valid s p hv] at h
  injection h with h
  obtain ⟨h1, h2⟩ := s.slot_some_lt _ _ c h
  have hm := mem_slotPositions s.cells_ 0 p.row.toNat p.col.toNat h1 h2
  unfold Position.IsValid at hv
  simp only [Bool.and_eq_true, decide_eq_true_eq] at hv
  have e1 : Int.ofNat (0 + p.row.toNat) = p.row := by
    show ((0 + p.row.toNat : Nat) : Int) = p.row
    omega
  have e2 : Int.ofNat p.col.toNat = p.col := by
    show ((p.col.toNat : Nat) : Int) = p.col
    omega
  rw [e1, e2] at hm
  exact hm

theorem unvisited_mono (L V V1 : List Position) (h : ∀ x ∈ V, x ∈ V1) :
    unvisited L V1 ≤ unvisited L V := by
  induction L with
  | nil => exact Nat.le_refl _
  | cons a L ih =>
    simp only [unvisited]
    by_cases ha : a ∈ V
    · rw [if_pos ha, if_pos (h a ha)]
      omega
    · rw [if_neg ha]
      split <;> omega

theorem unvisited_cons_lt (L V : List Position) (p : Position) (hp : p ∈ L) (hV : p ∉ V) :
    unvisited L (p :: V) < unvisited L V := by
  induction L with
  | nil => cases hp
  | cons a L ih =>
    simp only [unvisited]
    have hmono := unvisited_mono L V (p :: V) (fun x hx => List.mem_cons_of_mem _ hx)
    by_cases hap : a = p
    · subst hap
      rw [if_pos (List.mem_cons_self _ _), if_neg hV]
      omega
    · have hp1 : p ∈ L := by
        rcases List.mem_cons.mp hp with h | h
        · exact absurd h.symm hap
        · exact h
      have := ih hp1
      by_cases ha : a ∈ V
      · rw [if_pos (List.mem_cons_of_mem _ ha), if_pos ha]
        omega
      · rw [if_neg ha, if_neg (fun hc => by
          rcases List.mem_cons.mp hc with h | h
          · exact hap h
          · exact ha h)]
        omega

/-! ## The cycle check finds exactly the paths to the target -/

theorem Cell.HasCircularDependency_succ (fc : FormulaCompiler Num AST) (sheet : Sheet Num AST)
    (target : Position) (depth : Nat) (visited : List Position) (this : Position)
    (c : Cell Num AST) :
    Cell.HasCircularDependency fc sheet target (depth + 1) visited this c =
      if this = target then Except.ok (true, visited)
      else if this ∈ visited then Except.ok (false, visited)
      else refsLoop sheet (Cell.HasCircularDependency fc sheet target depth) (this :: visited)
        (c.GetReferencedCells fc) := rfl

/-- A loop that returns `true` has called `visit`, with result `true`, on an existing cell of
the list. -/
theorem refsLoop_true (sheet : Sheet Num AST)
    (visit : List Position → Position → Cell Num AST → Except SheetError (Bool × List Position))
    (R : Position → Prop)
    (hvisit : ∀ V q c V1, sheet.GetCell q = Except.ok (some c) →
      visit V q c = Except.ok (true, V1) → R q) :
    ∀ (refs V V1 : List Position), refsLoop sheet visit V refs = Except.ok (true, V1) →
      ∃ q, q ∈ refs ∧ R q := by
  intro refs
  induction refs with
  | nil =>
    intro V V1 h
    simp [refsLoop] at h
  | cons q rest ih =>
    intro V V1 h
    rw [refsLoop] at h
    cases hg : sheet.GetCell q with
    | error e => rw [hg] at h; cases h
    | ok oc =>
      rw [hg] at h
      cases oc with
      | none =>
        obtain ⟨x, hx, hR⟩ := ih V V1 h
        exact ⟨x, List.mem_cons_of_mem _ hx, hR⟩
      | some c =>
        simp only at h
        cases hv : visit V q c with
        | error e => rw [hv] at h; cases h
        | ok bv =>
          obtain ⟨b, V2⟩ := bv
          rw [hv] at h
          cases b with
          | true => exact ⟨q, List.mem_cons_self _ _, hvisit V q c V2 hg hv⟩
          | false =>
            obtain ⟨x, hx, hR⟩ := ih V2 V1 h
            exact ⟨x, List.mem_cons_of_mem _ hx, hR⟩

/-- Soundness of the cycle check: a call that returns `true` started at a cell from which the
target is reachable. -/
theorem Cell.HasCircularDependency_sound (fc : FormulaCompiler Num AST) (sheet : Sheet Num AST)
    (target : Position) (depth : Nat) :
    ∀ (V : List Position) (this : Position) (c : Cell Num AST) (V1 : List Position),
      sheet.GetCell this = Except.ok (some c) →
      Cell.HasCircularDependency fc sheet target depth V this c = Except.ok (true, V1) →
      Relation.ReflTransGen (sheet.Edge fc) this target := by
  induction depth with
  | zero =>
    intro V this c V1 _ h
    simp [Cell.HasCircularDependency] at h
  | succ d ih =>
    intro V this c V1 hc h
    rw [Cell.HasCircularDependency_succ] at h
    by_cases ht : this = target
    · rw [ht]
    · rw [if_neg ht] at h
      by_cases hm : this ∈ V
      · rw [if_pos hm] at h
        simp at h
      · rw [if_neg hm] at h
        obtain ⟨q, hq, hR⟩ := refsLoop_true sheet _
          (fun q => Relation.ReflTransGen (sheet.Edge fc) q target) ih _ _ _ h
        refine Relation.ReflTransGen.head ?_ hR
        show q ∈ sheet.refsAt fc this
        rw [Sheet.refsAt_of_cell fc sheet this c hc]
        exact hq

theorem Sheet.Explored.refl (fc : FormulaCompiler Num AST) (s : Sheet Num AST)
    (target : Position) (V : List Position) (h : target ∉ V) : s.Explored fc target V V :=
  ⟨fun _ hx => hx, h, fun _ hu hn => absurd hu hn⟩

theorem Sheet.Explored.trans (fc : FormulaCompiler Num AST) (s : Sheet Num AST)
    (target : Position) (V V1 V2 : List Position) (h1 : s.Explored fc target V V1)
    (h2 : s.Explored fc target V1 V2) : s.Explored fc target V V2 := by
  obtain ⟨a1, _, c1⟩ := h1
  obtain ⟨a2, b2, c2⟩ := h2
  refine ⟨fun x hx => a2 x (a1 x hx), b2, ?_⟩
  intro u hu hn w hw hcw
  by_cases hu1 : u ∈ V1
  · exact a2 w (c1 u hu1 hn w hw hcw)
  · exact c2 u hu hu1 w hw hcw

theorem refsLoop_outcome (fc : FormulaCompiler Num AST) (sheet : Sheet Num AST)
    (target : Position) (L : List Position) (d : Nat)
    (visit : List Position → Position → Cell Num AST → Except SheetError (Bool × List Position))
    (hvisit : ∀ V q c, unvisited L V < d → target ∉ V → sheet.GetCell q = Except.ok (some c) →
      sheet.Outcome fc target V (fun V1 => q ∈ V1) (visit V q c)) :
    ∀ (refs V : List Position), (∀ q, q ∈ refs → q.IsValid = true) → unvisited L V < d →
      target ∉ V →
      sheet.Outcome fc target V (fun V1 => ∀ q, q ∈ refs → sheet.HasCell q → q ∈ V1)
        (refsLoop sheet visit V refs) := by
  intro refs
  induction refs with
  | nil =>
    intro V _ _ ht
    right
    exact ⟨V, rfl, Sheet.Explored.refl fc sheet target V ht, fun q hq => by cases hq⟩
  | cons q rest ih =>
    intro V hvalid hfuel ht
    have hq : sheet.GetCell q = Except.ok (sheet.slot q.row.toNat q.col.toNat) :=
      Sheet.GetCell_of_valid sheet q (hvalid q (List.mem_cons_self _ _))
    have hrest : ∀ x, x ∈ rest → x.IsValid = true :=
      fun x hx => hvalid x (List.mem_cons_of_mem _ hx)
    rw [refsLoop]
    cases hs : sheet.slot q.row.toNat q.col.toNat with
    | none =>
      rw [hs] at hq
      rw [hq]
      rcases ih V hrest hfuel ht with ⟨V1, h⟩ | ⟨V1, h, hex, hQ⟩
      · left; exact ⟨V1, h⟩
      · right
        refine ⟨V1, h, hex, ?_⟩
        intro x hx hcx
        rcases List.mem_cons.mp hx with hxq | hxr
        · subst hxq
          obtain ⟨cx, hcx⟩ := hcx
          rw [hq] at hcx
          cases hcx
        · exact hQ x hxr hcx
    | some c =>
      rw [hs] at hq
      rw [hq]
      simp only
      rcases hvisit V q c hfuel ht hq with ⟨V1, h⟩ | ⟨V1, h, hex, hQ⟩
      · left
        rw [h]
        exact ⟨V1, rfl⟩
      · rw [h]
        simp only
        have hfuel1 : unvisited L V1 < d :=
          Nat.lt_of_le_of_lt (unvisited_mono L V V1 hex.1) hfuel
        rcases ih V1 hrest hfuel1 hex.2.1 with ⟨V2, h2⟩ | ⟨V2, h2, hex2, hQ2⟩
        · left; exact ⟨V2, h2⟩
        · right
          refine ⟨V2, h2, Sheet.Explored.trans fc sheet target V V1 V2 hex hex2, ?_⟩
          intro x hx hcx
          rcases List.mem_cons.mp hx with hxq | hxr
          · subst hxq
            exact hex2.1 x hQ
          · exact hQ2 x hxr hcx

/-- Completeness of the cycle check: with a depth bound above the number of cells not yet
visited, a call returns without an error, and when it returns `false` the cell it was called on
is visited and the visited set is explored. -/
theorem Cell.HasCircularDependency_outcome (fc : FormulaCompiler Num AST)
    (sheet : Sheet Num AST) (target : Position) (L : List Position)
    (hL : ∀ p c, sheet.GetCell p = Except.ok (some c) → p ∈ L) (depth : Nat) :
    ∀ (V : List Position) (this : Position) (c : Cell Num AST),
      unvisited L V < depth → target ∉ V → sheet.GetCell this = Except.ok (some c) →
      sheet.Outcome fc target V (fun V1 => this ∈ V1)
        (Cell.HasCircularDependency fc sheet target depth V this c) := by
  induction depth with
  | zero => intro V this c h; exact absurd h (Nat.not_lt_zero _)
  | succ d ih =>
    intro V this c hfuel ht hc
    rw [Cell.HasCircularDependency_succ]
    by_cases hthis : this = target
    · rw [if_pos hthis]
      left; exact ⟨V, rfl⟩
    · rw [if_neg hthis]
      by_cases hm : this ∈ V
      · rw [if_pos hm]
        right
        exact ⟨V, rfl, Sheet.Explored.refl fc sheet target V ht, hm⟩
      · rw [if_neg hm]
        have hlt := unvisited_cons_lt L V this (hL this c hc) hm
        have hfuel1 : unvisited L (this :: V) < d := by omega
        have ht1 : target ∉ this :: V := by
          intro hmem
          rcases List.mem_cons.mp hmem with h | h
          · exact hthis h.symm
          · exact ht h
        have hvalid : ∀ q, q ∈ c.GetReferencedCells fc → q.IsValid = true :=
          fun q hq => Impl.GetReferencedCells_valid fc c.impl_ q hq
        rcases refsLoop_outcome fc sheet target L d _ ih (c.GetReferencedCells fc) (this :: V)
          hvalid hfuel1 ht1 with ⟨V1, h⟩ | ⟨V1, h, hex, hQ⟩
        · left; exact ⟨V1, h⟩
        · right
          refine ⟨V1, h, ?_, hex.1 this (List.mem_cons_self _ _)⟩
          refine ⟨fun x hx => hex.1 x (List.mem_cons_of_mem _ hx), hex.2.1, ?_⟩
          intro u hu hn w hw hcw
          by_cases hut : u = this
          · subst hut
            rw [Sheet.refsAt_of_cell fc sheet u c hc] at hw
            exact hQ w hw hcw
          · refine hex.2.2 u hu ?_ w hw hcw
            intro hmem
            rcases List.mem_cons.mp hmem with h1 | h1
            · exact hut h1
            · exact hn h1

/-- From a position in an explored set that started empty, the target cannot be reached. -/
theorem Sheet.Explored.no_path (fc : FormulaCompiler Num AST) (s : Sheet Num AST)
    (target : Position) (V1 : List Position) (hex : s.Explored fc target [] V1)
    (htarget : s.HasCell target) (x : Position)
    (hpath : Relation.ReflTransGen (s.Edge fc) x target) : x ∉ V1 := by
  induction hpath using Relation.ReflTransGen.head_induction_on with
  | refl => exact hex.2.1
  | head hxy hyt ih =>
    rename_i a b
    intro hx
    have hb : s.HasCell b := by
      rcases Relation.ReflTransGen.cases_head hyt with h | ⟨z, hbz, _⟩
      · rw [h]; exact htarget
      · exact Sheet.Edge.hasCell fc s b z hbz
    exact ih (hex.2.2 a hx (List.not_mem_nil a) b hxy hb)

theorem unvisited_le_length (L V : List Position) : unvisited L V ≤ L.length := by
  induction L with
  | nil => exact Nat.le_refl _
  | cons a L ih =>
    simp only [unvisited, List.length_cons]
    split <;> omega

theorem mem_stdUnique {α : Type} [DecidableEq α] (l : List α) (x : α) (hx : x ∈ l) :
    x ∈ stdUnique l := by
  induction l using stdUnique.induct with
  | case1 => cases hx
  | case2 a => simpa [stdUnique] using hx
  | case3 a rest ih =>
    rw [stdUnique, if_pos rfl]
    apply ih
    rcases List.mem_cons.mp hx with h | h
    · rw [h]; exact List.mem_cons_self _ _
    · exact h
  | case4 a b rest hab ih =>
    rw [stdUnique, if_neg hab]
    rcases List.mem_cons.mp hx with h | h
    · rw [h]; exact List.mem_cons_self _ _
    · exact List.mem_cons_of_mem _ (ih h)

/-- Paths to an existing cell are the same whether or not edges to positions without a cell
count: such positions have no outgoing edge. -/
theorem Sheet.path_Edge_iff_Refers (fc : FormulaCompiler Num AST) (s : Sheet Num AST)
    (x t : Position) (ht : s.HasCell t) :
    Relation.ReflTransGen (s.Edge fc) x t ↔ Relation.ReflTransGen (s.Refers fc) x t := by
  constructor
  · intro h
    induction h using Relation.ReflTransGen.head_induction_on with
    | refl => exact Relation.ReflTransGen.refl
    | head hxy hyt ih =>
      rename_i a b
      have hb : s.HasCell b := by
        rcases Relation.ReflTransGen.cases_head hyt with h | ⟨z, hbz, _⟩
        · rw [h]; exact ht
        · exact Sheet.Edge.hasCell fc s b z hbz
      exact Relation.ReflTransGen.head ⟨hxy, hb⟩ ih
  · intro h
    exact Relation.ReflTransGen.mono (fun a b hab => hab.1) h

/-- The cycle check of `Cell::Set`, run for the referenced positions `refs` of a new formula on
a sheet that has a cell at `this`: the loop returns without an error, and it returns `true`
exactly when `this` is reachable from one of the positions. -/
theorem Cell.Set_check (fc : FormulaCompiler Num AST) (s : Sheet Num AST) (this : Position)
    (refs : List Position) (hthis : s.HasCell this) (hvalid : ∀ q, q ∈ refs → q.IsValid = true) :
    ((∃ V1, refsLoop s (Cell.HasCircularDependency fc s this (s.slotCount + 1)) [] refs
        = Except.ok (true, V1)) ∧
      ∃ q, q ∈ refs ∧ Relation.ReflTransGen (s.Edge fc) q this) ∨
    ((∃ V1, refsLoop s (Cell.HasCircularDependency fc s this (s.slotCount + 1)) [] refs
        = Except.ok (false, V1)) ∧
      ¬ ∃ q, q ∈ refs ∧ Relation.ReflTransGen (s.Edge fc) q this) := by
  have hfuel : unvisited (slotPositions 0 s.cells_) [] < s.slotCount + 1 := by
    have h1 := unvisited_le_length (slotPositions 0 s.cells_) []
    rw [length_slotPositions] at h1
    exact Nat.lt_succ_of_le h1
  have hout := refsLoop_outcome fc s this (slotPositions 0 s.cells_) (s.slotCount + 1) _
    (Cell.HasCircularDependency_outcome fc s this (slotPositions 0 s.cells_)
      (fun p c hc => s.mem_slotPositions_of_cell p c hc) (s.slotCount + 1))
    refs [] hvalid hfuel (List.not_mem_nil _)
  rcases hout with ⟨V1, h⟩ | ⟨V1, h, hex, hQ⟩
  · left
    refine ⟨⟨V1, h⟩, ?_⟩
    exact refsLoop_true s _ (fun q => Relation.ReflTransGen (s.Edge fc) q this)
      (Cell.HasCircularDependency_sound fc s this (s.slotCount + 1)) refs [] V1 h
  · right
    refine ⟨⟨V1, h⟩, ?_⟩
    rintro ⟨q, hq, hpath⟩
    have hcq : s.HasCell q := by
      rcases Relation.ReflTransGen.cases_head hpath with h1 | ⟨z, hqz, _⟩
      · rw [h1]; exact hthis
      · exact Sheet.Edge.hasCell fc s q z hqz
    exact Sheet.Explored.no_path fc s this V1 hex hthis q hpath (hQ q hq hcq)

/-- The result of `Cell::Set` for a text that compiles to a formula: the circular-dependency
error when the cell is reachable from a referenced position of the formula, success and the
new content with an empty cache otherwise. -/
theorem Cell.Set_formula (fc : FormulaCompiler Num AST) (s : Sheet Num AST) (this : Position)
    (c : Cell Num AST) (text : String) (v : Value Num) (t : String) (ast : AST)
    (hthis : s.HasCell this)
    (hof : Impl.ofText fc text = Except.ok (Impl.FormulaImpl v t ast)) :
    ((∃ q, q ∈ Formula.GetReferencedCells fc ast ∧ Relation.ReflTransGen (s.Edge fc) q this) ∧
      Cell.Set fc s this c text = (Except.error SheetError.CircularDependency, c)) ∨
    ((¬ ∃ q, q ∈ Formula.GetReferencedCells fc ast ∧ Relation.ReflTransGen (s.Edge fc) q this) ∧
      Cell.Set fc s this c text = (Except.ok (), c.SetImpl (Impl.FormulaImpl v t ast))) := by
  have hvalid : ∀ q, q ∈ Formula.GetReferencedCells fc ast → q.IsValid = true :=
    fun q hq => referencedOf_valid _ q hq
  unfold Cell.Set
  rw [hof]
  simp only [Impl.isFormula, if_true, Impl.GetReferencedCells]
  rcases Cell.Set_check fc s this (Formula.GetReferencedCells fc ast) hthis hvalid with
    ⟨⟨V1, h⟩, hreach⟩ | ⟨⟨V1, h⟩, hreach⟩
  · left; rw [h]; exact ⟨hreach, rfl⟩
  · right; rw [h]; exact ⟨hreach, rfl⟩

/-! ## C2: the cycle check is exact -/

/-- C2: on a sheet that has a cell at `this`, for a text that compiles to a formula,
`Cell::Set` fails with the circular-dependency error exactly when `this` is reachable from one
of the formula's referenced positions along the edges of the dependency graph (positions
without a cell are dead ends), and succeeds otherwise; so the outcome is the same for any other
formula with the same set of referenced positions, whatever their order; and a formula that
references the cell's own position is rejected. -/
theorem C2_cycle_check_exact (fc : FormulaCompiler Num AST) (s : Sheet Num AST)
    (this : Position) (c : Cell Num AST) (text : String) (v : Value Num) (t : String) (ast : AST)
    (hthis : s.GetCell this = Except.ok (some c))
    (hof : Impl.ofText fc text = Except.ok (Impl.FormulaImpl v t ast)) :
    ((Cell.Set fc s this c text).1 = Except.error SheetError.CircularDependency ↔
      ∃ q, q ∈ Formula.GetReferencedCells fc ast ∧
        Relation.ReflTransGen (s.Refers fc) q this) ∧
    ((Cell.Set fc s this c text).1 = Except.ok () ↔
      ¬ ∃ q, q ∈ Formula.GetReferencedCells fc ast ∧
        Relation.ReflTransGen (s.Refers fc) q this) ∧
    (∀ (text2 : String) (v2 : Value Num) (t2 : String) (ast2 : AST),
      Impl.ofText fc text2 = Except.ok (Impl.FormulaImpl v2 t2 ast2) →
      (∀ q, q ∈ Formula.GetReferencedCells fc ast2 ↔ q ∈ Formula.GetReferencedCells fc ast) →
      (Cell.Set fc s this c text2).1 = (Cell.Set fc s this c text).1) ∧
    (this ∈ fc.GetCells ast →
      (Cell.Set fc s this c text).1 = Except.error SheetError.CircularDependency) := by
  have hcell : s.HasCell this := ⟨c, hthis⟩
  have hconv : ∀ (a : AST),
      (∃ q, q ∈ Formula.GetReferencedCells fc a ∧ Relation.ReflTransGen (s.Edge fc) q this) ↔
      (∃ q, q ∈ Formula.GetReferencedCells fc a ∧
        Relation.ReflTransGen (s.Refers fc) q this) := by
    intro a
    constructor
    · rintro ⟨q, hq, hp⟩
      exact ⟨q, hq, (s.path_Edge_iff_Refers fc q this hcell).mp hp⟩
    · rintro ⟨q, hq, hp⟩
      exact ⟨q, hq, (s.path_Edge_iff_Refers fc q this hcell).mpr hp⟩
  have hiff : (Cell.Set fc s this c text).1 = Except.error SheetError.CircularDependency ↔
      ∃ q, q ∈ Formula.GetReferencedCells fc ast ∧
        Relation.ReflTransGen (s.Refers fc) q this := by
    rw [← hconv ast]
    rcases Cell.Set_formula fc s this c text v t ast hcell hof with ⟨hr, hs⟩ | ⟨hr, hs⟩
    · rw [hs]; exact ⟨fun _ => hr, fun _ => rfl⟩
    · rw [hs]
      exact ⟨(fun h => by cases h), fun h => absurd h hr⟩
  refine ⟨hiff, ?_, ?_, ?_⟩
  · rw [← hconv ast]
    rcases Cell.Set_formula fc s this c text v t ast hcell hof with ⟨hr, hs⟩ | ⟨hr, hs⟩
    · rw [hs]
      exact ⟨(fun h => by cases h), fun h => absurd hr h⟩
    · rw [hs]; exact ⟨fun _ => hr, fun _ => rfl⟩
  · intro text2 v2 t2 ast2 hof2 hsame
    have hreach : (∃ q, q ∈ Formula.GetReferencedCells fc ast2 ∧
          Relation.ReflTransGen (s.Edge fc) q this) ↔
        (∃ q, q ∈ Formula.GetReferencedCells fc ast ∧
          Relation.ReflTransGen (s.Edge fc) q this) := by
      constructor
      · rintro ⟨q, hq, hp⟩; exact ⟨q, (hsame q).mp hq, hp⟩
      · rintro ⟨q, hq, hp⟩; exact ⟨q, (hsame q).mpr hq, hp⟩
    rcases Cell.Set_formula fc s this c text v t ast hcell hof with ⟨hr, hs⟩ | ⟨hr, hs⟩ <;>
    rcases Cell.Set_formula fc s this c text2 v2 t2 ast2 hcell hof2 with ⟨hr2, hs2⟩ | ⟨hr2, hs2⟩
    · rw [hs, hs2]
    · exact absurd (hreach.mpr hr) hr2
    · exact absurd (hreach.mp hr2) hr
    · rw [hs, hs2]
  · intro hmem
    apply hiff.mpr
    have hv : this.IsValid = true := by
      by_contra hv
      have hv1 : this.IsValid = false := by simpa using hv
      rw [Sheet.GetCell_of_invalid s this hv1] at hthis
      cases hthis
    refine ⟨this, ?_, Relation.ReflTransGen.refl⟩
    exact mem_stdUnique _ _ (List.mem_filter.mpr ⟨hmem, hv⟩)

/-- Witness for C2: on the sheet after `SetCell(A1, "=B1")` and a failing `SetCell(B1, "=A1")`,
where `A1` holds `=B1` and `B1` is empty, `Set("=A1")` on the cell at `B1` fails with the
circular-dependency error, `B1` being reachable from `A1`. -/
theorem C2_cycle_check_exact_witness :
    (Cell.Set Example.compiler Example.sheetAB Example.B1 Cell.new "=A1").1
      = Except.error SheetError.CircularDependency ∧
    ∃ q, q ∈ Formula.GetReferencedCells Example.compiler [Example.A1] ∧
      Relation.ReflTransGen (Example.sheetAB.Refers Example.compiler) q Example.B1 :=
  ⟨by decide,
    (C2_cycle_check_exact Example.compiler Example.sheetAB Example.B1 Cell.new "=A1"
      (Value.str "A1") "=A1" [Example.A1] (by decide) (by decide)).1.mp (by decide)⟩

/-! ## C1: the dependency graph stays acyclic -/

theorem Sheet.Acyclic_of_subgraph (fc : FormulaCompiler Num AST) (s s1 : Sheet Num AST)
    (hac : s.Acyclic fc) (hsub : ∀ x y, s1.Edge fc x y → s.Edge fc x y) : s1.Acyclic fc :=
  fun p hp => hac p (Relation.TransGen.mono hsub hp)

/-- Replacing the edges that leave one position `p` keeps the graph acyclic when `p` was not
reachable from any of its new successors. -/
theorem Sheet.Acyclic_of_update (fc : FormulaCompiler Num AST) (s s1 : Sheet Num AST)
    (p : Position) (hac : s.Acyclic fc)
    (hoff : ∀ x, x ≠ p → ∀ y, s1.Edge fc x y → s.Edge fc x y)
    (hnew : ∀ q, s1.Edge fc p q → ¬ Relation.ReflTransGen (s.Edge fc) q p) :
    s1.Acyclic fc := by
  have hto : ∀ a, Relation.ReflTransGen (s1.Edge fc) a p →
      Relation.ReflTransGen (s.Edge fc) a p := by
    intro a h
    induction h using Relation.ReflTransGen.head_induction_on with
    | refl => exact Relation.ReflTransGen.refl
    | @head a b hab _ ih =>
      by_cases hap : a = p
      · rw [hap]
      · exact Relation.ReflTransGen.head (hoff a hap b hab) ih
  have hthrough : ¬ Relation.TransGen (s1.Edge fc) p p := by
    intro h
    obtain ⟨q, hpq, hqp⟩ := Relation.TransGen.head'_iff.mp h
    exact hnew q hpq (hto q hqp)
  have hsplit : ∀ a b, Relation.TransGen (s1.Edge fc) a b →
      Relation.TransGen (s.Edge fc) a b ∨
      (Relation.ReflTransGen (s1.Edge fc) a p ∧ Relation.TransGen (s1.Edge fc) p b) := by
    intro a b h
    induction h using Relation.TransGen.head_induction_on with
    | @base a hab =>
      by_cases hap : a = p
      · right
        rw [hap] at hab ⊢
        exact ⟨Relation.ReflTransGen.refl, Relation.TransGen.single hab⟩
      · left
        exact Relation.TransGen.single (hoff a hap b hab)
    | @ih a c hac1 hcb ih =>
      by_cases hap : a = p
      · right
        rw [hap] at hac1 ⊢
        exact ⟨Relation.ReflTransGen.refl, Relation.TransGen.head hac1 hcb⟩
      · rcases ih with h1 | ⟨h1, h2⟩
        · left
          exact Relation.TransGen.head (hoff a hap c hac1) h1
        · right
          exact ⟨Relation.ReflTransGen.head hac1 h1, h2⟩
  intro x hx
  rcases hsplit x x hx with h | ⟨h1, h2⟩
  · exact hac x h
  · exact hthrough (Relation.TransGen.trans_left h2 h1)

theorem Sheet.refsAt_of_invalid (fc : FormulaCompiler Num AST) (s : Sheet Num AST)
    (x : Position) (h : x.IsValid = false) : s.refsAt fc x = [] := by
  unfold Sheet.refsAt
  rw [Sheet.GetCell_of_invalid s x h]

theorem Sheet.refsAt_of_valid (fc : FormulaCompiler Num AST) (s : Sheet Num AST)
    (x : Position) (h : x.IsValid = true) :
    s.refsAt fc x = match s.slot x.row.toNat x.col.toNat with
      | some c => c.GetReferencedCells fc
      | none => [] := by
  unfold Sheet.refsAt
  rw [Sheet.GetCell_of_valid s x h]
  cases s.slot x.row.toNat x.col.toNat <;> rfl

/-- Two sheets whose slots hold cells with the same content have the same edges. -/
theorem Sheet.refsAt_congr (fc : FormulaCompiler Num AST) (s s1 : Sheet Num AST) (x : Position)
    (h : (s1.slot x.row.toNat x.col.toNat).map Cell.impl_
      = (s.slot x.row.toNat x.col.toNat).map Cell.impl_) :
    s1.refsAt fc x = s.refsAt fc x := by
  by_cases hv : x.IsValid = true
  · rw [Sheet.refsAt_of_valid fc s1 x hv, Sheet.refsAt_of_valid fc s x hv]
    cases h1 : s1.slot x.row.toNat x.col.toNat <;>
    cases h2 : s.slot x.row.toNat x.col.toNat <;>
    simp only [h1, h2, Option.map_some', Option.map_none', Option.some.injEq] at h ⊢
    · cases h
    · cases h
    · simp only [Cell.GetReferencedCells, h]
  · have hv1 : x.IsValid = false := by simpa using hv
    rw [Sheet.refsAt_of_invalid fc s1 x hv1, Sheet.refsAt_of_invalid fc s x hv1]

theorem Sheet.refsAt_prepared (fc : FormulaCompiler Num AST) (s : Sheet Num AST)
    (p x : Position) :
    (s.prepared p.row.toNat p.col.toNat).refsAt fc x = s.refsAt fc x := by
  by_cases hv : x.IsValid = true
  · rw [Sheet.refsAt_of_valid fc _ x hv, Sheet.refsAt_of_valid fc s x hv, Sheet.slot_prepared]
    by_cases hc : x.row.toNat = p.row.toNat ∧ x.col.toNat = p.col.toNat
    · rw [if_pos hc, hc.1, hc.2, Sheet.cellOrNew_eq]
      cases hs : s.slot p.row.toNat p.col.toNat with
      | none => rfl
      | some c => rfl
    · rw [if_neg hc]
  · have hv1 : x.IsValid = false := by simpa using hv
    rw [Sheet.refsAt_of_invalid fc _ x hv1, Sheet.refsAt_of_invalid fc s x hv1]

/-- After `Cell::Set`, the cell is unchanged, or it references no position from which its own
position is reachable. -/
theorem Cell.Set_refs (fc : FormulaCompiler Num AST) (s : Sheet Num AST) (this : Position)
    (c : Cell Num AST) (text : String) (hthis : s.HasCell this) :
    (Cell.Set fc s this c text).2 = c ∨
    ∀ q, q ∈ (Cell.Set fc s this c text).2.GetReferencedCells fc →
      ¬ Relation.ReflTransGen (s.Edge fc) q this := by
  cases hof : Impl.ofText fc text with
  | error e =>
    left
    unfold Cell.Set
    rw [hof]
  | ok impl =>
    cases impl with
    | EmptyImpl v t =>
      right
      unfold Cell.Set
      rw [hof]
      intro q hq
      simp [Impl.isFormula, Cell.SetImpl, Cell.InvalidateCache, Cell.GetReferencedCells,
        Impl.GetReferencedCells] at hq
    | TextImpl v t =>
      right
      unfold Cell.Set
      rw [hof]
      intro q hq
      simp [Impl.isFormula, Cell.SetImpl, Cell.InvalidateCache, Cell.GetReferencedCells,
        Impl.GetReferencedCells] at hq
    | FormulaImpl v t ast =>
      rcases Cell.Set_formula fc s this c text v t ast hthis hof with ⟨_, hs⟩ | ⟨hr, hs⟩
      · left; rw [hs]
      · right
        rw [hs]
        intro q hq hpath
        exact hr ⟨q, hq, hpath⟩

theorem Sheet.SetCell_acyclic (fc : FormulaCompiler Num AST) (s : Sheet Num AST)
    (pos : Position) (text : String) (hac : s.Acyclic fc) :
    (Sheet.SetCell fc s pos text).2.Acyclic fc := by
  by_cases hv : pos.IsValid = true
  · have hac2 : (s.prepared pos.row.toNat pos.col.toNat).Acyclic fc :=
      Sheet.Acyclic_of_subgraph fc s _ hac (fun x y h => by
        unfold Sheet.Edge at h ⊢
        rw [Sheet.refsAt_prepared] at h
        exact h)
    have hcell : (s.prepared pos.row.toNat pos.col.toNat).GetCell pos
        = Except.ok (some (s.cellOrNew pos.row.toNat pos.col.toNat)) := by
      rw [Sheet.GetCell_of_valid _ pos hv, Sheet.slot_prepared, if_pos ⟨rfl, rfl⟩]
    have hself : (Sheet.SetCell fc s pos text).2.refsAt fc pos
        = (Cell.Set fc (s.prepared pos.row.toNat pos.col.toNat) pos
            (s.cellOrNew pos.row.toNat pos.col.toNat) text).2.GetReferencedCells fc := by
      rw [Sheet.refsAt_of_valid fc _ pos hv, Sheet.slot_SetCell fc s pos text hv,
        if_pos ⟨rfl, rfl⟩]
    have hother : ∀ x, x ≠ pos → (Sheet.SetCell fc s pos text).2.refsAt fc x
        = (s.prepared pos.row.toNat pos.col.toNat).refsAt fc x := by
      intro x hx
      rw [Sheet.refsAt_prepared]
      by_cases hxv : x.IsValid = true
      · rw [Sheet.refsAt_of_valid fc _ x hxv, Sheet.refsAt_of_valid fc s x hxv,
          Sheet.slot_SetCell fc s pos text hv, if_neg]
        rintro ⟨h1, h2⟩
        exact hx (Position.toNat_injective x pos hxv hv h1 h2)
      · have hxv1 : x.IsValid = false := by simpa using hxv
        rw [Sheet.refsAt_of_invalid fc _ x hxv1, Sheet.refsAt_of_invalid fc s x hxv1]
    apply Sheet.Acyclic_of_update fc (s.prepared pos.row.toNat pos.col.toNat) _ pos hac2
    · intro x hx y hxy
      unfold Sheet.Edge at hxy ⊢
      rw [hother x hx] at hxy
      exact hxy
    · intro q hq
      unfold Sheet.Edge at hq
      rw [hself] at hq
      rcases Cell.Set_refs fc (s.prepared pos.row.toNat pos.col.toNat) pos
        (s.cellOrNew pos.row.toNat pos.col.toNat) text ⟨_, hcell⟩ with hsame | hnew
      · rw [hsame] at hq
        intro hpath
        have hedge : (s.prepared pos.row.toNat pos.col.toNat).Edge fc pos q := by
          unfold Sheet.Edge
          rw [Sheet.refsAt_of_cell fc _ pos _ hcell]
          exact hq
        exact hac2 pos (Relation.TransGen.head'_iff.mpr ⟨q, hedge, hpath⟩)
      · exact hnew q hq
  · have hv1 : pos.IsValid = false := by simpa using hv
    rw [Sheet.SetCell_of_invalid fc s pos text hv1]
    exact hac

theorem Sheet.ClearCell_acyclic (fc : FormulaCompiler Num AST) (s : Sheet Num AST)
    (pos : Position) (hac : s.Acyclic fc) : (Sheet.ClearCell s pos).2.Acyclic fc := by
  apply Sheet.Acyclic_of_subgraph fc s _ hac
  intro x y h
  unfold Sheet.Edge at h ⊢
  by_cases hxv : x.IsValid = true
  · rw [Sheet.refsAt_of_valid fc _ x hxv, Sheet.slot_ClearCell] at h
    rw [Sheet.refsAt_of_valid fc s x hxv]
    by_cases hc : pos.IsValid = true ∧ x.row.toNat = pos.row.toNat ∧ x.col.toNat = pos.col.toNat
    · rw [if_pos hc] at h
      cases hs : s.slot x.row.toNat x.col.toNat with
      | none => rw [hs] at h; cases h
      | some c =>
        rw [hs] at h
        simp [Cell.Clear, Cell.SetImpl, Cell.InvalidateCache, Cell.GetReferencedCells,
          EmptyImpl.new, Impl.GetReferencedCells] at h
    · rw [if_neg hc] at h
      exact h
  · have hxv1 : x.IsValid = false := by simpa using hxv
    rw [Sheet.refsAt_of_invalid fc _ x hxv1] at h
    cases h

theorem Sheet.refsAt_of_eraseCaches (fc : FormulaCompiler Num AST) (s s1 : Sheet Num AST)
    (h : s1.eraseCaches = s.eraseCaches) (x : Position) : s1.refsAt fc x = s.refsAt fc x := by
  apply Sheet.refsAt_congr
  have h1 := s1.slot_eraseCaches x.row.toNat x.col.toNat
  rw [h, s.slot_eraseCaches] at h1
  have h2 := congrArg (Option.map Cell.impl_) h1
  simp only [Option.map_map] at h2
  exact h2.symm

theorem Sheet.step_acyclic (fc : FormulaCompiler Num AST) (s s1 : Sheet Num AST) (op : Op)
    (hstep : s.step fc op = some s1) (hac : s.Acyclic fc) : s1.Acyclic fc := by
  cases op with
  | setCell p t =>
    simp only [Sheet.step, Option.some.injEq] at hstep
    subst hstep
    exact Sheet.SetCell_acyclic fc s p t hac
  | clearCell p =>
    simp only [Sheet.step, Option.some.injEq] at hstep
    subst hstep
    exact Sheet.ClearCell_acyclic fc s p hac
  | getValue d p =>
    obtain ⟨_, v, _, hgv⟩ := Sheet.step_getValue fc s s1 d p hstep
    apply Sheet.Acyclic_of_subgraph fc s _ hac
    intro x y h
    unfold Sheet.Edge at h ⊢
    rw [Sheet.refsAt_of_eraseCaches fc s s1 (Cell.GetValue_eraseCaches fc d s p v s1 hgv)] at h
    exact h

theorem Sheet.run_acyclic (fc : FormulaCompiler Num AST) (ops : List Op) :
    ∀ (s0 s : Sheet Num AST), Sheet.run fc s0 ops = some s → s0.Acyclic fc → s.Acyclic fc := by
  induction ops with
  | nil =>
    intro s0 s hrun hac
    simp only [Sheet.run, Option.some.injEq] at hrun
    rw [← hrun]; exact hac
  | cons op ops ih =>
    intro s0 s hrun hac
    simp only [Sheet.run] at hrun
    cases hstep : s0.step fc op with
    | none => rw [hstep] at hrun; cases hrun
    | some s1 =>
      rw [hstep] at hrun
      exact ih s1 s hrun (Sheet.step_acyclic fc s0 s1 op hstep hac)

theorem Sheet.empty_acyclic (fc : FormulaCompiler Num AST) :
    (Sheet.empty : Sheet Num AST).Acyclic fc := by
  intro p hp
  obtain ⟨q, hpq, _⟩ := Relation.TransGen.head'_iff.mp hp
  obtain ⟨c, hc⟩ := Sheet.Edge.hasCell fc _ p q hpq
  by_cases hv : p.IsValid = true
  · rw [Sheet.GetCell_of_valid _ p hv] at hc
    simp [Sheet.empty, Sheet.slot] at hc
  · have hv1 : p.IsValid = false := by simpa using hv
    rw [Sheet.GetCell_of_invalid _ p hv1] at hc
    cases hc

/-- C1: in every sheet reached from the empty sheet by a sequence of `SetCell`, `ClearCell` (and
`GetValue`) calls, successful or failing, the dependency graph, whose edges go from an existing
cell to each existing cell at a position in its `GetReferencedCells()`, has no cycle; in
particular no cell references its own position. -/
theorem C1_reference_graph_acyclic (fc : FormulaCompiler Num AST) (ops : List Op)
    (s : Sheet Num AST) (hrun : Sheet.run fc Sheet.empty ops = some s) :
    (∀ p, ¬ Relation.TransGen (s.Refers fc) p p) ∧
    (∀ p c, s.GetCell p = Except.ok (some c) → p ∉ c.GetReferencedCells fc) := by
  have hac := Sheet.run_acyclic fc ops Sheet.empty s hrun (Sheet.empty_acyclic fc)
  refine ⟨?_, ?_⟩
  · intro p hp
    exact hac p (Relation.TransGen.mono (fun a b hab => hab.1) hp)
  · intro p c hc hmem
    apply hac p
    apply Relation.TransGen.single
    unfold Sheet.Edge
    rw [Sheet.refsAt_of_cell fc s p c hc]
    exact hmem

/-- Witness for C1: in the sheet after `SetCell(A1, "=B1")` and the rejected `SetCell(B1, "=A1")`,
no cycle passes through `A1`, and the cell at `A1` does not reference `A1`. -/
theorem C1_reference_graph_acyclic_witness :
    ¬ Relation.TransGen (Example.sheetAB.Refers Example.compiler) Example.A1 Example.A1 ∧
    Example.A1 ∉ Cell.GetReferencedCells Example.compiler
      (⟨Impl.FormulaImpl (Value.str "B1") "=B1" [Example.B1], none⟩ :
        Cell Int (List Position)) :=
  ⟨(C1_reference_graph_acyclic Example.compiler Example.opsAB Example.sheetAB (by decide)).1
      Example.A1,
    (C1_reference_graph_acyclic Example.compiler Example.opsAB Example.sheetAB (by decide)).2
      Example.A1 _ (by decide)⟩

/-! ## C7: `GetValue` is memoized -/

theorem Sheet.slot_setCache (s : Sheet Num AST) (pos : Position) (v : Value Num)
    (c : Cell Num AST) (hs : s.slot pos.row.toNat pos.col.toNat = some c) :
    (s.setCache pos v).slot pos.row.toNat pos.col.toNat = some { c with cache_ := some v } := by
  unfold Sheet.setCache
  rw [hs]
  obtain ⟨h1, h2⟩ := s.slot_some_lt _ _ c hs
  show (s.putSlot _ _ _).slot _ _ = _
  rw [Sheet.slot_putSlot _ _ _ _ _ _ h1 h2, if_pos ⟨rfl, rfl⟩]

/-- After a `GetValue` call that returned, the cell holds the returned value in its cache. -/
theorem Cell.GetValue_cache (fc : FormulaCompiler Num AST) (depth : Nat) (s : Sheet Num AST)
    (pos : Position) (v : Value Num) (s1 : Sheet Num AST)
    (h : Cell.GetValue fc depth s pos = some (v, s1)) :
    ∃ c1, s1.slot pos.row.toNat pos.col.toNat = some c1 ∧ c1.cache_ = some v := by
  cases hslot : s.slot pos.row.toNat pos.col.toNat with
  | none => rw [Cell.GetValue_no_cell fc _ s pos hslot] at h; cases h
  | some c =>
    cases hcache : c.cache_ with
    | some w =>
      rw [Cell.GetValue_cached fc _ s pos c w hslot hcache] at h
      simp only [Option.some.injEq, Prod.mk.injEq] at h
      rw [← h.1, ← h.2]
      exact ⟨c, hslot, hcache⟩
    | none =>
      cases himpl : c.impl_ with
      | EmptyImpl w t =>
        rw [Cell.GetValue_of_not_formula fc _ s pos c w t hslot hcache (Or.inl himpl)] at h
        simp only [Option.some.injEq, Prod.mk.injEq] at h
        rw [← h.1, ← h.2]
        exact ⟨_, s.slot_setCache pos w c hslot, rfl⟩
      | TextImpl w t =>
        rw [Cell.GetValue_of_not_formula fc _ s pos c w t hslot hcache (Or.inr himpl)] at h
        simp only [Option.some.injEq, Prod.mk.injEq] at h
        rw [← h.1, ← h.2]
        exact ⟨_, s.slot_setCache pos w c hslot, rfl⟩
      | FormulaImpl w t a =>
        cases depth with
        | zero =>
          rw [Cell.GetValue_formula_zero fc s pos c w t a hslot hcache himpl] at h
          cases h
        | succ d =>
          rw [Cell.GetValue_formula fc d s pos c w t a hslot hcache himpl] at h
          cases hrun : runExec (args_func fc (Cell.GetValue fc d)) (fc.Execute a) s with
          | none => rw [hrun] at h; cases h
          | some rs =>
            obtain ⟨r, s2⟩ := rs
            rw [hrun] at h
            simp only [Option.some.injEq, Prod.mk.injEq] at h
            rw [← h.1, ← h.2]
            have herase : s2.eraseCaches = s.eraseCaches :=
              runExec_eraseCaches fc d (fc.Execute a) s r s2 hrun
            cases hs2 : s2.slot pos.row.toNat pos.col.toNat with
            | none =>
              have := (Sheet.slot_isNone_of_eraseCaches s s2 herase _ _).mp hs2
              rw [hslot] at this
              cases this
            | some c2 => exact ⟨_, s2.slot_setCache pos _ c2 hs2, rfl⟩

/-- C7: `GetValue()` is idempotent and memoized. When the cache is present, a call returns the
cached value at once, without evaluating the content (it returns within nesting bound 0) and
without changing the sheet. After any call that returned, the cache is present and holds the
returned value, no content has changed, and a second call returns the same value, again without
evaluating and without changing the sheet. -/
theorem C7_GetValue_memoized (fc : FormulaCompiler Num AST) (s : Sheet Num AST)
    (pos : Position) :
    (∀ (c : Cell Num AST) (v : Value Num) (depth : Nat),
      s.slot pos.row.toNat pos.col.toNat = some c → c.cache_ = some v →
      Cell.GetValue fc depth s pos = some (v, s)) ∧
    (∀ (depth : Nat) (v : Value Num) (s1 : Sheet Num AST),
      Cell.GetValue fc depth s pos = some (v, s1) →
      (∃ c1, s1.slot pos.row.toNat pos.col.toNat = some c1 ∧ c1.cache_ = some v) ∧
      s1.eraseCaches = s.eraseCaches ∧
      ∀ depth2, Cell.GetValue fc depth2 s1 pos = some (v, s1)) := by
  refine ⟨?_, ?_⟩
  · intro c v depth hslot hcache
    exact Cell.GetValue_cached fc depth s pos c v hslot hcache
  · intro depth v s1 h
    obtain ⟨c1, hc1, hcache1⟩ := Cell.GetValue_cache fc depth s pos v s1 h
    exact ⟨⟨c1, hc1, hcache1⟩, Cell.GetValue_eraseCaches fc depth s pos v s1 h,
      fun depth2 => Cell.GetValue_cached fc depth2 s1 pos c1 v hc1 hcache1⟩

/-- Witness for C7: with `1` in `B1` and `=B1` in `A1`, the first `GetValue()` on `A1` returns the
number 1, and a second call returns the number 1 again within nesting bound 0. -/
theorem C7_GetValue_memoized_witness :
    (Cell.GetValue Example.compiler 1 Example.sheetB1A1 Example.A1).map Prod.fst
      = some (Value.num 1) ∧
    Cell.GetValue Example.compiler 0 Example.sheetB1A1read Example.A1
      = some (Value.num 1, Example.sheetB1A1read) :=
  ⟨by decide,
    ((C7_GetValue_memoized Example.compiler Example.sheetB1A1 Example.A1).2 1 (Value.num 1)
      Example.sheetB1A1read (by decide)).2.2 0⟩

/-! ## Evaluation that ignores the caches -/

theorem Sheet.freshValue_zero (fc : FormulaCompiler Num AST) (s : Sheet Num AST)
    (pos : Position) :
    s.freshValue fc 0 pos =
      match s.slot pos.row.toNat pos.col.toNat with
      | none => none
      | some c =>
        match c.impl_ with
        | Impl.EmptyImpl value_ _ => some value_
        | Impl.TextImpl value_ _ => some value_
        | Impl.FormulaImpl _ _ _ => none := by
  rw [Sheet.freshValue]

theorem Sheet.freshValue_succ (fc : FormulaCompiler Num AST) (d : Nat) (s : Sheet Num AST)
    (pos : Position) :
    s.freshValue fc (d + 1) pos =
      match s.slot pos.row.toNat pos.col.toNat with
      | none => none
      | some c =>
        match c.impl_ with
        | Impl.EmptyImpl value_ _ => some value_
        | Impl.TextImpl value_ _ => some value_
        | Impl.FormulaImpl _ _ formula_int_ =>
          (runFresh (freshArg fc (s.freshValue fc d) s) (fc.Execute formula_int_)).map
            Value.ofEvaluate := by
  rw [Sheet.freshValue]

theorem Sheet.impl_of_eraseCaches (s s1 : Sheet Num AST) (h : s1.eraseCaches = s.eraseCaches)
    (row col : Nat) :
    (s1.slot row col).map Cell.impl_ = (s.slot row col).map Cell.impl_ := by
  have h1 := s1.slot_eraseCaches row col
  rw [h, s.slot_eraseCaches] at h1
  have h2 := congrArg (Option.map Cell.impl_) h1
  simp only [Option.map_map] at h2
  exact h2.symm

theorem freshArg_congr (fc : FormulaCompiler Num AST) (eval : Position → Option (Value Num))
    (s s1 : Sheet Num AST) (h : s1.eraseCaches = s.eraseCaches) (pos : Position) :
    freshArg fc eval s1 pos = freshArg fc eval s pos := by
  unfold freshArg
  by_cases hv : pos.IsValid = true
  · simp only [hv, Bool.not_true, Bool.false_eq_true, if_false]
    rw [Sheet.GetCell_of_valid s1 pos hv, Sheet.GetCell_of_valid s pos hv]
    have hn := Sheet.slot_isNone_of_eraseCaches s s1 h pos.row.toNat pos.col.toNat
    cases h1 : s1.slot pos.row.toNat pos.col.toNat with
    | none => rw [hn.mp h1]
    | some c1 =>
      cases h2 : s.slot pos.row.toNat pos.col.toNat with
      | none => rw [hn.mpr h2] at h1; cases h1
      | some c2 => rfl
  · have hv1 : pos.IsValid = false := by simpa using hv
    simp only [hv1, Bool.not_false, if_true]

/-- The value that ignores the caches depends on the contents only. -/
theorem Sheet.freshValue_congr (fc : FormulaCompiler Num AST) (s s1 : Sheet Num AST)
    (h : s1.eraseCaches = s.eraseCaches) (d : Nat) :
    ∀ pos, s1.freshValue fc d pos = s.freshValue fc d pos := by
  induction d with
  | zero =>
    intro pos
    rw [Sheet.freshValue_zero, Sheet.freshValue_zero]
    have hi := Sheet.impl_of_eraseCaches s s1 h pos.row.toNat pos.col.toNat
    cases h1 : s1.slot pos.row.toNat pos.col.toNat <;>
    cases h2 : s.slot pos.row.toNat pos.col.toNat <;>
    simp only [h1, h2, Option.map_some', Option.map_none', Option.some.injEq] at hi ⊢
    · cases hi
    · cases hi
    · rw [hi]
  | succ d ih =>
    intro pos
    rw [Sheet.freshValue_succ, Sheet.freshValue_succ]
    have hi := Sheet.impl_of_eraseCaches s s1 h pos.row.toNat pos.col.toNat
    have hf : freshArg fc (s1.freshValue fc d) s1 = freshArg fc (s.freshValue fc d) s := by
      funext q
      rw [freshArg_congr fc _ s s1 h q]
      have : s1.freshValue fc d = s.freshValue fc d := funext ih
      rw [this]
    cases h1 : s1.slot pos.row.toNat pos.col.toNat <;>
    cases h2 : s.slot pos.row.toNat pos.col.toNat <;>
    simp only [h1, h2, Option.map_some', Option.map_none', Option.some.injEq] at hi ⊢
    · cases hi
    · cases hi
    · rw [hi, hf]

theorem runFresh_mono (resolve1 resolve2 : Position → Option (Except FormulaError Num))
    (h : ∀ q r, resolve1 q = some r → resolve2 q = some r) (e : Exec Num) :
    ∀ r, runFresh resolve1 e = some r → runFresh resolve2 e = some r := by
  induction e with
  | done r0 => intro r hr; exact hr
  | ask p k ih =>
    intro r hr
    simp only [runFresh] at hr ⊢
    cases h1 : resolve1 p with
    | none => rw [h1] at hr; cases hr
    | some r1 =>
      rw [h1] at hr
      rw [h p r1 h1]
      exact ih r1 r hr

theorem freshArg_mono (fc : FormulaCompiler Num AST)
    (eval1 eval2 : Position → Option (Value Num))
    (h : ∀ q v, eval1 q = some v → eval2 q = some v) (s : Sheet Num AST) (q : Position)
    (r : Except FormulaError Num) (hr : freshArg fc eval1 s q = some r) :
    freshArg fc eval2 s q = some r := by
  unfold freshArg at hr ⊢
  by_cases hv : q.IsValid = true
  · simp only [hv, Bool.not_true, Bool.false_eq_true, if_false] at hr ⊢
    cases hg : s.GetCell q with
    | error e => rw [hg] at hr; cases hr
    | ok oc =>
      rw [hg] at hr
      cases oc with
      | none => exact hr
      | some c =>
        simp only at hr ⊢
        cases h1 : eval1 q with
        | none => rw [h1] at hr; cases hr
        | some v =>
          rw [h1] at hr
          rw [h q v h1]
          exact hr
  · have hv1 : q.IsValid = false := by simpa using hv
    simp only [hv1, Bool.not_false, if_true] at hr ⊢
    exact hr

theorem Sheet.freshValue_mono_succ (fc : FormulaCompiler Num AST) (s : Sheet Num AST)
    (d : Nat) : ∀ pos v, s.freshValue fc d pos = some v → s.freshValue fc (d + 1) pos = some v := by
  induction d with
  | zero =>
    intro pos v h
    rw [Sheet.freshValue_zero] at h
    rw [Sheet.freshValue_succ]
    cases hs : s.slot pos.row.toNat pos.col.toNat with
    | none => rw [hs] at h; cases h
    | some c =>
      rw [hs] at h
      simp only at h ⊢
      cases hi : c.impl_ with
      | EmptyImpl w t => rw [hi] at h; exact h
      | TextImpl w t => rw [hi] at h; exact h
      | FormulaImpl w t a => rw [hi] at h; cases h
  | succ d ih =>
    intro pos v h
    rw [Sheet.freshValue_succ] at h
    rw [Sheet.freshValue_succ]
    cases hs : s.slot pos.row.toNat pos.col.toNat with
    | none => rw [hs] at h; cases h
    | some c =>
      rw [hs] at h
      simp only at h ⊢
      cases hi : c.impl_ with
      | EmptyImpl w t => rw [hi] at h; exact h
      | TextImpl w t => rw [hi] at h; exact h
      | FormulaImpl w t a =>
        rw [hi] at h
        simp only [Option.map_eq_some'] at h ⊢
        obtain ⟨r, hr, hv⟩ := h
        exact ⟨r, runFresh_mono _ _ (fun q r1 h1 => freshArg_mono fc _ _ ih s q r1 h1) _ r hr, hv⟩

theorem Sheet.freshValue_mono (fc : FormulaCompiler Num AST) (s : Sheet Num AST)
    (d d1 : Nat) (hle : d ≤ d1) (pos : Position) (v : Value Num)
    (h : s.freshValue fc d pos = some v) : s.freshValue fc d1 pos = some v := by
  induction hle with
  | refl => exact h
  | step _ ih => exact Sheet.freshValue_mono_succ fc s _ pos v ih

/-! ## C6: what the caches hold -/

theorem Sheet.slot_setCache_other (s : Sheet Num AST) (pos : Position) (v : Value Num)
    (row col : Nat) (h : ¬ (row = pos.row.toNat ∧ col = pos.col.toNat)) :
    (s.setCache pos v).slot row col = s.slot row col := by
  unfold Sheet.setCache
  cases hs : s.slot pos.row.toNat pos.col.toNat with
  | none => rfl
  | some c =>
    obtain ⟨h1, h2⟩ := s.slot_some_lt _ _ c hs
    show (s.putSlot _ _ _).slot _ _ = _
    rw [Sheet.slot_putSlot _ _ _ _ _ _ h1 h2, if_neg h]

theorem Sheet.Coherent_setCache (fc : FormulaCompiler Num AST) (s : Sheet Num AST)
    (pos : Position) (v : Value Num) (hv : pos.IsValid = true) (hcoh : s.Coherent fc)
    (hval : ∃ d, s.freshValue fc d pos = some v) : (s.setCache pos v).Coherent fc := by
  intro q c w hc hw
  have hqv : q.IsValid = true := by
    by_contra hq
    have hq1 : q.IsValid = false := by simpa using hq
    rw [Sheet.GetCell_of_invalid _ q hq1] at hc
    cases hc
  rw [Sheet.GetCell_of_valid _ q hqv] at hc
  injection hc with hc
  have hfresh : ∀ d, (s.setCache pos v).freshValue fc d q = s.freshValue fc d q :=
    fun d => Sheet.freshValue_congr fc s _ (s.eraseCaches_setCache pos v) d q
  by_cases hq : q.row.toNat = pos.row.toNat ∧ q.col.toNat = pos.col.toNat
  · have hqp : q = pos := Position.toNat_injective q pos hqv hv hq.1 hq.2
    subst hqp
    cases hs : s.slot q.row.toNat q.col.toNat with
    | none =>
      have : s.setCache q v = s := by unfold Sheet.setCache; rw [hs]
      rw [this, hs] at hc
      cases hc
    | some c0 =>
      rw [s.slot_setCache q v c0 hs] at hc
      injection hc with hc
      rw [← hc] at hw
      simp only [Option.some.injEq] at hw
      obtain ⟨d, hd⟩ := hval
      exact ⟨d, by rw [hfresh, ← hw]; exact hd⟩
  · rw [s.slot_setCache_other pos v _ _ hq] at hc
    obtain ⟨d, hd⟩ := hcoh q c w (by rw [Sheet.GetCell_of_valid s q hqv, hc]) hw
    exact ⟨d, by rw [hfresh]; exact hd⟩

theorem args_func_agrees (fc : FormulaCompiler Num AST)
    (getValue : Sheet Num AST → Position → Option (Value Num × Sheet Num AST))
    (hget : ∀ s pos v s1, pos.IsValid = true → s.Coherent fc →
      getValue s pos = some (v, s1) → Sheet.Agrees fc s s1 (fun d => s.freshValue fc d pos) v)
    (s : Sheet Num AST) (p : Position) (r : Except FormulaError Num) (s1 : Sheet Num AST)
    (hcoh : s.Coherent fc) (h : args_func fc getValue s p = some (r, s1)) :
    Sheet.Agrees fc s s1 (fun d => freshArg fc (s.freshValue fc d) s p) r := by
  unfold args_func at h
  by_cases hv : p.IsValid = true
  · simp only [hv, Bool.not_true, Bool.false_eq_true, if_false] at h
    cases hg : s.GetCell p with
    | error e => rw [hg] at h; cases h
    | ok oc =>
      rw [hg] at h
      cases oc with
      | none =>
        simp only [Option.some.injEq, Prod.mk.injEq] at h
        rw [← h.1, ← h.2]
        refine ⟨hcoh, rfl, 0, fun d1 _ => ?_⟩
        simp only [freshArg, hv, Bool.not_true, Bool.false_eq_true, if_false, hg]
      | some c =>
        simp only at h
        cases hgv : getValue s p with
        | none => rw [hgv] at h; cases h
        | some vs =>
          obtain ⟨v, s2⟩ := vs
          rw [hgv] at h
          simp only [Option.some.injEq, Prod.mk.injEq] at h
          obtain ⟨hc2, he2, d, hd⟩ := hget s p v s2 hv hcoh hgv
          rw [← h.1, ← h.2]
          refine ⟨hc2, he2, d, fun d1 hd1 => ?_⟩
          simp only [freshArg, hv, Bool.not_true, Bool.false_eq_true, if_false, hg, hd d1 hd1]
  · have hv1 : p.IsValid = false := by simpa using hv
    simp only [hv1, Bool.not_false, if_true, Option.some.injEq, Prod.mk.injEq] at h
    rw [← h.1, ← h.2]
    refine ⟨hcoh, rfl, 0, fun d1 _ => ?_⟩
    simp only [freshArg, hv1, Bool.not_false, if_true]

theorem runExec_agrees (fc : FormulaCompiler Num AST)
    (resolve : Sheet Num AST → Position → Option (Except FormulaError Num × Sheet Num AST))
    (hres : ∀ s p r s1, s.Coherent fc → resolve s p = some (r, s1) →
      Sheet.Agrees fc s s1 (fun d => freshArg fc (s.freshValue fc d) s p) r)
    (e : Exec Num) :
    ∀ (s : Sheet Num AST) (r : Except FormulaError Num) (s1 : Sheet Num AST),
      s.Coherent fc → runExec resolve e s = some (r, s1) →
      Sheet.Agrees fc s s1 (fun d => runFresh (freshArg fc (s.freshValue fc d) s) e) r := by
  induction e with
  | done r0 =>
    intro s r s1 hcoh h
    simp only [runExec, Option.some.injEq, Prod.mk.injEq] at h
    rw [← h.1, ← h.2]
    exact ⟨hcoh, rfl, 0, fun d1 _ => rfl⟩
  | ask p k ih =>
    intro s r s1 hcoh h
    simp only [runExec] at h
    cases hrs : resolve s p with
    | none => rw [hrs] at h; cases h
    | some rs =>
      obtain ⟨r2, s2⟩ := rs
      rw [hrs] at h
      obtain ⟨hc2, he2, da, hda⟩ := hres s p r2 s2 hcoh hrs
      obtain ⟨hc1, he1, db, hdb⟩ := ih r2 s2 r s1 hc2 h
      refine ⟨hc1, he1.trans he2, max da db, fun d1 hd1 => ?_⟩
      have h1 := hda d1 (le_trans (le_max_left _ _) hd1)
      have h2 := hdb d1 (le_trans (le_max_right _ _) hd1)
      simp only at h1 h2
      have hf : freshArg fc (s2.freshValue fc d1) s2 = freshArg fc (s.freshValue fc d1) s := by
        funext q
        rw [freshArg_congr fc _ s s2 he2 q]
        have : s2.freshValue fc d1 = s.freshValue fc d1 :=
          funext (Sheet.freshValue_congr fc s s2 he2 d1)
        rw [this]
      rw [hf] at h2
      simp only [runFresh, h1]
      exact h2

/-- A `GetValue` call on a coherent sheet returns the value the content evaluates to with all
caches ignored, and leaves the sheet coherent. -/
theorem Cell.GetValue_agrees (fc : FormulaCompiler Num AST) (depth : Nat) :
    ∀ (s : Sheet Num AST) (pos : Position) (v : Value Num) (s1 : Sheet Num AST),
      pos.IsValid = true → s.Coherent fc → Cell.GetValue fc depth s pos = some (v, s1) →
      Sheet.Agrees fc s s1 (fun d => s.freshValue fc d pos) v := by
  induction depth with
  | zero =>
    intro s pos v s1 hv hcoh h
    cases hslot : s.slot pos.row.toNat pos.col.toNat with
    | none => rw [Cell.GetValue_no_cell fc _ s pos hslot] at h; cases h
    | some c =>
      cases hcache : c.cache_ with
      | some w =>
        rw [Cell.GetValue_cached fc _ s pos c w hslot hcache] at h
        simp only [Option.some.injEq, Prod.mk.injEq] at h
        rw [← h.1, ← h.2]
        obtain ⟨d, hd⟩ := hcoh pos c w (by rw [Sheet.GetCell_of_valid s pos hv, hslot]) hcache
        exact ⟨hcoh, rfl, d, fun d1 hd1 => Sheet.freshValue_mono fc s d d1 hd1 pos w hd⟩
      | none =>
        have hnf : ∀ w t, (c.impl_ = Impl.EmptyImpl w t ∨ c.impl_ = Impl.TextImpl w t) →
            Sheet.Agrees fc s s1 (fun d => s.freshValue fc d pos) v := by
          intro w t himpl
          rw [Cell.GetValue_of_not_formula fc _ s pos c w t hslot hcache himpl] at h
          simp only [Option.some.injEq, Prod.mk.injEq] at h
          rw [← h.1, ← h.2]
          have hf : ∀ d, s.freshValue fc d pos = some w := by
            intro d
            cases d with
            | zero =>
              rw [Sheet.freshValue_zero, hslot]
              rcases himpl with hi | hi <;> simp only [hi]
            | succ d =>
              rw [Sheet.freshValue_succ, hslot]
              rcases himpl with hi | hi <;> simp only [hi]
          exact ⟨Sheet.Coherent_setCache fc s pos w hv hcoh ⟨0, hf 0⟩,
            s.eraseCaches_setCache pos w, 0, fun d1 _ => hf d1⟩
        cases himpl : c.impl_ with
        | EmptyImpl w t => exact hnf w t (Or.inl himpl)
        | TextImpl w t => exact hnf w t (Or.inr himpl)
        | FormulaImpl w t a =>
          rw [Cell.GetValue_formula_zero fc s pos c w t a hslot hcache himpl] at h
          cases h
  | succ depth ih =>
    intro s pos v s1 hv hcoh h
    cases hslot : s.slot pos.row.toNat pos.col.toNat with
    | none => rw [Cell.GetValue_no_cell fc _ s pos hslot] at h; cases h
    | some c =>
      cases hcache : c.cache_ with
      | some w =>
        rw [Cell.GetValue_cached fc _ s pos c w hslot hcache] at h
        simp only [Option.some.injEq, Prod.mk.injEq] at h
        rw [← h.1, ← h.2]
        obtain ⟨d, hd⟩ := hcoh pos c w (by rw [Sheet.GetCell_of_valid s pos hv, hslot]) hcache
        exact ⟨hcoh, rfl, d, fun d1 hd1 => Sheet.freshValue_mono fc s d d1 hd1 pos w hd⟩
      | none =>
        have hnf : ∀ w t, (c.impl_ = Impl.EmptyImpl w t ∨ c.impl_ = Impl.TextImpl w t) →
            Sheet.Agrees fc s s1 (fun d => s.freshValue fc d pos) v := by
          intro w t himpl
          rw [Cell.GetValue_of_not_formula fc _ s pos c w t hslot hcache himpl] at h
          simp only [Option.some.injEq, Prod.mk.injEq] at h
          rw [← h.1, ← h.2]
          have hf : ∀ d, s.freshValue fc d pos = some w := by
            intro d
            cases d with
            | zero =>
              rw [Sheet.freshValue_zero, hslot]
              rcases himpl with hi | hi <;> simp only [hi]
            | succ d =>
              rw [Sheet.freshValue_succ, hslot]
              rcases himpl with hi | hi <;> simp only [hi]
          exact ⟨Sheet.Coherent_setCache fc s pos w hv hcoh ⟨0, hf 0⟩,
            s.eraseCaches_setCache pos w, 0, fun d1 _ => hf d1⟩
        cases himpl : c.impl_ with
        | EmptyImpl w t => exact hnf w t (Or.inl himpl)
        | TextImpl w t => exact hnf w t (Or.inr himpl)
        | FormulaImpl w t a =>
          rw [Cell.GetValue_formula fc depth s pos c w t a hslot hcache himpl] at h
          cases hrun : runExec (args_func fc (Cell.GetValue fc depth)) (fc.Execute a) s with
          | none => rw [hrun] at h; cases h
          | some rs =>
            obtain ⟨r, s2⟩ := rs
            rw [hrun] at h
            simp only [Option.some.injEq, Prod.mk.injEq] at h
            rw [← h.1, ← h.2]
            obtain ⟨hc2, he2, d, hd⟩ := runExec_agrees fc _
              (fun s p r s1 hc hr => args_func_agrees fc _ ih s p r s1 hc hr)
              (fc.Execute a) s r s2 hcoh hrun
            have hf : ∀ d1, d + 1 ≤ d1 → s.freshValue fc d1 pos = some (Value.ofEvaluate r) := by
              intro d1 hd1
              obtain ⟨d2, rfl⟩ : ∃ d2, d1 = d2 + 1 := ⟨d1 - 1, by omega⟩
              rw [Sheet.freshValue_succ, hslot]
              simp only [himpl]
              have := hd d2 (by omega)
              simp only at this
              rw [this]
              rfl
            refine ⟨?_, (s2.eraseCaches_setCache pos _).trans he2, d + 1, hf⟩
            apply Sheet.Coherent_setCache fc s2 pos _ hv hc2
            exact ⟨d + 1, by
              rw [Sheet.freshValue_congr fc s s2 he2]
              exact hf (d + 1) (Nat.le_refl _)⟩

theorem Sheet.NoCache_SetCell (fc : FormulaCompiler Num AST) (s : Sheet Num AST)
    (pos : Position) (text : String) (h : s.NoCache) :
    (Sheet.SetCell fc s pos text).2.NoCache := by
  by_cases hv : pos.IsValid = true
  · intro row col c hc
    rw [Sheet.slot_SetCell fc s pos text hv] at hc
    by_cases hp : row = pos.row.toNat ∧ col = pos.col.toNat
    · rw [if_pos hp] at hc
      injection hc with hc
      rw [← hc]
      cases hres : (Cell.Set fc (s.prepared pos.row.toNat pos.col.toNat) pos
          (s.cellOrNew pos.row.toNat pos.col.toNat) text).1 with
      | error e =>
        rw [Cell.Set_of_error fc _ pos _ text e hres, Sheet.cellOrNew_eq]
        cases hs : s.slot pos.row.toNat pos.col.toNat with
        | none => rfl
        | some c0 => exact h _ _ c0 hs
      | ok u =>
        obtain ⟨impl, _, hcell⟩ := Cell.Set_of_ok fc _ pos _ text hres
        rw [hcell]
    · rw [if_neg hp] at hc
      exact h row col c hc
  · have hv1 : pos.IsValid = false := by simpa using hv
    rw [Sheet.SetCell_of_invalid fc s pos text hv1]
    exact h

theorem Sheet.NoCache_ClearCell (s : Sheet Num AST) (pos : Position) (h : s.NoCache) :
    (Sheet.ClearCell s pos).2.NoCache := by
  intro row col c hc
  rw [Sheet.slot_ClearCell] at hc
  by_cases hp : pos.IsValid = true ∧ row = pos.row.toNat ∧ col = pos.col.toNat
  · rw [if_pos hp] at hc
    cases hs : s.slot row col with
    | none => rw [hs] at hc; cases hc
    | some c0 =>
      rw [hs] at hc
      simp only [Option.map_some', Option.some.injEq] at hc
      rw [← hc]
      rfl
  · rw [if_neg hp] at hc
    exact h row col c hc

theorem Sheet.run_mutations_NoCache (fc : FormulaCompiler Num AST) (muts : List Op) :
    ∀ (s0 s : Sheet Num AST), (∀ op, op ∈ muts → op.isMutation = true) →
      Sheet.run fc s0 muts = some s → s0.NoCache → s.NoCache := by
  induction muts with
  | nil =>
    intro s0 s _ hrun h
    simp only [Sheet.run, Option.some.injEq] at hrun
    rw [← hrun]; exact h
  | cons op ops ih =>
    intro s0 s hm hrun h
    simp only [Sheet.run] at hrun
    have hrest : ∀ o, o ∈ ops → o.isMutation = true := fun o ho => hm o (List.mem_cons_of_mem _ ho)
    cases op with
    | setCell p t =>
      simp only [Sheet.step] at hrun
      exact ih _ s hrest hrun (Sheet.NoCache_SetCell fc s0 p t h)
    | clearCell p =>
      simp only [Sheet.step] at hrun
      exact ih _ s hrest hrun (Sheet.NoCache_ClearCell s0 p h)
    | getValue d p =>
      have := hm _ (List.mem_cons_self _ _)
      simp [Op.isMutation] at this

theorem Sheet.run_reads_Coherent (fc : FormulaCompiler Num AST) (reads : List Op) :
    ∀ (s0 s : Sheet Num AST), (∀ op, op ∈ reads → op.isMutation = false) →
      Sheet.run fc s0 reads = some s → s0.Coherent fc → s.Coherent fc := by
  induction reads with
  | nil =>
    intro s0 s _ hrun h
    simp only [Sheet.run, Option.some.injEq] at hrun
    rw [← hrun]; exact h
  | cons op ops ih =>
    intro s0 s hr hrun h
    simp only [Sheet.run] at hrun
    have hrest : ∀ o, o ∈ ops → o.isMutation = false :=
      fun o ho => hr o (List.mem_cons_of_mem _ ho)
    cases hstep : s0.step fc op with
    | none => rw [hstep] at hrun; cases hrun
    | some s1 =>
      rw [hstep] at hrun
      cases op with
      | setCell p t =>
        have := hr _ (List.mem_cons_self _ _)
        simp [Op.isMutation] at this
      | clearCell p =>
        have := hr _ (List.mem_cons_self _ _)
        simp [Op.isMutation] at this
      | getValue d p =>
        obtain ⟨c, v, hc, hgv⟩ := Sheet.step_getValue fc s0 s1 d p hstep
        have hv : p.IsValid = true := by
          by_contra hv
          have hv1 : p.IsValid = false := by simpa using hv
          rw [Sheet.GetCell_of_invalid s0 p hv1] at hc
          cases hc
        exact ih s1 s hrest hrun (Cell.GetValue_agrees fc d s0 p v s1 hv h hgv).1

theorem Sheet.run_append (fc : FormulaCompiler Num AST) (ops1 ops2 : List Op) :
    ∀ (s0 : Sheet Num AST),
      Sheet.run fc s0 (ops1 ++ ops2) = (Sheet.run fc s0 ops1).bind fun s1 => Sheet.run fc s1 ops2 := by
  induction ops1 with
  | nil => intro s0; rfl
  | cons op ops ih =>
    intro s0
    simp only [List.cons_append, Sheet.run]
    cases s0.step fc op with
    | none => rfl
    | some s1 => exact ih s1

/-- C6 as stated fails: after `SetCell(B1, "1")`, `SetCell(A1, "=B1")`, `GetValue()` on `A1` and
`SetCell(B1, "2")`, the cache of `A1` holds the number 1, while the content of `A1` evaluates to
the number 2 against the current sheet (with the caches ignored, and also when `GetValue` runs
on the sheet with all caches dropped). -/
theorem C6_cache_stale_after_mutation :
    Sheet.run Example.compiler Sheet.empty
        [Op.setCell Example.B1 "1", Op.setCell Example.A1 "=B1", Op.getValue 1 Example.A1,
          Op.setCell Example.B1 "2"]
      = some Example.sheetStale ∧
    Example.sheetStale.GetCell Example.A1
      = Except.ok (some ⟨Impl.FormulaImpl (Value.str "B1") "=B1" [Example.B1],
          some (Value.num 1)⟩) ∧
    Example.sheetStale.freshValue Example.compiler 1 Example.A1 = some (Value.num 2) ∧
    (Cell.GetValue Example.compiler 1 Example.sheetStale.eraseCaches Example.A1).map Prod.fst
      = some (Value.num 2) := by
  decide

/-! ## C15: `FormulaError` -/

/-- C15: `ToString()` maps the category `Ref` to `#REF!`, `Value` to `#VALUE!` and `Arithmetic`
to `#ARITHM!`, three non-empty and pairwise distinct tokens, and `operator==` holds exactly when
the categories are equal. -/
theorem C15_FormulaError_display_and_equality :
    FormulaError.ToString ⟨Category.Ref⟩ = "#REF!" ∧
    FormulaError.ToString ⟨Category.Value⟩ = "#VALUE!" ∧
    FormulaError.ToString ⟨Category.Arithmetic⟩ = "#ARITHM!" ∧
    (∀ fe : FormulaError, fe.ToString ≠ "") ∧
    (∀ a b : FormulaError, a.ToString = b.ToString → a.category_ = b.category_) ∧
    (∀ a b : FormulaError, FormulaError.eq a b = true ↔ a.category_ = b.category_) := by
  refine ⟨rfl, rfl, rfl, ?_, ?_, ?_⟩
  · rintro ⟨c⟩
    cases c <;> decide
  · rintro ⟨c1⟩ ⟨c2⟩
    cases c1 <;> cases c2 <;> decide
  · intro a b
    simp [FormulaError.eq]

/-! ## C17: what `SetCell` leaves alone -/

/-- C17: whether `SetCell(pos, text)` at a valid `pos` succeeds or fails, `GetCell(q)` returns
the same as before at every valid position `q` other than `pos`: an absent cell stays absent
(also in slots newly allocated by growing the grid), and an existing cell is the same cell, with
the same text, referenced cells and cache. -/
theorem C17_SetCell_frame (fc : FormulaCompiler Num AST) (s : Sheet Num AST) (pos : Position)
    (text : String) (q : Position) (hpos : pos.IsValid = true) (hq : q.IsValid = true)
    (hne : q ≠ pos) :
    (Sheet.SetCell fc s pos text).2.GetCell q = s.GetCell q ∧
    ((Sheet.SetCell fc s pos text).2.GetCell q = Except.ok none ↔ s.GetCell q = Except.ok none) ∧
    (∀ c, s.GetCell q = Except.ok (some c) →
      ∃ c1, (Sheet.SetCell fc s pos text).2.GetCell q = Except.ok (some c1) ∧
        c1.GetText = c.GetText ∧ c1.GetReferencedCells fc = c.GetReferencedCells fc ∧
        c1.cache_ = c.cache_) := by
  have key : (Sheet.SetCell fc s pos text).2.GetCell q = s.GetCell q := by
    rw [Sheet.GetCell_of_valid _ q hq, Sheet.GetCell_of_valid _ q hq,
      Sheet.slot_SetCell fc s pos text hpos, if_neg]
    rintro ⟨h1, h2⟩
    exact hne (Position.toNat_injective q pos hq hpos h1 h2)
  refine ⟨key, by rw [key], ?_⟩
  intro c hc
  exact ⟨c, by rw [key, hc], rfl, rfl, rfl⟩

/-- Witness for C17: `SetCell(B1, "=A1")`, which fails on the sheet where `A1` holds `=B1`,
leaves `GetCell(A1)` as it was. -/
theorem C17_SetCell_frame_witness :
    (Sheet.SetCell Example.compiler
        (Sheet.SetCell Example.compiler Sheet.empty Example.A1 "=B1").2 Example.B1 "=A1").2.GetCell
        Example.A1
      = (Sheet.SetCell Example.compiler Sheet.empty Example.A1 "=B1").2.GetCell Example.A1 :=
  (C17_SetCell_frame Example.compiler
    (Sheet.SetCell Example.compiler Sheet.empty Example.A1 "=B1").2 Example.B1 "=A1" Example.A1
    (by decide) (by decide) (by decide)).1

/-! ## C11: `Sheet::ClearCell` -/

theorem Sheet.ClearCell_of_invalid (s : Sheet Num AST) (pos : Position)
    (h : pos.IsValid = false) :
    Sheet.ClearCell s pos = (Except.error SheetError.InvalidPosition, s) := by
  unfold Sheet.ClearCell
  simp [h]

/-- The result of `ClearCell` at a valid position: success; the sheet is untouched when the slot
holds no cell, and otherwise the cell is replaced by its cleared state. -/
theorem Sheet.ClearCell_of_valid (s : Sheet Num AST) (pos : Position) (h : pos.IsValid = true) :
    Sheet.ClearCell s pos =
      match s.slot pos.row.toNat pos.col.toNat with
      | some c => (Except.ok (), s.putSlot pos.row.toNat pos.col.toNat (some c.Clear))
      | none => (Except.ok (), s) := by
  unfold Sheet.ClearCell
  simp only [h, Bool.not_true, Bool.false_eq_true, if_false]
  by_cases hr : pos.row ≥ (s.cells_.length : Int)
  · rw [if_pos hr]
    cases hs : s.slot pos.row.toNat pos.col.toNat with
    | none => rfl
    | some x =>
      have := (s.slot_some_lt _ _ x hs).1
      omega
  · rw [if_neg hr]
    by_cases hc : pos.col ≥ ((s.cells_.getD pos.row.toNat []).length : Int)
    · rw [if_pos hc]
      cases hs : s.slot pos.row.toNat pos.col.toNat with
      | none => rfl
      | some x =>
        have := (s.slot_some_lt _ _ x hs).2
        omega
    · rw [if_neg hc]

theorem Cell.Set_empty (fc : FormulaCompiler Num AST) (sheet : Sheet Num AST)
    (this : Position) (c : Cell Num AST) :
    Cell.Set fc sheet this c "" = (Except.ok (), c.Clear) := rfl

/-- C11: `ClearCell(pos)` fails, with the invalid-position error, exactly when `pos` is invalid,
and succeeds otherwise. For a valid `pos` without a cell the whole sheet, grid extent included,
is unchanged. For a valid `pos` with a cell the cell stays present and becomes what
`Cell::Set("")` produces: `GetText()` is empty, `GetReferencedCells()` is empty, the cache is
cleared and `GetValue()` is the empty string, whatever the content was; every other position
is read back as before. -/
theorem C11_ClearCell_contract (fc : FormulaCompiler Num AST) (s : Sheet Num AST)
    (pos : Position) :
    ((Sheet.ClearCell s pos).1 = Except.error SheetError.InvalidPosition ↔
      pos.IsValid = false) ∧
    ((Sheet.ClearCell s pos).1 = Except.ok () ↔ pos.IsValid = true) ∧
    (s.GetCell pos = Except.ok none → (Sheet.ClearCell s pos).2 = s) ∧
    (∀ c, s.GetCell pos = Except.ok (some c) →
      (Sheet.ClearCell s pos).1 = Except.ok () ∧
      (Sheet.ClearCell s pos).2.GetCell pos = Except.ok (some c.Clear) ∧
      (∀ sheet this, (Cell.Set fc sheet this c "") = (Except.ok (), c.Clear)) ∧
      c.Clear.GetText = "" ∧
      c.Clear.GetReferencedCells fc = [] ∧
      c.Clear.cache_ = none ∧
      (∀ depth, (Cell.GetValue fc depth (Sheet.ClearCell s pos).2 pos).map Prod.fst
        = some (Value.str "")) ∧
      (∀ q, q ≠ pos → (Sheet.ClearCell s pos).2.GetCell q = s.GetCell q)) := by
  by_cases hv : pos.IsValid = true
  · have hcc := Sheet.ClearCell_of_valid s pos hv
    have hok : (Sheet.ClearCell s pos).1 = Except.ok () := by
      rw [hcc]; cases s.slot pos.row.toNat pos.col.toNat <;> rfl
    refine ⟨?_, ?_, ?_, ?_⟩
    · rw [hok, hv]
      exact ⟨(fun h => by cases h), (fun h => by cases h)⟩
    · rw [hok, hv]
      exact ⟨fun _ => rfl, fun _ => rfl⟩
    · intro hnone
      rw [Sheet.GetCell_of_valid s pos hv] at hnone
      injection hnone with hnone
      rw [hcc, hnone]
    · intro c hc
      rw [Sheet.GetCell_of_valid s pos hv] at hc
      injection hc with hc
      have hslot : (Sheet.ClearCell s pos).2.slot pos.row.toNat pos.col.toNat
          = some c.Clear := by
        rw [Sheet.slot_ClearCell, if_pos ⟨hv, rfl, rfl⟩, hc]
        rfl
      refine ⟨hok, ?_, fun sheet this => Cell.Set_empty fc sheet this c, rfl, rfl, rfl, ?_, ?_⟩
      · rw [Sheet.GetCell_of_valid _ pos hv, hslot]
      · intro depth
        rw [Cell.GetValue_of_not_formula fc depth _ pos c.Clear (Value.str "") "" hslot rfl
          (Or.inl rfl)]
        rfl
      · intro q hq
        by_cases hqv : q.IsValid = true
        · rw [Sheet.GetCell_of_valid _ q hqv, Sheet.GetCell_of_valid _ q hqv,
            Sheet.slot_ClearCell, if_neg]
          rintro ⟨_, h1, h2⟩
          exact hq (Position.toNat_injective q pos hqv hv h1 h2)
        · have hqv1 : q.IsValid = false := by simpa using hqv
          rw [Sheet.GetCell_of_invalid _ q hqv1, Sheet.GetCell_of_invalid _ q hqv1]
  · have hv1 : pos.IsValid = false := by simpa using hv
    rw [Sheet.ClearCell_of_invalid s pos hv1, Sheet.GetCell_of_invalid s pos hv1, hv1]
    refine ⟨⟨fun _ => rfl, fun _ => rfl⟩, ⟨(fun h => by cases h), (fun h => by cases h)⟩,
      (fun h => by cases h), (fun c h => by cases h)⟩

/-- Witness for C11: `ClearCell(A1)` on the sheet where `A1` holds `=B1` with a cached number
leaves an empty cell with an empty cache at `A1`. -/
theorem C11_ClearCell_contract_witness :
    (Sheet.ClearCell Example.sheetB1A1read Example.A1).1 = Except.ok () ∧
    (Sheet.ClearCell Example.sheetB1A1read Example.A1).2.GetCell Example.A1
      = Except.ok (some Cell.new) :=
  ⟨((C11_ClearCell_contract Example.compiler Example.sheetB1A1read Example.A1).2.2.2
      ⟨Impl.FormulaImpl (Value.str "B1") "=B1" [Example.B1], some (Value.num 1)⟩
      (by decide)).1,
   ((C11_ClearCell_contract Example.compiler Example.sheetB1A1read Example.A1).2.2.2
      ⟨Impl.FormulaImpl (Value.str "B1") "=B1" [Example.B1], some (Value.num 1)⟩
      (by decide)).2.1⟩

/-! ## C12: the resolver of `Formula::Evaluate` -/

theorem args_func_of_cell (fc : FormulaCompiler Num AST)
    (getValue : Sheet Num AST → Position → Option (Value Num × Sheet Num AST))
    (s : Sheet Num AST) (p : Position) (c : Cell Num AST)
    (hc : s.GetCell p = Except.ok (some c)) :
    args_func fc getValue s p =
      match getValue s p with
      | none => none
      | some (val, sheet1) => some (argOfValue fc val, sheet1) := by
  have hv : p.IsValid = true := by
    by_contra hv
    have hv1 : p.IsValid = false := by simpa using hv
    rw [Sheet.GetCell_of_invalid s p hv1] at hc
    cases hc
  unfold args_func
  simp only [hv, Bool.not_true, Bool.false_eq_true, if_false, hc]

/-- The test `in >> result && in.eof()` on a non-empty string: the number is returned exactly
when the extraction gives it and has left no character unread. -/
theorem argOfValue_str (fc : FormulaCompiler Num AST) (str : String) (hne : str ≠ "") :
    (∀ x, argOfValue fc (Value.str str) = Except.ok x ↔ fc.extract str.data = some (x, [])) ∧
    ((∀ x, fc.extract str.data ≠ some (x, [])) →
      argOfValue fc (Value.str str) = Except.error ⟨Category.Value⟩) := by
  have hlen : ¬ str.data.length = 0 := (String.data_length_ne_zero str).mpr hne
  constructor
  · intro x
    simp only [argOfValue, if_neg hlen]
    cases hx : fc.extract str.data with
    | none => simp
    | some xr =>
      obtain ⟨y, rest⟩ := xr
      cases rest with
      | nil => simp
      | cons a l => simp
  · intro hno
    simp only [argOfValue, if_neg hlen]
    cases hx : fc.extract str.data with
    | none => rfl
    | some xr =>
      obtain ⟨y, rest⟩ := xr
      cases rest with
      | nil => exact absurd hx (hno y)
      | cons a l => simp

/-- C12: the resolver handed to the compiled expression (i) throws `Ref` at an invalid position,
(ii) returns `0.0` at a valid position without a cell, and at a cell whose `GetValue()` returned
`v`: (iii) returns the number when `v` is a number, (iv) returns `0.0` when `v` is the empty
string, (v) for a non-empty string returns a number exactly when the extraction `in >> result`
gives that number and has consumed the entire string, and throws `Value` in every other case,
that is when the extraction fails and when it stops before the end of the string, (vi) throws
the same error when `v` is an error. -/
theorem C12_resolver_semantics (fc : FormulaCompiler Num AST) (depth : Nat)
    (s : Sheet Num AST) (p : Position) :
    (p.IsValid = false →
      args_func fc (Cell.GetValue fc depth) s p = some (Except.error ⟨Category.Ref⟩, s)) ∧
    (p.IsValid = true → s.GetCell p = Except.ok none →
      args_func fc (Cell.GetValue fc depth) s p = some (Except.ok fc.zero, s)) ∧
    (∀ (c : Cell Num AST) (v : Value Num) (s1 : Sheet Num AST),
      s.GetCell p = Except.ok (some c) → Cell.GetValue fc depth s p = some (v, s1) →
      (∀ n, v = Value.num n →
        args_func fc (Cell.GetValue fc depth) s p = some (Except.ok n, s1)) ∧
      (v = Value.str "" →
        args_func fc (Cell.GetValue fc depth) s p = some (Except.ok fc.zero, s1)) ∧
      (∀ str, v = Value.str str → str ≠ "" →
        (∀ x, args_func fc (Cell.GetValue fc depth) s p = some (Except.ok x, s1) ↔
          fc.extract str.data = some (x, [])) ∧
        (fc.extract str.data = none →
          args_func fc (Cell.GetValue fc depth) s p
            = some (Except.error ⟨Category.Value⟩, s1)) ∧
        (∀ x rest, fc.extract str.data = some (x, rest) → rest ≠ [] →
          args_func fc (Cell.GetValue fc depth) s p
            = some (Except.error ⟨Category.Value⟩, s1)) ∧
        ((∀ x, fc.extract str.data ≠ some (x, [])) →
          args_func fc (Cell.GetValue fc depth) s p
            = some (Except.error ⟨Category.Value⟩, s1))) ∧
      (∀ e, v = Value.err e →
        args_func fc (Cell.GetValue fc depth) s p = some (Except.error e, s1))) := by
  refine ⟨?_, ?_, ?_⟩
  · intro hv
    unfold args_func
    simp only [hv, Bool.not_false, if_true]
  · intro hv hc
    unfold args_func
    simp only [hv, Bool.not_true, Bool.false_eq_true, if_false, hc]
  · intro c v s1 hc hgv
    have h := args_func_of_cell fc (Cell.GetValue fc depth) s p c hc
    rw [hgv] at h
    simp only at h
    refine ⟨?_, ?_, ?_, ?_⟩
    · intro n hn
      rw [h, hn]; rfl
    · intro hn
      rw [h, hn]; rfl
    · intro str hn hne
      obtain ⟨hiff, herr⟩ := argOfValue_str fc str hne
      rw [h, hn]
      refine ⟨?_, ?_, ?_, ?_⟩
      · intro x
        rw [← hiff x]
        simp only [Option.some.injEq, Prod.mk.injEq, and_true]
      · intro hnone
        rw [herr (fun x hx => by rw [hnone] at hx; cases hx)]
      · intro x rest hx hrest
        rw [herr (fun y hy => by
          rw [hx] at hy
          simp only [Option.some.injEq, Prod.mk.injEq] at hy
          exact hrest hy.2)]
      · intro hno
        rw [herr hno]
    · intro e hn
      rw [h, hn]; rfl

/-- Witness for C12: on the sheet with `1` in `B1`, the resolver returns the number 1 at `B1`;
on the sheet with `12abc` in `A1`, where the extraction reads 12 and leaves `abc`, the resolver
throws `Value` at `A1`. -/
theorem C12_resolver_semantics_witness :
    args_func Example.compiler (Cell.GetValue Example.compiler 0) Example.sheetB1A1 Example.B1
      = some (Except.ok 1,
          Example.sheetB1A1.setCache Example.B1 (Value.str "1")) ∧
    Example.compiler.extract "12abc".data = some (12, "abc".data) ∧
    args_func Example.compiler (Cell.GetValue Example.compiler 0) Example.sheet12abc Example.A1
      = some (Except.error ⟨Category.Value⟩,
          Example.sheet12abc.setCache Example.A1 (Value.str "12abc")) :=
  ⟨(((C12_resolver_semantics Example.compiler 0 Example.sheetB1A1 Example.B1).2.2
      ⟨Impl.TextImpl (Value.str "1") "1", none⟩ (Value.str "1")
      (Example.sheetB1A1.setCache Example.B1 (Value.str "1")) (by decide) (by decide)).2.2.1
      "1" rfl (by decide)).1 1 |>.mpr (by decide),
   by decide,
   (((C12_resolver_semantics Example.compiler 0 Example.sheet12abc Example.A1).2.2
      ⟨Impl.TextImpl (Value.str "12abc") "12abc", none⟩ (Value.str "12abc")
      (Example.sheet12abc.setCache Example.A1 (Value.str "12abc")) (by decide)
      (by decide)).2.2.1
      "12abc" rfl (by decide)).2.2.1 12 "abc".data (by decide) (by decide)⟩

/-! ## The three ways a `GetValue` call returns -/

/-- A `GetValue` call that returned has taken one of three paths: the cache was present; the
cache was empty and the content has no formula; the cache was empty and the formula was
evaluated with one nesting level less. -/
theorem Cell.GetValue_cases (fc : FormulaCompiler Num AST) (depth : Nat) (s : Sheet Num AST)
    (pos : Position) (v : Value Num) (s1 : Sheet Num AST)
    (h : Cell.GetValue fc depth s pos = some (v, s1)) :
    (∃ c, s.slot pos.row.toNat pos.col.toNat = some c ∧ c.cache_ = some v ∧ s1 = s) ∨
    (∃ c t, s.slot pos.row.toNat pos.col.toNat = some c ∧ c.cache_ = none ∧
      (c.impl_ = Impl.EmptyImpl v t ∨ c.impl_ = Impl.TextImpl v t) ∧ s1 = s.setCache pos v) ∨
    (∃ c w t a d r s2, s.slot pos.row.toNat pos.col.toNat = some c ∧ c.cache_ = none ∧
      c.impl_ = Impl.FormulaImpl w t a ∧ depth = d + 1 ∧
      runExec (args_func fc (Cell.GetValue fc d)) (fc.Execute a) s = some (r, s2) ∧
      v = Value.ofEvaluate r ∧ s1 = s2.setCache pos v) := by
  cases hslot : s.slot pos.row.toNat pos.col.toNat with
  | none => rw [Cell.GetValue_no_cell fc _ s pos hslot] at h; cases h
  | some c =>
    cases hcache : c.cache_ with
    | some w =>
      rw [Cell.GetValue_cached fc _ s pos c w hslot hcache] at h
      simp only [Option.some.injEq, Prod.mk.injEq] at h
      left
      exact ⟨c, rfl, by rw [hcache, h.1], h.2.symm⟩
    | none =>
      right
      cases himpl : c.impl_ with
      | EmptyImpl w t =>
        rw [Cell.GetValue_of_not_formula fc _ s pos c w t hslot hcache (Or.inl himpl)] at h
        simp only [Option.some.injEq, Prod.mk.injEq] at h
        left
        exact ⟨c, t, rfl, hcache, Or.inl (by rw [himpl, h.1]), by rw [← h.2, h.1]⟩
      | TextImpl w t =>
        rw [Cell.GetValue_of_not_formula fc _ s pos c w t hslot hcache (Or.inr himpl)] at h
        simp only [Option.some.injEq, Prod.mk.injEq] at h
        left
        exact ⟨c, t, rfl, hcache, Or.inr (by rw [himpl, h.1]), by rw [← h.2, h.1]⟩
      | FormulaImpl w t a =>
        right
        cases depth with
        | zero =>
          rw [Cell.GetValue_formula_zero fc s pos c w t a hslot hcache himpl] at h
          cases h
        | succ d =>
          rw [Cell.GetValue_formula fc d s pos c w t a hslot hcache himpl] at h
          cases hrun : runExec (args_func fc (Cell.GetValue fc d)) (fc.Execute a) s with
          | none => rw [hrun] at h; cases h
          | some rs =>
            obtain ⟨r, s2⟩ := rs
            rw [hrun] at h
            simp only [Option.some.injEq, Prod.mk.injEq] at h
            exact ⟨c, w, t, a, d, r, s2, rfl, hcache, himpl, rfl, hrun, h.1.symm,
              by rw [← h.2, h.1]⟩

/-- A property of sheets is kept by `GetValue` when it is kept by the cache assignment at the
end of a call: the cache of the cell was empty when the call began, the value assigned is the
stored value of a cell without a formula and the result of the evaluation for a formula, and
the property held when the call began and holds just before the assignment. -/
theorem Cell.GetValue_invariant (fc : FormulaCompiler Num AST) (Inv : Sheet Num AST → Prop)
    (hset : ∀ (s s2 : Sheet Num AST) (pos : Position) (c : Cell Num AST) (v : Value Num),
      Inv s → Inv s2 → s2.eraseCaches = s.eraseCaches →
      s.slot pos.row.toNat pos.col.toNat = some c → c.cache_ = none →
      ((∃ t, c.impl_ = Impl.EmptyImpl v t ∨ c.impl_ = Impl.TextImpl v t) ∨
        (∃ w t a r, c.impl_ = Impl.FormulaImpl w t a ∧ v = Value.ofEvaluate r)) →
      Inv (s2.setCache pos v))
    (depth : Nat) :
    ∀ (s : Sheet Num AST) (pos : Position) (v : Value Num) (s1 : Sheet Num AST),
      Cell.GetValue fc depth s pos = some (v, s1) → Inv s → Inv s1 := by
  induction depth with
  | zero =>
    intro s pos v s1 h hI
    rcases Cell.GetValue_cases fc 0 s pos v s1 h with ⟨c, _, _, hs⟩ | ⟨c, t, hc, hn, hi, hs⟩ |
      ⟨c, w, t, a, d, r, s2, _, _, _, hd, _⟩
    · rw [hs]; exact hI
    · rw [hs]; exact hset s s pos c v hI hI rfl hc hn (Or.inl ⟨t, hi⟩)
    · cases hd
  | succ n ih =>
    intro s pos v s1 h hI
    rcases Cell.GetValue_cases fc (n + 1) s pos v s1 h with ⟨c, _, _, hs⟩ |
      ⟨c, t, hc, hn, hi, hs⟩ | ⟨c, w, t, a, d, r, s2, hc, hn, hi, hd, hrun, hv, hs⟩
    · rw [hs]; exact hI
    · rw [hs]; exact hset s s pos c v hI hI rfl hc hn (Or.inl ⟨t, hi⟩)
    · have hdn : d = n := by omega
      subst hdn
      have hI2 : Inv s2 :=
        runExec_frame (fun a b => Inv a → Inv b)
          ⟨fun _ h0 => h0, fun _ _ _ h1 h2 h0 => h2 (h1 h0)⟩ _
          (args_func_frame fc (fun a b => Inv a → Inv b)
            ⟨fun _ h0 => h0, fun _ _ _ h1 h2 h0 => h2 (h1 h0)⟩ _
            (fun s p v s1 hg => ih s p v s1 hg))
          (fc.Execute a) s r s2 hrun hI
      rw [hs]
      exact hset s s2 pos c v hI hI2 (runExec_eraseCaches fc d _ s r s2 hrun) hc hn
        (Or.inr ⟨w, t, a, r, hi, hv⟩)

/-! ## C13: formula errors are values -/

theorem Sheet.slot_setCache_eq (s : Sheet Num AST) (pos : Position) (v : Value Num)
    (row col : Nat) :
    (s.setCache pos v).slot row col =
      if row = pos.row.toNat ∧ col = pos.col.toNat then
        (s.slot row col).map fun c => { c with cache_ := some v }
      else s.slot row col := by
  by_cases h : row = pos.row.toNat ∧ col = pos.col.toNat
  · rw [if_pos h, h.1, h.2]
    cases hs : s.slot pos.row.toNat pos.col.toNat with
    | none =>
      have : s.setCache pos v = s := by unfold Sheet.setCache; rw [hs]
      rw [this, hs]; rfl
    | some c => rw [s.slot_setCache pos v c hs]; rfl
  · rw [if_neg h, s.slot_setCache_other pos v row col h]

theorem Value.isNumOrErr_ofEvaluate (r : Except FormulaError Num) :
    (Value.ofEvaluate r).isNumOrErr := by
  cases r <;> exact True.intro

theorem Sheet.FormulaCachesEvaluated_GetValue (fc : FormulaCompiler Num AST) (depth : Nat)
    (s : Sheet Num AST) (pos : Position) (v : Value Num) (s1 : Sheet Num AST)
    (h : Cell.GetValue fc depth s pos = some (v, s1)) (hinv : s.FormulaCachesEvaluated) :
    s1.FormulaCachesEvaluated := by
  refine Cell.GetValue_invariant fc Sheet.FormulaCachesEvaluated ?_ depth s pos v s1 h hinv
  intro s s2 pos c v _ hI2 he hc _ hkind row col c1 w t a v1 hc1 hi1 hv1
  rw [Sheet.slot_setCache_eq] at hc1
  by_cases hp : row = pos.row.toNat ∧ col = pos.col.toNat
  · rw [if_pos hp, hp.1, hp.2] at hc1
    have himpl := Sheet.impl_of_eraseCaches s s2 he pos.row.toNat pos.col.toNat
    rw [hc] at himpl
    cases hs2 : s2.slot pos.row.toNat pos.col.toNat with
    | none => rw [hs2] at hc1; cases hc1
    | some c2 =>
      rw [hs2] at hc1 himpl
      simp only [Option.map_some', Option.some.injEq] at hc1 himpl
      rw [← hc1] at hi1 hv1
      simp only [Option.some.injEq] at hi1 hv1
      rw [himpl] at hi1
      rw [← hv1]
      rcases hkind with ⟨t0, h0 | h0⟩ | ⟨w0, t0, a0, r, _, hr⟩
      · rw [h0] at hi1; cases hi1
      · rw [h0] at hi1; cases hi1
      · rw [hr]; exact Value.isNumOrErr_ofEvaluate r
  · rw [if_neg hp] at hc1
    exact hI2 row col c1 w t a v1 hc1 hi1 hv1

theorem Sheet.FormulaCachesEvaluated_step (fc : FormulaCompiler Num AST) (s s1 : Sheet Num AST)
    (op : Op) (hstep : s.step fc op = some s1) (hinv : s.FormulaCachesEvaluated) :
    s1.FormulaCachesEvaluated := by
  cases op with
  | setCell p text =>
    simp only [Sheet.step, Option.some.injEq] at hstep
    subst hstep
    by_cases hv : p.IsValid = true
    · intro row col c w t a v hc hi hcache
      rw [Sheet.slot_SetCell fc s p text hv] at hc
      by_cases hp : row = p.row.toNat ∧ col = p.col.toNat
      · rw [if_pos hp] at hc
        injection hc with hc
        cases hres : (Cell.Set fc (s.prepared p.row.toNat p.col.toNat) p
            (s.cellOrNew p.row.toNat p.col.toNat) text).1 with
        | error e =>
          rw [Cell.Set_of_error fc _ p _ text e hres, Sheet.cellOrNew_eq] at hc
          cases hs : s.slot p.row.toNat p.col.toNat with
          | none =>
            rw [hs] at hc
            rw [← hc] at hcache
            cases hcache
          | some c0 =>
            rw [hs] at hc
            simp only [Option.getD_some] at hc
            rw [← hc] at hi hcache
            exact hinv _ _ c0 w t a v hs hi hcache
        | ok u =>
          obtain ⟨impl, _, hcell⟩ := Cell.Set_of_ok fc _ p _ text hres
          rw [hcell] at hc
          rw [← hc] at hcache
          cases hcache
      · rw [if_neg hp] at hc
        exact hinv row col c w t a v hc hi hcache
    · have hv1 : p.IsValid = false := by simpa using hv
      rw [Sheet.SetCell_of_invalid fc s p text hv1]
      exact hinv
  | clearCell p =>
    simp only [Sheet.step, Option.some.injEq] at hstep
    subst hstep
    intro row col c w t a v hc hi hcache
    rw [Sheet.slot_ClearCell] at hc
    by_cases hp : p.IsValid = true ∧ row = p.row.toNat ∧ col = p.col.toNat
    · rw [if_pos hp] at hc
      cases hs : s.slot row col with
      | none => rw [hs] at hc; cases hc
      | some c0 =>
        rw [hs] at hc
        simp only [Option.map_some', Option.some.injEq] at hc
        rw [← hc] at hcache
        cases hcache
    · rw [if_neg hp] at hc
      exact hinv row col c w t a v hc hi hcache
  | getValue d p =>
    obtain ⟨_, v, _, hgv⟩ := Sheet.step_getValue fc s s1 d p hstep
    exact Sheet.FormulaCachesEvaluated_GetValue fc d s p v s1 hgv hinv

theorem Sheet.FormulaCachesEvaluated_run (fc : FormulaCompiler Num AST) (ops : List Op) :
    ∀ (s0 s : Sheet Num AST), Sheet.run fc s0 ops = some s → s0.FormulaCachesEvaluated →
      s.FormulaCachesEvaluated := by
  induction ops with
  | nil =>
    intro s0 s hrun h
    simp only [Sheet.run, Option.some.injEq] at hrun
    rw [← hrun]; exact h
  | cons op ops ih =>
    intro s0 s hrun h
    simp only [Sheet.run] at hrun
    cases hstep : s0.step fc op with
    | none => rw [hstep] at hrun; cases hrun
    | some s1 =>
      rw [hstep] at hrun
      exact ih s1 s hrun (Sheet.FormulaCachesEvaluated_step fc s0 s1 op hstep h)

theorem Sheet.FormulaCachesEvaluated_empty :
    (Sheet.empty : Sheet Num AST).FormulaCachesEvaluated := by
  intro row col c w t a v hc
  simp [Sheet.empty, Sheet.slot] at hc

/-- The resolver with a `GetValue` that never throws is the resolver `args_func`. -/
theorem args_funcThrowing_of_ok (fc : FormulaCompiler Num AST)
    (getValueT : Sheet Num AST → Position →
      Option (Except FormulaError (Value Num) × Sheet Num AST))
    (getValue : Sheet Num AST → Position → Option (Value Num × Sheet Num AST))
    (h : ∀ s p, getValueT s p = (getValue s p).map fun vs => (Except.ok vs.1, vs.2)) :
    args_funcThrowing fc getValueT = args_func fc getValue := by
  funext s p
  unfold args_funcThrowing args_func
  rw [h s p]
  cases getValue s p with
  | none => rfl
  | some vs => rfl

/-- What `Formula::Evaluate` returns: never an exception; the thrown error or the number of
the run. -/
theorem Formula.Evaluate_eq (fc : FormulaCompiler Num AST)
    (getValue : Sheet Num AST → Position →
      Option (Except FormulaError (Value Num) × Sheet Num AST))
    (ast : AST) (s : Sheet Num AST) :
    Formula.Evaluate fc getValue ast s =
      (runExec (args_funcThrowing fc getValue) (fc.Execute ast) s).map fun rs =>
        (Except.ok (match rs.1 with
          | Except.ok x => FormulaInterface.Value.num x
          | Except.error e => FormulaInterface.Value.err e), rs.2) := by
  unfold Formula.Evaluate
  cases runExec (args_funcThrowing fc getValue) (fc.Execute ast) s with
  | none => rfl
  | some rs =>
    obtain ⟨r, s1⟩ := rs
    cases r <;> rfl

/-- What `FormulaImpl::GetValue` returns: never an exception; the value of the run. -/
theorem FormulaImpl.GetValue_eq (fc : FormulaCompiler Num AST)
    (getValue : Sheet Num AST → Position →
      Option (Except FormulaError (Value Num) × Sheet Num AST))
    (a : AST) (s : Sheet Num AST) :
    FormulaImpl.GetValue fc getValue a s =
      (runExec (args_funcThrowing fc getValue) (fc.Execute a) s).map fun rs =>
        (Except.ok (Value.ofEvaluate rs.1), rs.2) := by
  unfold FormulaImpl.GetValue
  rw [Formula.Evaluate_eq]
  cases runExec (args_funcThrowing fc getValue) (fc.Execute a) s with
  | none => rfl
  | some rs =>
    obtain ⟨r, s1⟩ := rs
    cases r <;> rfl

/-- No `FormulaError` leaves `Cell::GetValue`: the call with the exceptions made explicit
returns exactly when `Cell.GetValue` does, with the same value and sheet. -/
theorem Cell.GetValueThrowing_eq (fc : FormulaCompiler Num AST) (depth : Nat) :
    ∀ (s : Sheet Num AST) (pos : Position),
      Cell.GetValueThrowing fc depth s pos =
        (Cell.GetValue fc depth s pos).map fun vs => (Except.ok vs.1, vs.2) := by
  induction depth with
  | zero =>
    intro s pos
    rw [Cell.GetValueThrowing, Cell.GetValue]
    cases s.slot pos.row.toNat pos.col.toNat with
    | none => rfl
    | some c =>
      simp only
      cases c.cache_ with
      | some v => rfl
      | none =>
        simp only
        cases c.impl_ <;> rfl
  | succ d ih =>
    intro s pos
    rw [Cell.GetValueThrowing, Cell.GetValue]
    cases s.slot pos.row.toNat pos.col.toNat with
    | none => rfl
    | some c =>
      simp only
      cases c.cache_ with
      | some v => rfl
      | none =>
        simp only
        cases c.impl_ with
        | EmptyImpl w t => rfl
        | TextImpl w t => rfl
        | FormulaImpl w t a =>
          simp only
          rw [FormulaImpl.GetValue_eq,
            args_funcThrowing_of_ok fc (Cell.GetValueThrowing fc d) (Cell.GetValue fc d) ih]
          cases runExec (args_func fc (Cell.GetValue fc d)) (fc.Execute a) s with
          | none => rfl
          | some rs => rfl

/-- In a run of a program without `catch`, a call of the resolver that throws ends the run:
the run returns, throwing that error, in the sheet the call left. -/
theorem runExec_propagates
    (resolve : Sheet Num AST → Position → Option (Except FormulaError Num × Sheet Num AST))
    (prog : Exec Num) (hprog : prog.Propagates) :
    ∀ (sheet : Sheet Num AST) (p : Position) (sp : Sheet Num AST),
      (p, sp) ∈ execReads resolve prog sheet →
      ∀ (e : FormulaError) (s2 : Sheet Num AST), resolve sp p = some (Except.error e, s2) →
      runExec resolve prog sheet = some (Except.error e, s2) := by
  induction hprog with
  | done r0 =>
    intro sheet p sp hmem
    simp only [execReads, List.not_mem_nil] at hmem
  | ask q k hk _ ih =>
    intro sheet p sp hmem e s2 hres
    simp only [runExec]
    simp only [execReads] at hmem
    cases hq : resolve sheet q with
    | none =>
      rw [hq] at hmem
      simp only [List.mem_singleton, Prod.mk.injEq] at hmem
      rw [hmem.1, hmem.2, hq] at hres
      cases hres
    | some rs =>
      obtain ⟨r0, sheet1⟩ := rs
      rw [hq] at hmem
      simp only at hmem ⊢
      cases r0 with
      | error e0 =>
        rw [hk e0] at hmem ⊢
        simp only [execReads, List.mem_singleton, Prod.mk.injEq] at hmem
        rw [hmem.1, hmem.2, hq] at hres
        simp only [Option.some.injEq, Prod.mk.injEq, Except.error.injEq] at hres
        simp only [runExec, hres.1, hres.2]
      | ok x =>
        rcases List.mem_cons.mp hmem with h | h
        · simp only [Prod.mk.injEq] at h
          rw [h.1, h.2, hq] at hres
          simp only [Option.some.injEq, Prod.mk.injEq] at hres
          cases hres.1
        · exact ih x sheet1 p sp h e s2 hres

theorem Example.execSum_propagates (ast : List Position) :
    ∀ (acc : Int), (Example.execSum ast acc).Propagates := by
  induction ast with
  | nil => intro acc; exact Exec.Propagates.done _
  | cons q qs ih =>
    intro acc
    simp only [Example.execSum]
    exact Exec.Propagates.ask q _ (fun e => rfl) (fun x => ih (acc + x))

/-- C13: formula errors are values. (a) When the run of the expression throws the error `e`,
from the resolver or from the expression itself, `Formula::Evaluate` returns the value holding
`e`, and when the run computes a number it returns that number; no exception leaves
`Formula::Evaluate`, also when a nested `GetValue()` were to throw, and
`FormulaImpl::GetValue` returns a number or a `FormulaError`. (b) No `FormulaError` leaves
`Cell::GetValue`: with the exceptions explicit, the call returns exactly when `Cell.GetValue`
does, with that value and sheet; for a formula cell with an empty cache the value is the one
`FormulaImpl::GetValue` returned, stored in the cache. (c) In every sheet reached from the
empty sheet, a returning `GetValue()` of a formula cell gives a number or a `FormulaError`,
never a string. (d) A formula without `catch` around its reads, whose execution reads, at any
point of the run, a cell holding the error `e`, has the value `e`: `GetValue()` on its cell
returns `e` and stores it in the cache. -/
theorem C13_formula_errors_are_values (fc : FormulaCompiler Num AST) :
    (∀ (getValue : Sheet Num AST → Position →
          Option (Except FormulaError (Value Num) × Sheet Num AST))
        (ast : AST) (s : Sheet Num AST),
      (∀ (r : Except FormulaError Num) (s1 : Sheet Num AST),
        runExec (args_funcThrowing fc getValue) (fc.Execute ast) s = some (r, s1) →
        (∀ e, r = Except.error e → Formula.Evaluate fc getValue ast s
          = some (Except.ok (FormulaInterface.Value.err e), s1)) ∧
        (∀ x, r = Except.ok x → Formula.Evaluate fc getValue ast s
          = some (Except.ok (FormulaInterface.Value.num x), s1))) ∧
      (∀ res s1, Formula.Evaluate fc getValue ast s = some (res, s1) → ∃ v, res = Except.ok v) ∧
      (∀ res s1, FormulaImpl.GetValue fc getValue ast s = some (res, s1) →
        ∃ v, res = Except.ok v ∧ v.isNumOrErr)) ∧
    (∀ (depth : Nat) (s : Sheet Num AST) (pos : Position),
      Cell.GetValueThrowing fc depth s pos
        = ((Cell.GetValue fc depth s pos).map fun vs => (Except.ok vs.1, vs.2)) ∧
      (∀ e s1, Cell.GetValueThrowing fc depth s pos ≠ some (Except.error e, s1))) ∧
    (∀ (d : Nat) (s : Sheet Num AST) (pos : Position) (c : Cell Num AST) (w : Value Num)
        (t : String) (a : AST),
      s.slot pos.row.toNat pos.col.toNat = some c → c.cache_ = none →
      c.impl_ = Impl.FormulaImpl w t a →
      ∀ v s1, Cell.GetValue fc (d + 1) s pos = some (v, s1) ↔
        ∃ s2, FormulaImpl.GetValue fc (Cell.GetValueThrowing fc d) a s = some (Except.ok v, s2) ∧
          s1 = s2.setCache pos v) ∧
    (∀ (ops : List Op) (s : Sheet Num AST), Sheet.run fc Sheet.empty ops = some s →
      ∀ (pos : Position) (c : Cell Num AST) (w : Value Num) (t : String) (a : AST) (depth : Nat)
        (v : Value Num) (s1 : Sheet Num AST),
      s.GetCell pos = Except.ok (some c) → c.impl_ = Impl.FormulaImpl w t a →
      Cell.GetValue fc depth s pos = some (v, s1) → v.isNumOrErr) ∧
    (∀ (d : Nat) (s : Sheet Num AST) (pos : Position) (c : Cell Num AST) (w : Value Num)
        (t : String) (a : AST) (p : Position)
        (sp : Sheet Num AST) (cp : Cell Num AST) (e : FormulaError) (s2 : Sheet Num AST),
      s.slot pos.row.toNat pos.col.toNat = some c → c.cache_ = none →
      c.impl_ = Impl.FormulaImpl w t a → (fc.Execute a).Propagates →
      (p, sp) ∈ execReads (args_func fc (Cell.GetValue fc d)) (fc.Execute a) s →
      sp.GetCell p = Except.ok (some cp) →
      Cell.GetValue fc d sp p = some (Value.err e, s2) →
      Cell.GetValue fc (d + 1) s pos
        = some (Value.err e, s2.setCache pos (Value.err e))) := by
  have hargs : ∀ d, args_funcThrowing fc (Cell.GetValueThrowing fc d)
      = args_func fc (Cell.GetValue fc d) :=
    fun d => args_funcThrowing_of_ok fc _ _ (Cell.GetValueThrowing_eq fc d)
  refine ⟨?_, ?_, ?_, ?_, ?_⟩
  · intro getValue ast s
    refine ⟨?_, ?_, ?_⟩
    · intro r s1 h
      rw [Formula.Evaluate_eq, h]
      constructor
      · intro e he; rw [he]; rfl
      · intro x hx; rw [hx]; rfl
    · intro res s1 h
      rw [Formula.Evaluate_eq] at h
      cases hrun : runExec (args_funcThrowing fc getValue) (fc.Execute ast) s with
      | none => rw [hrun] at h; cases h
      | some rs =>
        rw [hrun] at h
        simp only [Option.map_some', Option.some.injEq, Prod.mk.injEq] at h
        exact ⟨_, h.1.symm⟩
    · intro res s1 h
      rw [FormulaImpl.GetValue_eq] at h
      cases hrun : runExec (args_funcThrowing fc getValue) (fc.Execute ast) s with
      | none => rw [hrun] at h; cases h
      | some rs =>
        rw [hrun] at h
        simp only [Option.map_some', Option.some.injEq, Prod.mk.injEq] at h
        exact ⟨_, h.1.symm, Value.isNumOrErr_ofEvaluate rs.1⟩
  · intro depth s pos
    refine ⟨Cell.GetValueThrowing_eq fc depth s pos, ?_⟩
    intro e s1 h
    rw [Cell.GetValueThrowing_eq] at h
    cases hgv : Cell.GetValue fc depth s pos with
    | none => rw [hgv] at h; cases h
    | some vs =>
      rw [hgv] at h
      simp only [Option.map_some', Option.some.injEq, Prod.mk.injEq] at h
      cases h.1
  · intro d s pos c w t a hc hn hi v s1
    rw [Cell.GetValue_formula fc d s pos c w t a hc hn hi, FormulaImpl.GetValue_eq, hargs d]
    cases hrun : runExec (args_func fc (Cell.GetValue fc d)) (fc.Execute a) s with
    | none => simp
    | some rs =>
      obtain ⟨r, s2⟩ := rs
      simp only [Option.map_some', Option.some.injEq, Prod.mk.injEq, Except.ok.injEq]
      constructor
      · rintro ⟨h1, h2⟩
        exact ⟨s2, ⟨h1, rfl⟩, by rw [← h2, h1]⟩
      · rintro ⟨s3, ⟨h1, h2⟩, h3⟩
        exact ⟨h1, by rw [h3, h2, h1]⟩
  · intro ops s hrun pos c w t a depth v s1 hc hi hgv
    have hinv := Sheet.FormulaCachesEvaluated_run fc ops Sheet.empty s hrun
      Sheet.FormulaCachesEvaluated_empty
    have hv : pos.IsValid = true := by
      by_contra hv
      have hv1 : pos.IsValid = false := by simpa using hv
      rw [Sheet.GetCell_of_invalid s pos hv1] at hc
      cases hc
    rw [Sheet.GetCell_of_valid s pos hv] at hc
    injection hc with hc
    rcases Cell.GetValue_cases fc depth s pos v s1 hgv with ⟨c0, h0, hcache, _⟩ |
      ⟨c0, t0, h0, _, hi0, _⟩ | ⟨c0, w0, t0, a0, d, r, s2, _, _, _, _, _, hv0, _⟩
    · rw [hc] at h0
      injection h0 with h0
      rw [← h0] at hcache
      exact hinv _ _ c w t a v hc hi hcache
    · rw [hc] at h0
      injection h0 with h0
      rw [← h0, hi] at hi0
      rcases hi0 with h | h <;> cases h
    · rw [hv0]; exact Value.isNumOrErr_ofEvaluate r
  · intro d s pos c w t a p sp cp e s2 hc hn hi hprop hmem hcp hgp
    have hres : args_func fc (Cell.GetValue fc d) sp p = some (Except.error e, s2) := by
      rw [args_func_of_cell fc _ sp p cp hcp, hgp]
      rfl
    rw [Cell.GetValue_formula fc d s pos c w t a hc hn hi,
      runExec_propagates _ (fc.Execute a) hprop s p sp hmem e s2 hres]
    rfl

/-- Witness for C13: with the text `x` in `B1`, `=B1` in `A1` and `=A1` in `C1`, `GetValue()` on
`C1` returns the error `Value`, which is a number or an error. With `=D1+A1` in `C1` instead,
the formula of `C1` first reads `D1`, where there is no cell, and then `A1`, which holds the
error `Value`: the value of `C1` is that error. -/
theorem C13_formula_errors_are_values_witness :
    (Cell.GetValue Example.compiler 2 Example.sheetErr Example.C1).map Prod.fst
      = some (Value.err ⟨Category.Value⟩) ∧
    (Value.err ⟨Category.Value⟩ : Value Int).isNumOrErr ∧
    Cell.GetValue Example.compiler 2 Example.sheetErrSecond Example.C1
      = some (Value.err ⟨Category.Value⟩,
          ((Example.sheetErrSecond.setCache Example.B1 (Value.str "x")).setCache Example.A1
            (Value.err ⟨Category.Value⟩)).setCache Example.C1 (Value.err ⟨Category.Value⟩)) :=
  ⟨by decide,
    (C13_formula_errors_are_values Example.compiler).2.2.2.1 Example.opsErr Example.sheetErr
      (by decide) Example.C1 ⟨Impl.FormulaImpl (Value.str "A1") "=A1" [Example.A1], none⟩
      (Value.str "A1") "=A1" [Example.A1] 2 (Value.err ⟨Category.Value⟩)
      (((Example.sheetErr.setCache Example.B1 (Value.str "x")).setCache Example.A1
        (Value.err ⟨Category.Value⟩)).setCache Example.C1 (Value.err ⟨Category.Value⟩))
      (by decide) rfl (by decide),
    (C13_formula_errors_are_values Example.compiler).2.2.2.2 1 Example.sheetErrSecond
      Example.C1 ⟨Impl.FormulaImpl (Value.str "D1+A1") "=D1+A1" [Example.D1, Example.A1], none⟩
      (Value.str "D1+A1") "=D1+A1" [Example.D1, Example.A1]
      Example.A1 Example.sheetErrSecond
      ⟨Impl.FormulaImpl (Value.str "B1") "=B1" [Example.B1], none⟩ ⟨Category.Value⟩
      ((Example.sheetErrSecond.setCache Example.B1 (Value.str "x")).setCache Example.A1
        (Value.err ⟨Category.Value⟩))
      (by decide) rfl rfl (Example.execSum_propagates _ 0) (by decide) (by decide)
      (by decide)⟩

/-! ## C16: a present cache stays until its own cell is written -/

theorem Cell.GetValue_keeps_cached_cell (fc : FormulaCompiler Num AST) (depth : Nat)
    (s : Sheet Num AST) (pos : Position) (v : Value Num) (s1 : Sheet Num AST)
    (row col : Nat) (c : Cell Num AST) (w : Value Num)
    (h : Cell.GetValue fc depth s pos = some (v, s1))
    (hc : s.slot row col = some c) (hw : c.cache_ = some w) : s1.slot row col = some c := by
  refine Cell.GetValue_invariant fc (fun x => x.slot row col = some c) ?_ depth s pos v s1 h hc
  intro s s2 pos c0 v0 hI hI2 _ hc0 hn0 _
  rw [Sheet.slot_setCache_other s2 pos v0 row col]
  · exact hI2
  · rintro ⟨h1, h2⟩
    rw [h1, h2, hc0] at hI
    injection hI with hI
    rw [hI, hw] at hn0
    cases hn0

theorem Sheet.step_keeps_cached_cell (fc : FormulaCompiler Num AST) (s s1 : Sheet Num AST)
    (op : Op) (posA : Position) (c : Cell Num AST) (w : Value Num)
    (hstep : s.step fc op = some s1) (hv : posA.IsValid = true)
    (hset : ∀ text, op ≠ Op.setCell posA text) (hclear : op ≠ Op.clearCell posA)
    (hc : s.slot posA.row.toNat posA.col.toNat = some c) (hw : c.cache_ = some w) :
    s1.slot posA.row.toNat posA.col.toNat = some c := by
  cases op with
  | setCell p text =>
    simp only [Sheet.step, Option.some.injEq] at hstep
    subst hstep
    by_cases hpv : p.IsValid = true
    · rw [Sheet.slot_SetCell fc s p text hpv, if_neg]
      · exact hc
      · rintro ⟨h1, h2⟩
        have := Position.toNat_injective posA p hv hpv h1 h2
        exact hset text (by rw [this])
    · have hpv1 : p.IsValid = false := by simpa using hpv
      rw [Sheet.SetCell_of_invalid fc s p text hpv1]
      exact hc
  | clearCell p =>
    simp only [Sheet.step, Option.some.injEq] at hstep
    subst hstep
    rw [Sheet.slot_ClearCell, if_neg]
    · exact hc
    · rintro ⟨hpv, h1, h2⟩
      have := Position.toNat_injective posA p hv hpv h1 h2
      exact hclear (by rw [this])
  | getValue d p =>
    obtain ⟨_, v, _, hgv⟩ := Sheet.step_getValue fc s s1 d p hstep
    exact Cell.GetValue_keeps_cached_cell fc d s p v s1 _ _ c w hgv hc hw

theorem Sheet.run_keeps_cached_cell (fc : FormulaCompiler Num AST) (ops : List Op)
    (posA : Position) (c : Cell Num AST) (w : Value Num) (hv : posA.IsValid = true)
    (hw : c.cache_ = some w) :
    ∀ (s s1 : Sheet Num AST), Sheet.run fc s ops = some s1 →
      (∀ op, op ∈ ops → (∀ text, op ≠ Op.setCell posA text) ∧ op ≠ Op.clearCell posA) →
      s.slot posA.row.toNat posA.col.toNat = some c →
      s1.slot posA.row.toNat posA.col.toNat = some c := by
  induction ops with
  | nil =>
    intro s s1 hrun _ hc
    simp only [Sheet.run, Option.some.injEq] at hrun
    rw [← hrun]; exact hc
  | cons op ops ih =>
    intro s s1 hrun hops hc
    simp only [Sheet.run] at hrun
    cases hstep : s.step fc op with
    | none => rw [hstep] at hrun; cases hrun
    | some s2 =>
      rw [hstep] at hrun
      obtain ⟨h1, h2⟩ := hops op (List.mem_cons_self _ _)
      exact ih s2 s1 hrun (fun o ho => hops o (List.mem_cons_of_mem _ ho))
        (Sheet.step_keeps_cached_cell fc s s2 op posA c w hstep hv h1 h2 hc hw)

/-- C16: when the cell at `posA` has a present cache holding `v`, then after every sequence of
`SetCell`, `ClearCell` and `GetValue` calls none of which is a `SetCell` or `ClearCell` on
`posA`, the cell at `posA` is the same cell, cache included, and `GetValue()` on it still
returns `v` without evaluating, even when the cell is a formula and a cell it reads was changed
by the sequence. -/
theorem C16_cache_kept_until_own_write (fc : FormulaCompiler Num AST) (ops : List Op)
    (s s1 : Sheet Num AST) (posA : Position) (c : Cell Num AST) (v : Value Num)
    (hcell : s.GetCell posA = Except.ok (some c)) (hcache : c.cache_ = some v)
    (hops : ∀ op, op ∈ ops → op.writes posA = false)
    (hrun : Sheet.run fc s ops = some s1) :
    s1.GetCell posA = Except.ok (some c) ∧
    ∀ depth, Cell.GetValue fc depth s1 posA = some (v, s1) := by
  have hv : posA.IsValid = true := by
    by_contra hv
    have hv1 : posA.IsValid = false := by simpa using hv
    rw [Sheet.GetCell_of_invalid s posA hv1] at hcell
    cases hcell
  rw [Sheet.GetCell_of_valid s posA hv] at hcell
  injection hcell with hcell
  have hops1 : ∀ op, op ∈ ops →
      (∀ text, op ≠ Op.setCell posA text) ∧ op ≠ Op.clearCell posA := by
    intro op hop
    have hw := hops op hop
    refine ⟨?_, ?_⟩
    · intro text heq
      rw [heq] at hw
      simp [Op.writes] at hw
    · intro heq
      rw [heq] at hw
      simp [Op.writes] at hw
  have h1 := Sheet.run_keeps_cached_cell fc ops posA c v hv hcache s s1 hrun hops1 hcell
  refine ⟨by rw [Sheet.GetCell_of_valid s1 posA hv, h1], ?_⟩
  intro depth
  exact Cell.GetValue_cached fc depth s1 posA c v h1 hcache

/-- Witness for C16: with `1` in `B1` and `=B1` in `A1` read once, `SetCell(B1, "2")` leaves the
cache of `A1`: `GetValue()` on `A1` still returns the number 1. -/
theorem C16_cache_kept_until_own_write_witness :
    Cell.GetValue Example.compiler 0 Example.sheetStale Example.A1
      = some (Value.num 1, Example.sheetStale) :=
  (C16_cache_kept_until_own_write Example.compiler [Op.setCell Example.B1 "2"]
    Example.sheetB1A1read Example.sheetStale Example.A1
    ⟨Impl.FormulaImpl (Value.str "B1") "=B1" [Example.B1], some (Value.num 1)⟩ (Value.num 1)
    (by decide) rfl (by decide) (by decide)).2 0

/-! ## C14: the layout of `PrintTexts` -/

theorem tabSeparated_concat (l : List String) (x : String) :
    tabSeparated (l ++ [x]) = if l = [] then x else tabSeparated l ++ "\t" ++ x := by
  induction l using tabSeparated.induct with
  | case1 => rfl
  | case2 a => simp [tabSeparated]
  | case3 a b rest ih =>
    have h1 : (a :: b :: rest) ++ [x] = a :: b :: (rest ++ [x]) := rfl
    have h2 : (b :: rest) ++ [x] = b :: (rest ++ [x]) := rfl
    rw [h1, tabSeparated, ← h2, ih]
    simp only [List.cons_ne_nil, if_false, reduceCtorEq]
    rw [tabSeparated]
    simp only [String.append_assoc]

theorem linesOf_concat (l : List String) (x : String) :
    linesOf (l ++ [x]) = linesOf l ++ x ++ "\n" := by
  induction l with
  | nil => simp [linesOf]
  | cons a l ih =>
    rw [List.cons_append, linesOf, ih, linesOf]
    simp only [String.append_assoc]

/-- One step of the inner loop of `PrintTexts`: a tab before every field but the first, then
the field. -/
theorem Sheet.printStep (s : Sheet Num AST) (row col : Nat) (output : String) :
    (if row < s.cells_.length ∧ col < (s.cells_.getD row []).length then
      match s.slot row col with
      | some cell => (if col > 0 then output ++ "\t" else output) ++ cell.GetText
      | none => (if col > 0 then output ++ "\t" else output)
    else (if col > 0 then output ++ "\t" else output))
      = (if col > 0 then output ++ "\t" else output) ++ s.fieldText row col := by
  unfold Sheet.fieldText
  cases hs : s.slot row col with
  | none =>
    simp only [String.append_empty, ite_self]
  | some cell =>
    obtain ⟨h1, h2⟩ := s.slot_some_lt row col cell hs
    rw [if_pos ⟨h1, h2⟩]

theorem Sheet.printRow (s : Sheet Num AST) (row : Nat) (n : Nat) :
    ∀ output : String,
      (List.range n).foldl
        (fun output col =>
          let output1 := if col > 0 then output ++ "\t" else output
          if row < s.cells_.length ∧ col < (s.cells_.getD row []).length then
            match s.slot row col with
            | some cell => output1 ++ cell.GetText
            | none => output1
          else output1)
        output
      = output ++ tabSeparated ((List.range n).map fun col => s.fieldText row col) := by
  induction n with
  | zero => intro output; simp [tabSeparated]
  | succ n ih =>
    intro output
    rw [List.range_succ, List.foldl_append, ih, List.map_append, List.map_cons, List.map_nil,
      tabSeparated_concat]
    simp only [List.foldl_cons, List.foldl_nil]
    rw [Sheet.printStep]
    cases n with
    | zero => simp [tabSeparated]
    | succ m =>
      have hne : ¬ List.map (fun col => s.fieldText row col) (List.range (m + 1)) = [] := by
        rw [List.range_succ]; simp
      rw [if_neg hne, if_pos (Nat.succ_pos m)]
      simp only [String.append_assoc]

theorem Sheet.printRows (s : Sheet Num AST) (cols : Nat) (n : Nat) :
    ∀ output : String,
      (List.range n).foldl
        (fun output row =>
          (List.range cols).foldl
            (fun output col =>
              let output1 := if col > 0 then output ++ "\t" else output
              if row < s.cells_.length ∧ col < (s.cells_.getD row []).length then
                match s.slot row col with
                | some cell => output1 ++ cell.GetText
                | none => output1
              else output1)
            output ++ "\n")
        output
      = output ++ s.textLayout n cols := by
  induction n with
  | zero => intro output; simp [Sheet.textLayout, linesOf]
  | succ n ih =>
    intro output
    rw [List.range_succ, List.foldl_append, ih]
    simp only [List.foldl_cons, List.foldl_nil]
    rw [Sheet.printRow]
    unfold Sheet.textLayout
    rw [List.range_succ, List.map_append, List.map_cons, List.map_nil, linesOf_concat]
    simp only [String.append_assoc]

/-- C14: with `GetPrintableSize() == (rows, cols)`, `PrintTexts` appends to the stream exactly
`rows` lines in increasing row order, each made of exactly `cols` fields in increasing column
order, separated by single tab characters and terminated by a newline; the field of `(r, c)` is
`GetText()` of the cell there and the empty string when the slot is null or beyond the row's
allocated extent; with the printable size (0, 0) nothing is written. -/
theorem C14_PrintTexts_layout (s : Sheet Num AST) (output : String) :
    s.PrintTexts output
      = output ++ linesOf ((List.range s.GetPrintableSize.rows).map fun row =>
          tabSeparated ((List.range s.GetPrintableSize.cols).map fun col =>
            s.fieldText row col)) ∧
    ((List.range s.GetPrintableSize.rows).map fun row =>
        (List.range s.GetPrintableSize.cols).map fun col => s.fieldText row col).length
      = s.GetPrintableSize.rows ∧
    (∀ row, ((List.range s.GetPrintableSize.cols).map fun col => s.fieldText row col).length
      = s.GetPrintableSize.cols) ∧
    (∀ row col cell, s.slot row col = some cell → s.fieldText row col = cell.GetText) ∧
    (∀ row col, (s.slot row col = none ∨ s.cells_.length ≤ row ∨
        (s.cells_.getD row []).length ≤ col) → s.fieldText row col = "") ∧
    (s.GetPrintableSize = ⟨0, 0⟩ → s.PrintTexts output = output) := by
  have hmain : s.PrintTexts output
      = output ++ s.textLayout s.GetPrintableSize.rows s.GetPrintableSize.cols := by
    unfold Sheet.PrintTexts
    exact Sheet.printRows s _ _ output
  refine ⟨hmain, by simp, fun row => by simp, ?_, ?_, ?_⟩
  · intro row col cell hc
    unfold Sheet.fieldText
    rw [hc]
  · intro row col h
    have hnone : s.slot row col = none := by
      rcases h with h | h | h
      · exact h
      · unfold Sheet.slot
        rw [List.getD_eq_default s.cells_ _ h]
        rfl
      · unfold Sheet.slot
        rw [List.getD_eq_default _ _ h]
    unfold Sheet.fieldText
    rw [hnone]
  · intro hz
    rw [hmain, hz]
    simp [Sheet.textLayout, linesOf]

/-- Witness for C14: the sheet with `=B1` in `A1` and `1` in `B1` prints one line of two
fields, and the empty sheet prints nothing. -/
theorem C14_PrintTexts_layout_witness :
    Example.sheetB1A1.PrintTexts "" = "=B1\t1\n" ∧
    (Sheet.empty : Sheet Int (List Position)).PrintTexts "out" = "out" :=
  ⟨by decide, (C14_PrintTexts_layout Sheet.empty "out").2.2.2.2.2 (by decide)⟩

/-! ## C20: a failed `SetCell` and the printed output -/

/-- The printable size is determined by which slots hold a cell with non-empty text. -/
theorem Sheet.GetPrintableSize_congr (s s1 : Sheet Num AST)
    (h : ∀ row col, s1.hasText row col ↔ s.hasText row col) :
    s1.GetPrintableSize = s.GetPrintableSize := by
  obtain ⟨a1, a2, a3⟩ := s.gridInv_GetPrintableSize
  obtain ⟨b1, b2, b3⟩ := s1.gridInv_GetPrintableSize
  have hin : ∀ (x : Sheet Num AST) row col, x.hasText row col → row < x.cells_.length := by
    intro x row col ht
    obtain ⟨cell, hc, _⟩ := ht
    exact (x.slot_some_lt row col cell hc).1
  have hrows : s1.GetPrintableSize.rows = s.GetPrintableSize.rows := by
    apply Nat.le_antisymm
    · rcases b2 with hz | ⟨row, col, ht, hr⟩
      · omega
      · have := (a1 row col (hin s row col ((h row col).mp ht)) ((h row col).mp ht)).1
        omega
    · rcases a2 with hz | ⟨row, col, ht, hr⟩
      · omega
      · have := (b1 row col (hin s1 row col ((h row col).mpr ht)) ((h row col).mpr ht)).1
        omega
  have hcols : s1.GetPrintableSize.cols = s.GetPrintableSize.cols := by
    apply Nat.le_antisymm
    · rcases b3 with hz | ⟨row, col, ht, hr⟩
      · omega
      · have := (a1 row col (hin s row col ((h row col).mp ht)) ((h row col).mp ht)).2
        omega
    · rcases a3 with hz | ⟨row, col, ht, hr⟩
      · omega
      · have := (b1 row col (hin s1 row col ((h row col).mpr ht)) ((h row col).mpr ht)).2
        omega
  cases hs1 : s1.GetPrintableSize with
  | mk r1 c1 =>
    cases hs : s.GetPrintableSize with
    | mk r c =>
      rw [hs1, hs] at hrows hcols
      simp only at hrows hcols
      rw [hrows, hcols]

theorem Sheet.PrintTexts_eq_layout (s : Sheet Num AST) (output : String) :
    s.PrintTexts output
      = output ++ s.textLayout s.GetPrintableSize.rows s.GetPrintableSize.cols := by
  unfold Sheet.PrintTexts
  exact Sheet.printRows s _ _ output

/-- The slots after a failed `SetCell`: the slot of a valid `pos` holds the cell it held, or a
new empty cell when it held none; every other slot is as before. -/
theorem Sheet.slot_SetCell_of_error (fc : FormulaCompiler Num AST) (s : Sheet Num AST)
    (pos : Position) (text : String) (e : SheetError)
    (hfail : (Sheet.SetCell fc s pos text).1 = Except.error e) (row col : Nat) :
    (Sheet.SetCell fc s pos text).2.slot row col = s.slot row col ∨
    (s.slot row col = none ∧ (Sheet.SetCell fc s pos text).2.slot row col = some Cell.new) := by
  by_cases hv : pos.IsValid = true
  · have hcell : (Cell.Set fc (s.prepared pos.row.toNat pos.col.toNat) pos
        (s.cellOrNew pos.row.toNat pos.col.toNat) text).2
        = s.cellOrNew pos.row.toNat pos.col.toNat := by
      apply Cell.Set_of_error fc _ pos _ text e
      rw [Sheet.SetCell_of_valid fc s pos text hv] at hfail
      exact hfail
    rw [Sheet.slot_SetCell fc s pos text hv]
    by_cases hp : row = pos.row.toNat ∧ col = pos.col.toNat
    · rw [if_pos hp, hcell, Sheet.cellOrNew_eq, hp.1, hp.2]
      cases hs : s.slot pos.row.toNat pos.col.toNat with
      | none => right; exact ⟨rfl, rfl⟩
      | some c => left; rfl
    · rw [if_neg hp]
      left; rfl
  · have hv1 : pos.IsValid = false := by simpa using hv
    rw [Sheet.SetCell_of_invalid fc s pos text hv1]
    left; rfl

/-- C20: a failed `SetCell(pos, text)` changes nothing that is printed: `GetPrintableSize()` and
the output of `PrintTexts` are the same after the call as before it. Every slot is as before,
except that a slot without a cell may now hold a new empty cell, whose text is empty. -/
theorem C20_failed_SetCell_prints_same (fc : FormulaCompiler Num AST) (s : Sheet Num AST)
    (pos : Position) (text : String) (e : SheetError)
    (hfail : (Sheet.SetCell fc s pos text).1 = Except.error e) :
    (Sheet.SetCell fc s pos text).2.GetPrintableSize = s.GetPrintableSize ∧
    (∀ output, (Sheet.SetCell fc s pos text).2.PrintTexts output = s.PrintTexts output) ∧
    (∀ row col, (Sheet.SetCell fc s pos text).2.slot row col = s.slot row col ∨
      (s.slot row col = none ∧
        (Sheet.SetCell fc s pos text).2.slot row col = some Cell.new ∧
        (Cell.new : Cell Num AST).GetText = "")) := by
  have hslot := Sheet.slot_SetCell_of_error fc s pos text e hfail
  have hfield : ∀ row col, (Sheet.SetCell fc s pos text).2.fieldText row col
      = s.fieldText row col := by
    intro row col
    unfold Sheet.fieldText
    rcases hslot row col with h | ⟨h1, h2⟩
    · rw [h]
    · rw [h1, h2]; rfl
  have htext : ∀ row col, (Sheet.SetCell fc s pos text).2.hasText row col ↔
      s.hasText row col := by
    intro row col
    unfold Sheet.hasText
    rcases hslot row col with h | ⟨h1, h2⟩
    · rw [h]
    · rw [h1, h2]
      constructor
      · rintro ⟨cell, hc, ht⟩
        injection hc with hc
        rw [← hc] at ht
        exact absurd rfl ht
      · rintro ⟨cell, hc, _⟩
        cases hc
  have hsize := Sheet.GetPrintableSize_congr s _ htext
  refine ⟨hsize, ?_, ?_⟩
  · intro output
    rw [Sheet.PrintTexts_eq_layout, Sheet.PrintTexts_eq_layout, hsize]
    unfold Sheet.textLayout
    simp only [hfield]
  · intro row col
    rcases hslot row col with h | ⟨h1, h2⟩
    · left; exact h
    · right; exact ⟨h1, h2, rfl⟩

/-- Witness for C20: `SetCell(B1, "=A1")` fails on the sheet where `A1` holds `=B1`; the printed
texts are the same before and after, although `B1` now holds an empty cell. -/
theorem C20_failed_SetCell_prints_same_witness :
    Example.sheetAB.PrintTexts "" = "=B1\n" ∧
    Example.sheetAB.PrintTexts ""
      = (Sheet.SetCell Example.compiler Sheet.empty Example.A1 "=B1").2.PrintTexts "" :=
  ⟨by decide,
    (C20_failed_SetCell_prints_same Example.compiler
      (Sheet.SetCell Example.compiler Sheet.empty Example.A1 "=B1").2 Example.B1 "=A1"
      SheetError.CircularDependency (by decide)).2.1 ""⟩

/-! ## C18: positions and grid accesses stay in range -/

theorem getElem?_eq_getD_of_lt {α : Type} (l : List α) (i : Nat) (d : α) (h : i < l.length) :
    l[i]? = some (l.getD i d) := by
  rw [List.getD_eq_getElem?_getD, List.getElem?_eq_getElem h]
  rfl

theorem Sheet.cellsAt?_of_lt (s : Sheet Num AST) (row col : Nat) (hr : row < s.cells_.length)
    (hc : col < (s.cells_.getD row []).length) :
    s.cellsAt? row col = some (s.slot row col) := by
  unfold Sheet.cellsAt? Sheet.slot
  rw [getElem?_eq_getD_of_lt s.cells_ row [] hr]
  exact getElem?_eq_getD_of_lt _ col none hc

theorem Sheet.GetCellChecked_eq (s : Sheet Num AST) (pos : Position) :
    s.GetCellChecked pos = some (s.GetCell pos) := by
  unfold Sheet.GetCellChecked Sheet.GetCell
  by_cases hv : pos.IsValid = true
  · have hv0 := hv
    unfold Position.IsValid at hv0
    simp only [Bool.and_eq_true, decide_eq_true_eq] at hv0
    simp only [hv, Bool.not_true, Bool.false_eq_true, if_false]
    by_cases hr : pos.row ≥ (s.cells_.length : Int)
    · rw [if_pos hr, if_pos hr]
    · rw [if_neg hr, if_neg hr]
      have hr1 : pos.row.toNat < s.cells_.length := by omega
      rw [getElem?_eq_getD_of_lt s.cells_ _ [] hr1]
      simp only
      by_cases hc : pos.col ≥ ((s.cells_.getD pos.row.toNat []).length : Int)
      · rw [if_pos hc, if_pos hc]
      · rw [if_neg hc, if_neg hc]
        have hc1 : pos.col.toNat < (s.cells_.getD pos.row.toNat []).length := by omega
        rw [Sheet.cellsAt?_of_lt s _ _ hr1 hc1]
  · have hv1 : pos.IsValid = false := by simpa using hv
    simp only [hv1, Bool.not_false, if_true]

theorem Sheet.ClearCellChecked_eq (s : Sheet Num AST) (pos : Position) :
    s.ClearCellChecked pos = some (Sheet.ClearCell s pos) := by
  unfold Sheet.ClearCellChecked Sheet.ClearCell
  by_cases hv : pos.IsValid = true
  · have hv0 := hv
    unfold Position.IsValid at hv0
    simp only [Bool.and_eq_true, decide_eq_true_eq] at hv0
    simp only [hv, Bool.not_true, Bool.false_eq_true, if_false]
    by_cases hr : pos.row ≥ (s.cells_.length : Int)
    · rw [if_pos hr, if_pos hr]
    · rw [if_neg hr, if_neg hr]
      have hr1 : pos.row.toNat < s.cells_.length := by omega
      rw [getElem?_eq_getD_of_lt s.cells_ _ [] hr1]
      simp only
      by_cases hc : pos.col ≥ ((s.cells_.getD pos.row.toNat []).length : Int)
      · rw [if_pos hc, if_pos hc]
      · rw [if_neg hc, if_neg hc]
        have hc1 : pos.col.toNat < (s.cells_.getD pos.row.toNat []).length := by omega
        rw [Sheet.cellsAt?_of_lt s _ _ hr1 hc1]
        cases s.slot pos.row.toNat pos.col.toNat <;> rfl
  · have hv1 : pos.IsValid = false := by simpa using hv
    simp only [hv1, Bool.not_false, if_true]

theorem Sheet.SetCellChecked_eq (fc : FormulaCompiler Num AST) (s : Sheet Num AST)
    (pos : Position) (text : String) :
    Sheet.SetCellChecked fc s pos text = some (Sheet.SetCell fc s pos text) := by
  unfold Sheet.SetCellChecked Sheet.SetCell
  by_cases hv : pos.IsValid = true
  · simp only [hv, Bool.not_true, Bool.false_eq_true, if_false]
    rw [getElem?_eq_getD_of_lt _ _ [] (s.growRows_length pos.row.toNat)]
    simp only
    obtain ⟨b1, b2⟩ := s.grow_bounds pos.row.toNat pos.col.toNat
    rw [Sheet.cellsAt?_of_lt _ _ _ b1 b2]
    simp only
    obtain ⟨p1, p2⟩ := Sheet.putSlot_bounds (s.grow pos.row.toNat pos.col.toNat) pos.row.toNat
      pos.col.toNat (some (match (s.grow pos.row.toNat pos.col.toNat).slot pos.row.toNat
        pos.col.toNat with
        | some c => c
        | none => Cell.new)) pos.row.toNat
    rw [Sheet.cellsAt?_of_lt _ _ _ (by rw [p1]; exact b1) (by rw [p2]; exact b2)]
  · have hv1 : pos.IsValid = false := by simpa using hv
    simp only [hv1, Bool.not_false, if_true]

theorem foldlM_range_some {β : Type} (f : β → Nat → Option β) (g : β → Nat → β) (n : Nat)
    (h : ∀ b i, i < n → f b i = some (g b i)) (init : β) :
    (List.range n).foldlM f init = some ((List.range n).foldl g init) := by
  induction n with
  | zero => rfl
  | succ k ih =>
    rw [List.range_succ, List.foldlM_append, List.foldl_append,
      ih (fun b i hi => h b i (Nat.lt_succ_of_lt hi))]
    simp only [Option.some_bind, List.foldlM_cons, List.foldlM_nil, List.foldl_cons,
      List.foldl_nil, Option.bind_eq_bind]
    rw [h _ k (Nat.lt_succ_self k)]
    rfl

theorem Sheet.GetPrintableSizeChecked_eq (s : Sheet Num AST) :
    s.GetPrintableSizeChecked = some s.GetPrintableSize := by
  unfold Sheet.GetPrintableSizeChecked
  rw [Sheet.GetPrintableSize_eq]
  apply foldlM_range_some
  intro result row hrow
  rw [getElem?_eq_getD_of_lt s.cells_ row [] hrow]
  simp only
  apply foldlM_range_some
  intro result1 col hcol
  rw [Sheet.cellsAt?_of_lt s row col hrow hcol]
  unfold Sheet.sizeStep
  cases s.slot row col with
  | none => rfl
  | some cell =>
    simp only
    split <;> rfl

theorem Sheet.printStepChecked (s : Sheet Num AST) (row col : Nat) (o : String) :
    (if row < s.cells_.length then
      match s.cells_[row]? with
      | none => none
      | some r =>
        if col < r.length then
          match s.cellsAt? row col with
          | none => none
          | some (some cell) => some (o ++ cell.GetText)
          | some none => some o
        else some o
    else some o)
      = some (if row < s.cells_.length ∧ col < (s.cells_.getD row []).length then
          match s.slot row col with
          | some cell => o ++ cell.GetText
          | none => o
        else o) := by
  by_cases hr : row < s.cells_.length
  · rw [if_pos hr, getElem?_eq_getD_of_lt s.cells_ row [] hr]
    simp only
    by_cases hc : col < (s.cells_.getD row []).length
    · rw [if_pos hc, if_pos ⟨hr, hc⟩, Sheet.cellsAt?_of_lt s row col hr hc]
      cases s.slot row col <;> rfl
    · rw [if_neg hc, if_neg (fun h => hc h.2)]
  · rw [if_neg hr, if_neg (fun h => hr h.1)]

theorem Sheet.PrintTextsChecked_eq (s : Sheet Num AST) (output : String) :
    s.PrintTextsChecked output = some (s.PrintTexts output) := by
  unfold Sheet.PrintTextsChecked Sheet.PrintTexts
  apply foldlM_range_some
  intro out row _
  rw [foldlM_range_some _
    (fun output col =>
      let output1 := if col > 0 then output ++ "\t" else output
      if row < s.cells_.length ∧ col < (s.cells_.getD row []).length then
        match s.slot row col with
        | some cell => output1 ++ cell.GetText
        | none => output1
      else output1)]
  · rfl
  · intro out1 col _
    exact Sheet.printStepChecked s row col _

theorem Sheet.printValueStepChecked (fc : FormulaCompiler Num AST)
    (render : Value Num → String) (depth : Nat) (s : Sheet Num AST) (row col : Nat)
    (o : String) :
    (if row < s.cells_.length then
      match s.cells_[row]? with
      | none => none
      | some r =>
        if col < r.length then
          match s.cellsAt? row col with
          | none => none
          | some (some _) =>
            match Cell.GetValue fc depth s ⟨Int.ofNat row, Int.ofNat col⟩ with
            | none => none
            | some (value, sheet1) => some (o ++ render value, sheet1)
          | some none => some (o, s)
        else some (o, s)
    else some (o, s))
      = (if row < s.cells_.length ∧ col < (s.cells_.getD row []).length then
          match s.slot row col with
          | some _ =>
            match Cell.GetValue fc depth s ⟨Int.ofNat row, Int.ofNat col⟩ with
            | none => none
            | some (value, sheet1) => some (o ++ render value, sheet1)
          | none => some (o, s)
        else some (o, s)) := by
  by_cases hr : row < s.cells_.length
  · rw [if_pos hr, getElem?_eq_getD_of_lt s.cells_ row [] hr]
    simp only
    by_cases hc : col < (s.cells_.getD row []).length
    · rw [if_pos hc, if_pos ⟨hr, hc⟩, Sheet.cellsAt?_of_lt s row col hr hc]
      cases s.slot row col <;> rfl
    · rw [if_neg hc, if_neg (fun h => hc h.2)]
  · rw [if_neg hr, if_neg (fun h => hr h.1)]

theorem Sheet.PrintValuesChecked_eq (fc : FormulaCompiler Num AST)
    (render : Value Num → String) (depth : Nat) (s : Sheet Num AST) (output : String) :
    s.PrintValuesChecked fc render depth output = s.PrintValues fc render depth output := by
  unfold Sheet.PrintValuesChecked Sheet.PrintValues
  congr 1
  funext st row
  congr 2
  funext st1 col
  exact Sheet.printValueStepChecked fc render depth st1.2 row col _

theorem Impl.ofText_error (fc : FormulaCompiler Num AST) (text : String) (e : SheetError)
    (h : Impl.ofText fc text = Except.error e) : e = SheetError.Formula := by
  unfold Impl.ofText at h
  split at h
  · cases h
  · split at h
    · unfold FormulaImpl.new at h
      simp only at h
      split at h
      · injection h with h; exact h.symm
      · cases h
    · cases h

/-- The cycle check of `Cell::Set` returns a result, never an exception, on every sheet. -/
theorem Cell.Set_check_ok (fc : FormulaCompiler Num AST) (s : Sheet Num AST) (this : Position)
    (refs : List Position) (hvalid : ∀ q, q ∈ refs → q.IsValid = true) :
    ∃ b V1, refsLoop s (Cell.HasCircularDependency fc s this (s.slotCount + 1)) [] refs
      = Except.ok (b, V1) := by
  have hfuel : unvisited (slotPositions 0 s.cells_) [] < s.slotCount + 1 := by
    have h1 := unvisited_le_length (slotPositions 0 s.cells_) []
    rw [length_slotPositions] at h1
    exact Nat.lt_succ_of_le h1
  rcases refsLoop_outcome fc s this (slotPositions 0 s.cells_) (s.slotCount + 1) _
    (Cell.HasCircularDependency_outcome fc s this (slotPositions 0 s.cells_)
      (fun p c hc => s.mem_slotPositions_of_cell p c hc) (s.slotCount + 1))
    refs [] hvalid hfuel (List.not_mem_nil _) with ⟨V1, h⟩ | ⟨V1, h, _, _⟩
  · exact ⟨true, V1, h⟩
  · exact ⟨false, V1, h⟩

theorem Cell.Set_ne_InvalidPosition (fc : FormulaCompiler Num AST) (s : Sheet Num AST)
    (this : Position) (c : Cell Num AST) (text : String) :
    (Cell.Set fc s this c text).1 ≠ Except.error SheetError.InvalidPosition := by
  unfold Cell.Set
  cases hof : Impl.ofText fc text with
  | error e =>
    have := Impl.ofText_error fc text e hof
    subst this
    intro h
    cases h
  | ok impl =>
    simp only
    by_cases hform : impl.isFormula = true
    · rw [if_pos hform]
      obtain ⟨b, V1, h⟩ := Cell.Set_check_ok fc s this (impl.GetReferencedCells fc)
        (fun q hq => Impl.GetReferencedCells_valid fc impl q hq)
      rw [h]
      cases b <;> (intro h1; cases h1)
    · rw [if_neg hform]
      intro h
      cases h

theorem args_func_none (fc : FormulaCompiler Num AST)
    (getValue : Sheet Num AST → Position → Option (Value Num × Sheet Num AST))
    (s : Sheet Num AST) (p : Position) (h : args_func fc getValue s p = none) :
    p.IsValid = true ∧ (∃ c, s.GetCell p = Except.ok (some c)) ∧ getValue s p = none := by
  unfold args_func at h
  by_cases hv : p.IsValid = true
  · simp only [hv, Bool.not_true, Bool.false_eq_true, if_false] at h
    rw [Sheet.GetCell_of_valid s p hv] at h
    cases hs : s.slot p.row.toNat p.col.toNat with
    | none => rw [hs] at h; cases h
    | some c =>
      rw [hs] at h
      simp only at h
      refine ⟨hv, ⟨c, by rw [Sheet.GetCell_of_valid s p hv, hs]⟩, ?_⟩
      cases hg : getValue s p with
      | none => rfl
      | some vs => rw [hg] at h; cases h
  · have hv1 : p.IsValid = false := by simpa using hv
    simp only [hv1, Bool.not_false, if_true] at h
    cases h

/-- C18: invalid positions never index the grid. (a) Every position the cycle check looks up
with `GetCell` comes from a `GetReferencedCells()` list, all of whose positions are valid; so the
check returns a result and `Cell::Set` never fails with the invalid-position error, and `SetCell`
fails with it exactly when the position supplied by the caller is invalid. (b) The resolver
returns `Ref` for an invalid position before any `GetCell` call; when it does not return, that is
because the `GetValue()` call on an existing cell at a valid position did not return. (c) Every
access `cells_[row]` and `cells_[row][col]` in `GetCell`, `ClearCell`, `SetCell`,
`GetPrintableSize`, `PrintTexts` and `PrintValues` is within the allocated extent: the methods
with checked accesses never stop at an access and give the same results. -/
theorem C18_positions_and_accesses_in_range (fc : FormulaCompiler Num AST) :
    (∀ (c : Cell Num AST) (p : Position), p ∈ c.GetReferencedCells fc → p.IsValid = true) ∧
    (∀ (s : Sheet Num AST) (this : Position) (c : Cell Num AST),
      ∃ b V1, refsLoop s (Cell.HasCircularDependency fc s this (s.slotCount + 1)) []
        (c.GetReferencedCells fc) = Except.ok (b, V1)) ∧
    (∀ (s : Sheet Num AST) (this : Position) (c : Cell Num AST) (text : String),
      (Cell.Set fc s this c text).1 ≠ Except.error SheetError.InvalidPosition) ∧
    (∀ (s : Sheet Num AST) (pos : Position) (text : String),
      (Sheet.SetCell fc s pos text).1 = Except.error SheetError.InvalidPosition ↔
        pos.IsValid = false) ∧
    (∀ (getValue : Sheet Num AST → Position → Option (Value Num × Sheet Num AST))
        (s : Sheet Num AST) (p : Position),
      (p.IsValid = false →
        args_func fc getValue s p = some (Except.error ⟨Category.Ref⟩, s)) ∧
      (args_func fc getValue s p = none →
        p.IsValid = true ∧ (∃ c, s.GetCell p = Except.ok (some c)) ∧ getValue s p = none)) ∧
    (∀ (s : Sheet Num AST) (pos : Position), s.GetCellChecked pos = some (s.GetCell pos)) ∧
    (∀ (s : Sheet Num AST) (pos : Position),
      s.ClearCellChecked pos = some (Sheet.ClearCell s pos)) ∧
    (∀ (s : Sheet Num AST) (pos : Position) (text : String),
      Sheet.SetCellChecked fc s pos text = some (Sheet.SetCell fc s pos text)) ∧
    (∀ (s : Sheet Num AST), s.GetPrintableSizeChecked = some s.GetPrintableSize) ∧
    (∀ (s : Sheet Num AST) (output : String),
      s.PrintTextsChecked output = some (s.PrintTexts output)) ∧
    (∀ (render : Value Num → String) (depth : Nat) (s : Sheet Num AST) (output : String),
      s.PrintValuesChecked fc render depth output = s.PrintValues fc render depth output) := by
  refine ⟨fun c p hp => Impl.GetReferencedCells_valid fc c.impl_ p hp, ?_, ?_, ?_, ?_,
    Sheet.GetCellChecked_eq, Sheet.ClearCellChecked_eq, Sheet.SetCellChecked_eq fc,
    Sheet.GetPrintableSizeChecked_eq, Sheet.PrintTextsChecked_eq,
    Sheet.PrintValuesChecked_eq fc⟩
  · intro s this c
    exact Cell.Set_check_ok fc s this _
      (fun q hq => Impl.GetReferencedCells_valid fc c.impl_ q hq)
  · exact Cell.Set_ne_InvalidPosition fc
  · intro s pos text
    by_cases hv : pos.IsValid = true
    · rw [Sheet.SetCell_of_valid fc s pos text hv, hv]
      constructor
      · intro h
        exact absurd h (Cell.Set_ne_InvalidPosition fc _ pos _ text)
      · intro h; cases h
    · have hv1 : pos.IsValid = false := by simpa using hv
      rw [Sheet.SetCell_of_invalid fc s pos text hv1, hv1]
      exact ⟨fun _ => rfl, fun _ => rfl⟩
  · intro getValue s p
    refine ⟨?_, args_func_none fc getValue s p⟩
    intro hv
    unfold args_func
    simp only [hv, Bool.not_false, if_true]

/-- Witness for C18: an evaluation of `=A1` in `C1` that is cut off at nesting bound 0 does not
return because the `GetValue()` call on the cell at `A1` did not return, not because of the
position. -/
theorem C18_positions_and_accesses_in_range_witness :
    Example.A1.IsValid = true ∧
    (∃ c, Example.sheetErr.GetCell Example.A1 = Except.ok (some c)) ∧
    Cell.GetValue Example.compiler 0 Example.sheetErr Example.A1 = none :=
  ((C18_positions_and_accesses_in_range Example.compiler).2.2.2.2.1
    (Cell.GetValue Example.compiler 0) Example.sheetErr Example.A1).2 (by decide)

/-! ## C19: termination -/

theorem Sheet.heightLE_succ (fc : FormulaCompiler Num AST) (s : Sheet Num AST) (n : Nat) :
    ∀ p, s.heightLE fc n p → s.heightLE fc (n + 1) p := by
  induction n with
  | zero =>
    intro p h q hq
    exact absurd hq (h q)
  | succ n ih =>
    intro p h q hq
    exact ih q (h q hq)

theorem Sheet.heightLE_mono (fc : FormulaCompiler Num AST) (s : Sheet Num AST) (n m : Nat)
    (hle : n ≤ m) (p : Position) (h : s.heightLE fc n p) : s.heightLE fc m p := by
  induction hle with
  | refl => exact h
  | step _ ih => exact Sheet.heightLE_succ fc s _ p ih

/-- In an acyclic sheet a chain of references that starts below the positions `V` has no more
edges than there are slots outside `V`. -/
theorem Sheet.heightLE_of_acyclic (fc : FormulaCompiler Num AST) (s : Sheet Num AST)
    (hac : s.Acyclic fc) (k : Nat) :
    ∀ (p : Position) (V : List Position),
      unvisited (slotPositions 0 s.cells_) V ≤ k →
      (∀ v, v ∈ V → Relation.TransGen (s.Edge fc) v p) → s.heightLE fc k p := by
  have hstep : ∀ (p q : Position) (V : List Position), s.Edge fc p q →
      (∀ v, v ∈ V → Relation.TransGen (s.Edge fc) v p) →
      unvisited (slotPositions 0 s.cells_) (p :: V) < unvisited (slotPositions 0 s.cells_) V ∧
      ∀ v, v ∈ p :: V → Relation.TransGen (s.Edge fc) v q := by
    intro p q V hpq hV
    obtain ⟨c, hc⟩ := Sheet.Edge.hasCell fc s p q hpq
    have hpL := s.mem_slotPositions_of_cell p c hc
    have hpV : p ∉ V := fun hm => hac p (hV p hm)
    refine ⟨unvisited_cons_lt _ V p hpL hpV, ?_⟩
    intro v hv
    rcases List.mem_cons.mp hv with h | h
    · rw [h]; exact Relation.TransGen.single hpq
    · exact Relation.TransGen.tail (hV v h) hpq
  induction k with
  | zero =>
    intro p V hk hV q hpq
    have := (hstep p q V hpq hV).1
    omega
  | succ k ih =>
    intro p V hk hV q hpq
    obtain ⟨h1, h2⟩ := hstep p q V hpq hV
    exact ih q (p :: V) (by omega) h2

theorem Sheet.heightLE_slotCount (fc : FormulaCompiler Num AST) (s : Sheet Num AST)
    (hac : s.Acyclic fc) (p : Position) : s.heightLE fc s.slotCount p := by
  apply Sheet.heightLE_of_acyclic fc s hac s.slotCount p []
  · have h1 := unvisited_le_length (slotPositions 0 s.cells_) []
    rw [length_slotPositions] at h1
    exact h1
  · intro v hv
    cases hv

/-- A run of a program returns when the resolver returns at every position the program may
ask, in every sheet with the contents of `s`. -/
theorem runExec_returns (s : Sheet Num AST)
    (resolve : Sheet Num AST → Position → Option (Except FormulaError Num × Sheet Num AST))
    (e : Exec Num) :
    (∀ q, e.Asks q → ∀ s1 : Sheet Num AST, s1.eraseCaches = s.eraseCaches →
      ∃ r s2, resolve s1 q = some (r, s2) ∧ s2.eraseCaches = s.eraseCaches) →
    ∀ s1 : Sheet Num AST, s1.eraseCaches = s.eraseCaches →
      ∃ r s2, runExec resolve e s1 = some (r, s2) := by
  induction e with
  | done r0 =>
    intro _ s1 _
    exact ⟨r0, s1, rfl⟩
  | ask p k ih =>
    intro hask s1 hs1
    obtain ⟨r, s2, hr, hs2⟩ := hask p (Exec.Asks.here p k) s1 hs1
    obtain ⟨r3, s3, h3⟩ := ih r (fun q hq => hask q (Exec.Asks.later p k r q hq)) s2 hs2
    refine ⟨r3, s3, ?_⟩
    simp only [runExec, hr]
    exact h3

/-- In a sheet with the contents of `s`, `GetValue()` on a cell returns as soon as the nesting
bound exceeds the length of the longest chain of references that starts at the cell. -/
theorem Cell.GetValue_returns (fc : FormulaCompiler Num AST) (hlaw : fc.AsksOnlyCells)
    (s : Sheet Num AST) (depth : Nat) :
    ∀ (n : Nat), n < depth → ∀ (pos : Position) (s1 : Sheet Num AST),
      s.heightLE fc n pos → s1.eraseCaches = s.eraseCaches → pos.IsValid = true →
      (∃ c, s1.slot pos.row.toNat pos.col.toNat = some c) →
      ∃ v s2, Cell.GetValue fc depth s1 pos = some (v, s2) := by
  induction depth with
  | zero => intro n hn; exact absurd hn (Nat.not_lt_zero _)
  | succ d ih =>
    intro n hn pos s1 hh hs1 hv ⟨c, hc⟩
    cases hcache : c.cache_ with
    | some w => exact ⟨w, s1, Cell.GetValue_cached fc _ s1 pos c w hc hcache⟩
    | none =>
      cases himpl : c.impl_ with
      | EmptyImpl w t =>
        exact ⟨w, _, Cell.GetValue_of_not_formula fc _ s1 pos c w t hc hcache (Or.inl himpl)⟩
      | TextImpl w t =>
        exact ⟨w, _, Cell.GetValue_of_not_formula fc _ s1 pos c w t hc hcache (Or.inr himpl)⟩
      | FormulaImpl w t a =>
        rw [Cell.GetValue_formula fc d s1 pos c w t a hc hcache himpl]
        have hrefs : ∀ q, q.IsValid = true → q ∈ fc.GetCells a → s.Edge fc pos q := by
          intro q hqv hq
          have hi := Sheet.impl_of_eraseCaches s s1 hs1 pos.row.toNat pos.col.toNat
          rw [hc] at hi
          cases hs : s.slot pos.row.toNat pos.col.toNat with
          | none => rw [hs] at hi; cases hi
          | some c0 =>
            rw [hs] at hi
            simp only [Option.map_some', Option.some.injEq] at hi
            unfold Sheet.Edge
            rw [Sheet.refsAt_of_valid fc s pos hv, hs]
            simp only [Cell.GetReferencedCells, ← hi, himpl, Impl.GetReferencedCells]
            exact mem_stdUnique _ _ (List.mem_filter.mpr ⟨hq, hqv⟩)
        have hask : ∀ q, (fc.Execute a).Asks q → ∀ s2 : Sheet Num AST,
            s2.eraseCaches = s.eraseCaches →
            ∃ r s3, args_func fc (Cell.GetValue fc d) s2 q = some (r, s3) ∧
              s3.eraseCaches = s.eraseCaches := by
          intro q hq s2 hs2
          by_cases hqv : q.IsValid = true
          · cases hslot : s2.slot q.row.toNat q.col.toNat with
            | none =>
              refine ⟨Except.ok fc.zero, s2, ?_, hs2⟩
              unfold args_func
              simp only [hqv, Bool.not_true, Bool.false_eq_true, if_false,
                Sheet.GetCell_of_valid s2 q hqv, hslot]
            | some cq =>
              have hedge := hrefs q hqv (hlaw a q hq)
              have hret : ∃ v s3, Cell.GetValue fc d s2 q = some (v, s3) := by
                cases n with
                | zero => exact absurd hedge (hh q)
                | succ m => exact ih m (by omega) q s2 (hh q hedge) hs2 hqv ⟨cq, hslot⟩
              obtain ⟨v, s3, hgv⟩ := hret
              refine ⟨argOfValue fc v, s3, ?_,
                (Cell.GetValue_eraseCaches fc d s2 q v s3 hgv).trans hs2⟩
              rw [args_func_of_cell fc _ s2 q cq
                (by rw [Sheet.GetCell_of_valid s2 q hqv, hslot]), hgv]
          · have hqv1 : q.IsValid = false := by simpa using hqv
            refine ⟨Except.error ⟨Category.Ref⟩, s2, ?_, hs2⟩
            unfold args_func
            simp only [hqv1, Bool.not_false, if_true]
        obtain ⟨r, s2, hrun⟩ := runExec_returns s _ (fc.Execute a) hask s1 hs1
        rw [hrun]
        exact ⟨_, _, rfl⟩

/-- The set of visited cells only grows during a call of the cycle check. -/
theorem refsLoop_grows (sheet : Sheet Num AST)
    (visit : List Position → Position → Cell Num AST → Except SheetError (Bool × List Position))
    (hvisit : ∀ V q c b V1, visit V q c = Except.ok (b, V1) → ∀ x, x ∈ V → x ∈ V1) :
    ∀ (refs V : List Position) (b : Bool) (V1 : List Position),
      refsLoop sheet visit V refs = Except.ok (b, V1) → ∀ x, x ∈ V → x ∈ V1 := by
  intro refs
  induction refs with
  | nil =>
    intro V b V1 h x hx
    simp only [refsLoop, Except.ok.injEq, Prod.mk.injEq] at h
    rw [← h.2]; exact hx
  | cons q rest ih =>
    intro V b V1 h x hx
    rw [refsLoop] at h
    cases hg : sheet.GetCell q with
    | error e => rw [hg] at h; cases h
    | ok oc =>
      rw [hg] at h
      cases oc with
      | none => exact ih V b V1 h x hx
      | some c =>
        simp only at h
        cases hvq : visit V q c with
        | error e => rw [hvq] at h; cases h
        | ok bv =>
          obtain ⟨b2, V2⟩ := bv
          rw [hvq] at h
          cases b2 with
          | true =>
            simp only [Except.ok.injEq, Prod.mk.injEq] at h
            rw [← h.2]
            exact hvisit V q c true V2 hvq x hx
          | false => exact ih V2 b V1 h x (hvisit V q c false V2 hvq x hx)

theorem Cell.HasCircularDependency_grows (fc : FormulaCompiler Num AST) (sheet : Sheet Num AST)
    (target : Position) (depth : Nat) :
    ∀ (V : List Position) (this : Position) (c : Cell Num AST) (b : Bool) (V1 : List Position),
      Cell.HasCircularDependency fc sheet target depth V this c = Except.ok (b, V1) →
      ∀ x, x ∈ V → x ∈ V1 := by
  induction depth with
  | zero =>
    intro V this c b V1 h x hx
    simp only [Cell.HasCircularDependency, Except.ok.injEq, Prod.mk.injEq] at h
    rw [← h.2]; exact hx
  | succ d ih =>
    intro V this c b V1 h x hx
    rw [Cell.HasCircularDependency_succ] at h
    by_cases ht : this = target
    · rw [if_pos ht] at h
      simp only [Except.ok.injEq, Prod.mk.injEq] at h
      rw [← h.2]; exact hx
    · rw [if_neg ht] at h
      by_cases hm : this ∈ V
      · rw [if_pos hm] at h
        simp only [Except.ok.injEq, Prod.mk.injEq] at h
        rw [← h.2]; exact hx
      · rw [if_neg hm] at h
        exact refsLoop_grows sheet _ ih _ _ b V1 h x (List.mem_cons_of_mem _ hx)

theorem refsLoop_agree (sheet : Sheet Num AST) (P : List Position → Prop)
    (visit1 visit2 : List Position → Position → Cell Num AST →
      Except SheetError (Bool × List Position))
    (hagree : ∀ V q c, P V → sheet.GetCell q = Except.ok (some c) →
      visit1 V q c = visit2 V q c)
    (hgrow : ∀ V q c b V1, visit1 V q c = Except.ok (b, V1) → ∀ x, x ∈ V → x ∈ V1)
    (hP : ∀ V V1, (∀ x, x ∈ V → x ∈ V1) → P V → P V1) :
    ∀ (refs V : List Position), P V →
      refsLoop sheet visit1 V refs = refsLoop sheet visit2 V refs := by
  intro refs
  induction refs with
  | nil => intro V _; rfl
  | cons q rest ih =>
    intro V hV
    rw [refsLoop, refsLoop]
    cases hg : sheet.GetCell q with
    | error e => rfl
    | ok oc =>
      cases oc with
      | none => exact ih V hV
      | some c =>
        simp only
        have h12 := hagree V q c hV hg
        rw [← h12]
        cases hv : visit1 V q c with
        | error e => rfl
        | ok bv =>
          obtain ⟨b, V1⟩ := bv
          cases b with
          | true => rfl
          | false => exact ih V1 (hP V V1 (hgrow V q c false V1 hv) hV)

/-- The result of the cycle check does not depend on the depth bound once the bound exceeds the
number of slots not yet visited: the bound is never reached. -/
theorem Cell.HasCircularDependency_depth (fc : FormulaCompiler Num AST) (sheet : Sheet Num AST)
    (target : Position) (L : List Position)
    (hL : ∀ p c, sheet.GetCell p = Except.ok (some c) → p ∈ L) (d : Nat) :
    ∀ (d1 : Nat) (V : List Position) (this : Position) (c : Cell Num AST),
      unvisited L V < d → unvisited L V < d1 → sheet.GetCell this = Except.ok (some c) →
      Cell.HasCircularDependency fc sheet target d V this c
        = Cell.HasCircularDependency fc sheet target d1 V this c := by
  induction d with
  | zero => intro d1 V this c h; exact absurd h (Nat.not_lt_zero _)
  | succ d ih =>
    intro d1 V this c h1 h2 hc
    cases d1 with
    | zero => exact absurd h2 (Nat.not_lt_zero _)
    | succ d1 =>
      rw [Cell.HasCircularDependency_succ, Cell.HasCircularDependency_succ]
      by_cases ht : this = target
      · rw [if_pos ht, if_pos ht]
      · rw [if_neg ht, if_neg ht]
        by_cases hm : this ∈ V
        · rw [if_pos hm, if_pos hm]
        · rw [if_neg hm, if_neg hm]
          have hlt := unvisited_cons_lt L V this (hL this c hc) hm
          apply refsLoop_agree sheet (fun W => unvisited L W < d ∧ unvisited L W < d1)
          · intro W q cq hW hq
            exact ih d1 W q cq hW.1 hW.2 hq
          · exact Cell.HasCircularDependency_grows fc sheet target d
          · intro W W1 hsub hW
            have := unvisited_mono L W W1 hsub
            exact ⟨by omega, by omega⟩
          · exact ⟨by omega, by omega⟩

theorem Example.execSum_asks (ast : List Position) :
    ∀ (acc : Int) (p : Position), (Example.execSum ast acc).Asks p → p ∈ ast := by
  induction ast with
  | nil =>
    intro acc p h
    cases h
  | cons q qs ih =>
    intro acc p h
    simp only [Example.execSum] at h
    cases h with
    | here => exact List.mem_cons_self _ _
    | later _ _ r _ hr =>
      cases r with
      | error e => cases hr
      | ok x => exact List.mem_cons_of_mem _ (ih _ p hr)

theorem Example.compiler_asksOnlyCells : Example.compiler.AsksOnlyCells :=
  fun ast p h => Example.execSum_asks ast 0 p h

theorem Cell.HasCircularDependencyOpt_succ (fc : FormulaCompiler Num AST)
    (sheet : Sheet Num AST) (target : Position) (depth : Nat) (visited : List Position)
    (this : Position) (c : Cell Num AST) :
    Cell.HasCircularDependencyOpt fc sheet target (depth + 1) visited this c =
      if this = target then some (Except.ok (true, visited))
      else if this ∈ visited then some (Except.ok (false, visited))
      else refsLoopOpt sheet (Cell.HasCircularDependencyOpt fc sheet target depth)
        (this :: visited) (c.GetReferencedCells fc) := rfl

/-- A loop whose calls all returned gives what the loop of `refsLoop` gives. -/
theorem refsLoopOpt_eq (sheet : Sheet Num AST)
    (visitO : List Position → Position → Cell Num AST →
      Option (Except SheetError (Bool × List Position)))
    (visit : List Position → Position → Cell Num AST → Except SheetError (Bool × List Position))
    (heq : ∀ V q c r, visitO V q c = some r → visit V q c = r) :
    ∀ (refs V : List Position) (r : Except SheetError (Bool × List Position)),
      refsLoopOpt sheet visitO V refs = some r → refsLoop sheet visit V refs = r := by
  intro refs
  induction refs with
  | nil =>
    intro V r h
    simp only [refsLoopOpt, Option.some.injEq] at h
    rw [refsLoop]; exact h
  | cons q rest ih =>
    intro V r h
    rw [refsLoopOpt] at h
    rw [refsLoop]
    cases hg : sheet.GetCell q with
    | error e =>
      rw [hg] at h
      simp only [Option.some.injEq] at h
      exact h
    | ok oc =>
      rw [hg] at h
      cases oc with
      | none => exact ih V r h
      | some c =>
        simp only at h ⊢
        cases hv : visitO V q c with
        | none => rw [hv] at h; cases h
        | some rv =>
          rw [hv] at h
          rw [heq V q c rv hv]
          cases rv with
          | error e =>
            simp only [Option.some.injEq] at h
            exact h
          | ok bv =>
            obtain ⟨b, V1⟩ := bv
            cases b with
            | true =>
              simp only [Option.some.injEq] at h
              exact h
            | false => exact ih V1 r h

/-- A call of the cycle check that returned within the depth bound gives what
`Cell.HasCircularDependency` gives at that bound. -/
theorem Cell.HasCircularDependencyOpt_eq (fc : FormulaCompiler Num AST) (sheet : Sheet Num AST)
    (target : Position) (depth : Nat) :
    ∀ (V : List Position) (this : Position) (c : Cell Num AST)
      (r : Except SheetError (Bool × List Position)),
      Cell.HasCircularDependencyOpt fc sheet target depth V this c = some r →
      Cell.HasCircularDependency fc sheet target depth V this c = r := by
  induction depth with
  | zero =>
    intro V this c r h
    simp only [Cell.HasCircularDependencyOpt] at h
    cases h
  | succ d ih =>
    intro V this c r h
    rw [Cell.HasCircularDependencyOpt_succ] at h
    rw [Cell.HasCircularDependency_succ]
    by_cases ht : this = target
    · rw [if_pos ht] at h
      rw [if_pos ht]
      exact Option.some.inj h
    · rw [if_neg ht] at h
      rw [if_neg ht]
      by_cases hm : this ∈ V
      · rw [if_pos hm] at h
        rw [if_pos hm]
        exact Option.some.inj h
      · rw [if_neg hm] at h
        rw [if_neg hm]
        exact refsLoopOpt_eq sheet _ _ ih _ _ r h

/-- The loop returns when every call on an existing cell does, as long as the visited set
satisfies `P`, a property that growing the set keeps. -/
theorem refsLoopOpt_returns (sheet : Sheet Num AST) (P : List Position → Prop)
    (visitO : List Position → Position → Cell Num AST →
      Option (Except SheetError (Bool × List Position)))
    (hret : ∀ V q c, P V → sheet.GetCell q = Except.ok (some c) →
      ∃ r, visitO V q c = some r ∧ ∀ b V1, r = Except.ok (b, V1) → ∀ x, x ∈ V → x ∈ V1)
    (hP : ∀ V V1, (∀ x, x ∈ V → x ∈ V1) → P V → P V1) :
    ∀ (refs V : List Position), P V → ∃ r, refsLoopOpt sheet visitO V refs = some r := by
  intro refs
  induction refs with
  | nil =>
    intro V _
    exact ⟨_, rfl⟩
  | cons q rest ih =>
    intro V hV
    rw [refsLoopOpt]
    cases hg : sheet.GetCell q with
    | error e => exact ⟨_, rfl⟩
    | ok oc =>
      cases oc with
      | none => exact ih V hV
      | some c =>
        simp only
        obtain ⟨rv, hv, hgrow⟩ := hret V q c hV hg
        rw [hv]
        cases rv with
        | error e => exact ⟨_, rfl⟩
        | ok bv =>
          obtain ⟨b, V1⟩ := bv
          cases b with
          | true => exact ⟨_, rfl⟩
          | false => exact ih V1 (hP V V1 (hgrow false V1 rfl) hV)

/-- The cycle check returns: a call on an existing cell needs no more nested calls than there
are slots not yet visited, because every call that goes on puts its cell, which was not in the
visited set, into it. -/
theorem Cell.HasCircularDependencyOpt_returns (fc : FormulaCompiler Num AST)
    (sheet : Sheet Num AST) (target : Position) (L : List Position)
    (hL : ∀ p c, sheet.GetCell p = Except.ok (some c) → p ∈ L) (d : Nat) :
    ∀ (V : List Position) (this : Position) (c : Cell Num AST),
      unvisited L V < d → sheet.GetCell this = Except.ok (some c) →
      ∃ r, Cell.HasCircularDependencyOpt fc sheet target d V this c = some r := by
  induction d with
  | zero => intro V this c h; exact absurd h (Nat.not_lt_zero _)
  | succ d ih =>
    intro V this c h1 hc
    rw [Cell.HasCircularDependencyOpt_succ]
    by_cases ht : this = target
    · rw [if_pos ht]; exact ⟨_, rfl⟩
    · rw [if_neg ht]
      by_cases hm : this ∈ V
      · rw [if_pos hm]; exact ⟨_, rfl⟩
      · rw [if_neg hm]
        have hlt := unvisited_cons_lt L V this (hL this c hc) hm
        apply refsLoopOpt_returns sheet (fun W => unvisited L W < d)
        · intro W q cq hW hq
          obtain ⟨r, hr⟩ := ih W q cq hW hq
          refine ⟨r, hr, ?_⟩
          intro b V1 hb x hx
          have h2 := Cell.HasCircularDependencyOpt_eq fc sheet target d W q cq r hr
          rw [hb] at h2
          exact Cell.HasCircularDependency_grows fc sheet target d W q cq b V1 h2 x hx
        · intro W W1 hsub hW
          have := unvisited_mono L W W1 hsub
          omega
        · omega

/-- C19: evaluation and cycle checking terminate. For a compiler whose `Execute` calls the
resolver only at positions of the expression: in every sheet reached from the empty sheet,
`GetValue()` on any cell returns, at every nesting bound above the number of slots (the
recursion follows the acyclic reference graph). And in every sheet state, cyclic or not,
`HasCircularDependency` never reaches a depth bound above the number of slots, its result being
the same at all of them, and it returns a result: counted with its nesting, where a call that
needs more nested calls than the bound has not returned, the call on any cell of the sheet
returns within every bound above the number of slots, with the result of
`Cell.HasCircularDependency`. -/
theorem C19_termination (fc : FormulaCompiler Num AST) (hlaw : fc.AsksOnlyCells) :
    (∀ (ops : List Op) (s : Sheet Num AST), Sheet.run fc Sheet.empty ops = some s →
      ∀ (pos : Position) (c : Cell Num AST), s.GetCell pos = Except.ok (some c) →
      ∀ depth, s.slotCount < depth → ∃ v s1, Cell.GetValue fc depth s pos = some (v, s1)) ∧
    (∀ (s : Sheet Num AST) (target : Position) (V : List Position) (this : Position)
        (c : Cell Num AST), s.GetCell this = Except.ok (some c) →
      ∀ depth, s.slotCount < depth →
        Cell.HasCircularDependency fc s target depth V this c
          = Cell.HasCircularDependency fc s target (s.slotCount + 1) V this c) ∧
    (∀ (s : Sheet Num AST) (target : Position) (V : List Position) (this : Position)
        (c : Cell Num AST), s.GetCell this = Except.ok (some c) → target ∉ V →
      ∃ b V1, Cell.HasCircularDependency fc s target (s.slotCount + 1) V this c
        = Except.ok (b, V1)) ∧
    (∀ (s : Sheet Num AST) (target : Position) (V : List Position) (this : Position)
        (c : Cell Num AST), s.GetCell this = Except.ok (some c) →
      ∀ depth, s.slotCount < depth →
        Cell.HasCircularDependencyOpt fc s target depth V this c
          = some (Cell.HasCircularDependency fc s target depth V this c)) := by
  have hbound : ∀ (s : Sheet Num AST) (V : List Position),
      unvisited (slotPositions 0 s.cells_) V < s.slotCount + 1 := by
    intro s V
    have h1 := unvisited_le_length (slotPositions 0 s.cells_) V
    rw [length_slotPositions] at h1
    exact Nat.lt_succ_of_le h1
  refine ⟨?_, ?_, ?_, ?_⟩
  · intro ops s hrun pos c hc depth hd
    have hac := Sheet.run_acyclic fc ops Sheet.empty s hrun (Sheet.empty_acyclic fc)
    have hv : pos.IsValid = true := by
      by_contra hv
      have hv1 : pos.IsValid = false := by simpa using hv
      rw [Sheet.GetCell_of_invalid s pos hv1] at hc
      cases hc
    rw [Sheet.GetCell_of_valid s pos hv] at hc
    injection hc with hc
    exact Cell.GetValue_returns fc hlaw s depth s.slotCount hd pos s
      (Sheet.heightLE_slotCount fc s hac pos) rfl hv ⟨c, hc⟩
  · intro s target V this c hc depth hd
    exact Cell.HasCircularDependency_depth fc s target (slotPositions 0 s.cells_)
      (fun p c hc => s.mem_slotPositions_of_cell p c hc) depth (s.slotCount + 1) V this c
      (Nat.lt_of_lt_of_le (hbound s V) hd) (hbound s V) hc
  · intro s target V this c hc ht
    rcases Cell.HasCircularDependency_outcome fc s target (slotPositions 0 s.cells_)
      (fun p c hc => s.mem_slotPositions_of_cell p c hc) (s.slotCount + 1) V this c
      (hbound s V) ht hc with ⟨V1, h⟩ | ⟨V1, h, _, _⟩
    · exact ⟨true, V1, h⟩
    · exact ⟨false, V1, h⟩
  · intro s target V this c hc depth hd
    obtain ⟨r, hr⟩ := Cell.HasCircularDependencyOpt_returns fc s target
      (slotPositions 0 s.cells_) (fun p c hc => s.mem_slotPositions_of_cell p c hc) depth V this c
      (Nat.lt_of_lt_of_le (hbound s V) hd) hc
    rw [hr, Cell.HasCircularDependencyOpt_eq fc s target depth V this c r hr]

/-- Witness for C19: with the text `x` in `B1`, `=B1` in `A1` and `=A1` in `C1`, `GetValue()` on
`C1` returns at nesting bound 4, one more than the three slots of the sheet. And in the cyclic
state with `=B1` in `A1` and `=A1` in `B1`, the cycle check for the target `C1` called on `A1`
has not returned within one nested call, and returns `false` within three, more than the two
slots, having visited `A1` and `B1`. -/
theorem C19_termination_witness :
    (∃ v s1, Cell.GetValue Example.compiler 4 Example.sheetErr Example.C1 = some (v, s1)) ∧
    Cell.HasCircularDependencyOpt Example.compiler Example.sheetCycle Example.C1 1 []
      Example.A1 ⟨Impl.FormulaImpl (Value.str "B1") "=B1" [Example.B1], none⟩ = none ∧
    Cell.HasCircularDependency Example.compiler Example.sheetCycle Example.C1 3 []
      Example.A1 ⟨Impl.FormulaImpl (Value.str "B1") "=B1" [Example.B1], none⟩
        = Except.ok (false, [Example.B1, Example.A1]) ∧
    Cell.HasCircularDependencyOpt Example.compiler Example.sheetCycle Example.C1 3 []
      Example.A1 ⟨Impl.FormulaImpl (Value.str "B1") "=B1" [Example.B1], none⟩
        = some (Cell.HasCircularDependency Example.compiler Example.sheetCycle Example.C1 3 []
          Example.A1 ⟨Impl.FormulaImpl (Value.str "B1") "=B1" [Example.B1], none⟩) :=
  ⟨(C19_termination Example.compiler Example.compiler_asksOnlyCells).1 Example.opsErr
    Example.sheetErr (by decide) Example.C1
    ⟨Impl.FormulaImpl (Value.str "A1") "=A1" [Example.A1], none⟩ (by decide) 4 (by decide),
   by decide, by decide,
   (C19_termination Example.compiler Example.compiler_asksOnlyCells).2.2.2 Example.sheetCycle
    Example.C1 [] Example.A1 ⟨Impl.FormulaImpl (Value.str "B1") "=B1" [Example.B1], none⟩
    (by decide) 3 (by decide)⟩

/-! ## C6, amended: the caches are coherent unless a cell that a cached formula reads is written -/

theorem Sheet.settledValue_zero (fc : FormulaCompiler Num AST) (s : Sheet Num AST)
    (pos : Position) :
    s.settledValue fc 0 pos =
      match s.slot pos.row.toNat pos.col.toNat with
      | none => none
      | some c =>
        match c.impl_ with
        | Impl.EmptyImpl value_ _ => some value_
        | Impl.TextImpl value_ _ => some value_
        | Impl.FormulaImpl _ _ _ => none := by
  rw [Sheet.settledValue]
  cases s.slot pos.row.toNat pos.col.toNat with
  | none => rfl
  | some c =>
    simp only
    cases c.impl_ with
    | EmptyImpl w t => rfl
    | TextImpl w t => rfl
    | FormulaImpl w t a =>
      simp only
      cases c.cache_ <;> rfl

theorem Sheet.settledValue_succ (fc : FormulaCompiler Num AST) (d : Nat) (s : Sheet Num AST)
    (pos : Position) :
    s.settledValue fc (d + 1) pos =
      match s.slot pos.row.toNat pos.col.toNat with
      | none => none
      | some c =>
        match c.impl_ with
        | Impl.EmptyImpl value_ _ => some value_
        | Impl.TextImpl value_ _ => some value_
        | Impl.FormulaImpl _ _ formula_int_ =>
          match c.cache_ with
          | none => none
          | some _ =>
            (runFresh (freshArg fc (s.settledValue fc d) s) (fc.Execute formula_int_)).map
              Value.ofEvaluate := by
  rw [Sheet.settledValue]

/-- A settled value has been computed in one of two ways: the stored value of a cell without
a formula, or the run of the formula of a cell with a cached value. -/
theorem Sheet.settledValue_cases (fc : FormulaCompiler Num AST) (d : Nat) (s : Sheet Num AST)
    (pos : Position) (v : Value Num) (h : s.settledValue fc d pos = some v) :
    ∃ c, s.slot pos.row.toNat pos.col.toNat = some c ∧
      ((∃ t, c.impl_ = Impl.EmptyImpl v t ∨ c.impl_ = Impl.TextImpl v t) ∨
       (∃ w u t a d0 r, c.cache_ = some w ∧ c.impl_ = Impl.FormulaImpl u t a ∧ d = d0 + 1 ∧
          runFresh (freshArg fc (s.settledValue fc d0) s) (fc.Execute a) = some r ∧
          v = Value.ofEvaluate r)) := by
  cases hs : s.slot pos.row.toNat pos.col.toNat with
  | none =>
    cases d <;> simp only [Sheet.settledValue_zero, Sheet.settledValue_succ, hs] at h <;> cases h
  | some c =>
    refine ⟨c, rfl, ?_⟩
    cases hi : c.impl_ with
    | EmptyImpl u t =>
      left
      cases d <;>
        simp only [Sheet.settledValue_zero, Sheet.settledValue_succ, hs, hi,
          Option.some.injEq] at h <;>
        exact ⟨t, Or.inl (by rw [h])⟩
    | TextImpl u t =>
      left
      cases d <;>
        simp only [Sheet.settledValue_zero, Sheet.settledValue_succ, hs, hi,
          Option.some.injEq] at h <;>
        exact ⟨t, Or.inr (by rw [h])⟩
    | FormulaImpl u t a =>
      right
      cases d with
      | zero =>
        simp only [Sheet.settledValue_zero, hs, hi] at h
        cases h
      | succ d0 =>
        cases hcache : c.cache_ with
        | none =>
          simp only [Sheet.settledValue_succ, hs, hi, hcache] at h
          cases h
        | some w =>
          simp only [Sheet.settledValue_succ, hs, hi, hcache, Option.map_eq_some'] at h
          obtain ⟨r, hr, hv⟩ := h
          exact ⟨w, u, t, a, d0, r, rfl, rfl, rfl, hr, hv.symm⟩

theorem Sheet.settledValue_of_not_formula (fc : FormulaCompiler Num AST) (d : Nat)
    (s : Sheet Num AST) (pos : Position) (c : Cell Num AST) (v : Value Num) (t : String)
    (hs : s.slot pos.row.toNat pos.col.toNat = some c)
    (hi : c.impl_ = Impl.EmptyImpl v t ∨ c.impl_ = Impl.TextImpl v t) :
    s.settledValue fc d pos = some v := by
  cases d <;> rcases hi with hi | hi <;>
    simp only [Sheet.settledValue_zero, Sheet.settledValue_succ, hs, hi]

theorem Sheet.settledValue_of_formula (fc : FormulaCompiler Num AST) (d : Nat)
    (s : Sheet Num AST) (pos : Position) (c : Cell Num AST) (w u : Value Num) (t : String)
    (a : AST) (r : Except FormulaError Num)
    (hs : s.slot pos.row.toNat pos.col.toNat = some c) (hcache : c.cache_ = some w)
    (hi : c.impl_ = Impl.FormulaImpl u t a)
    (hr : runFresh (freshArg fc (s.settledValue fc d) s) (fc.Execute a) = some r) :
    s.settledValue fc (d + 1) pos = some (Value.ofEvaluate r) := by
  simp only [Sheet.settledValue_succ, hs, hcache, hi, hr, Option.map_some']

/-- A transfer of settled values from one sheet and nesting bound to another, given the
transfer at the nesting bound below for the evaluation of the referenced cells. -/
theorem Sheet.settledValue_transfer (fc : FormulaCompiler Num AST) (s s1 : Sheet Num AST)
    (d d1 : Nat) (pos : Position) (v : Value Num)
    (hcell : ∀ c, s.slot pos.row.toNat pos.col.toNat = some c →
      ∃ c1, s1.slot pos.row.toNat pos.col.toNat = some c1 ∧ c1.impl_ = c.impl_ ∧
        ∀ w, c.cache_ = some w → ∃ w1, c1.cache_ = some w1)
    (hrun : ∀ c w u t a d0 r, s.slot pos.row.toNat pos.col.toNat = some c →
      c.cache_ = some w → c.impl_ = Impl.FormulaImpl u t a → d = d0 + 1 →
      runFresh (freshArg fc (s.settledValue fc d0) s) (fc.Execute a) = some r →
      ∃ e0, d1 = e0 + 1 ∧
        runFresh (freshArg fc (s1.settledValue fc e0) s1) (fc.Execute a) = some r)
    (h : s.settledValue fc d pos = some v) : s1.settledValue fc d1 pos = some v := by
  obtain ⟨c, hs, hkind⟩ := Sheet.settledValue_cases fc d s pos v h
  obtain ⟨c1, hs1, hi1, hcache1⟩ := hcell c hs
  rcases hkind with ⟨t, hi⟩ | ⟨w, u, t, a, d0, r, hcache, hi, hd, hr, hv⟩
  · exact Sheet.settledValue_of_not_formula fc d1 s1 pos c1 v t hs1 (by rw [hi1]; exact hi)
  · obtain ⟨e0, he0, hr1⟩ := hrun c w u t a d0 r hs hcache hi hd hr
    obtain ⟨w1, hw1⟩ := hcache1 w hcache
    rw [he0, hv]
    exact Sheet.settledValue_of_formula fc e0 s1 pos c1 w1 u t a r hs1 hw1
      (by rw [hi1]; exact hi) hr1

/-- A settled value is the value that ignores the caches. -/
theorem Sheet.settledValue_fresh (fc : FormulaCompiler Num AST) (s : Sheet Num AST) (d : Nat) :
    ∀ pos v, s.settledValue fc d pos = some v → s.freshValue fc d pos = some v := by
  induction d with
  | zero =>
    intro pos v h
    obtain ⟨c, hs, hkind⟩ := Sheet.settledValue_cases fc 0 s pos v h
    rcases hkind with ⟨t, hi⟩ | ⟨w, u, t, a, d0, r, _, _, hd, _, _⟩
    · rw [Sheet.freshValue_zero, hs]
      rcases hi with hi | hi <;> simp only [hi]
    · cases hd
  | succ d ih =>
    intro pos v h
    obtain ⟨c, hs, hkind⟩ := Sheet.settledValue_cases fc (d + 1) s pos v h
    rcases hkind with ⟨t, hi⟩ | ⟨w, u, t, a, d0, r, _, hi, hd, hr, hv⟩
    · rw [Sheet.freshValue_succ, hs]
      rcases hi with hi | hi <;> simp only [hi]
    · have hd0 : d0 = d := by omega
      subst hd0
      rw [Sheet.freshValue_succ, hs]
      simp only [hi]
      rw [runFresh_mono _ _ (fun q r1 h1 => freshArg_mono fc _ _ ih s q r1 h1) _ r hr, hv]
      rfl

theorem Sheet.CacheLE_refl (s : Sheet Num AST) : s.CacheLE s :=
  ⟨rfl, fun _ _ c _ hc hv => ⟨c, hc, hv⟩⟩

theorem Sheet.CacheLE_trans (s s1 s2 : Sheet Num AST) (h1 : s.CacheLE s1)
    (h2 : s1.CacheLE s2) : s.CacheLE s2 := by
  refine ⟨h2.1.trans h1.1, ?_⟩
  intro row col c v hc hv
  obtain ⟨c1, hc1, hv1⟩ := h1.2 row col c v hc hv
  exact h2.2 row col c1 v hc1 hv1

/-- A sheet with the contents and the cached values of `s` has, where `s` has a cell, a cell
with that content, and with a cached value when the cell of `s` has one. -/
theorem Sheet.CacheLE.cell (s s1 : Sheet Num AST) (hle : s.CacheLE s1) (row col : Nat)
    (c : Cell Num AST) (hs : s.slot row col = some c) :
    ∃ c1, s1.slot row col = some c1 ∧ c1.impl_ = c.impl_ ∧
      ∀ w, c.cache_ = some w → ∃ w1, c1.cache_ = some w1 := by
  have hi := Sheet.impl_of_eraseCaches s s1 hle.1 row col
  rw [hs] at hi
  cases hs1 : s1.slot row col with
  | none => rw [hs1] at hi; cases hi
  | some c1 =>
    rw [hs1] at hi
    simp only [Option.map_some', Option.some.injEq] at hi
    refine ⟨c1, rfl, hi, ?_⟩
    intro w hw
    obtain ⟨c2, hc2, hw2⟩ := hle.2 row col c w hs hw
    rw [hs1] at hc2
    injection hc2 with hc2
    rw [hc2]
    exact ⟨w, hw2⟩

/-- Settled values stay when caches are added and the nesting bound grows. -/
theorem Sheet.settledValue_mono (fc : FormulaCompiler Num AST) (s s1 : Sheet Num AST)
    (hle : s.CacheLE s1) (d : Nat) :
    ∀ (d1 : Nat) (pos : Position) (v : Value Num), d ≤ d1 →
      s.settledValue fc d pos = some v → s1.settledValue fc d1 pos = some v := by
  induction d with
  | zero =>
    intro d1 pos v _ h
    apply Sheet.settledValue_transfer fc s s1 0 d1 pos v ?_ ?_ h
    · intro c hs
      exact Sheet.CacheLE.cell s s1 hle _ _ c hs
    · intro c w u t a d0 r _ _ _ hd
      cases hd
  | succ d ih =>
    intro d1 pos v hd1 h
    apply Sheet.settledValue_transfer fc s s1 (d + 1) d1 pos v ?_ ?_ h
    · intro c hs
      exact Sheet.CacheLE.cell s s1 hle _ _ c hs
    · intro c w u t a d0 r _ _ _ hd hr
      have hd0 : d0 = d := by omega
      subst hd0
      obtain ⟨e0, he0⟩ : ∃ e0, d1 = e0 + 1 := ⟨d1 - 1, by omega⟩
      refine ⟨e0, he0, ?_⟩
      apply runFresh_mono _ _ ?_ _ r hr
      intro q r1 h1
      rw [freshArg_congr fc _ s s1 hle.1 q]
      exact freshArg_mono fc _ _ (fun p w0 hp => ih e0 p w0 (by omega) hp) s q r1 h1

theorem Sheet.CacheLE_setCache (s : Sheet Num AST) (pos : Position) (v : Value Num)
    (c : Cell Num AST) (hs : s.slot pos.row.toNat pos.col.toNat = some c)
    (hcache : c.cache_ = none ∨ c.cache_ = some v) : s.CacheLE (s.setCache pos v) := by
  refine ⟨s.eraseCaches_setCache pos v, ?_⟩
  intro row col c0 w hc0 hw
  rw [Sheet.slot_setCache_eq]
  by_cases hp : row = pos.row.toNat ∧ col = pos.col.toNat
  · rw [if_pos hp, hc0]
    rw [hp.1, hp.2, hs] at hc0
    injection hc0 with hc0
    rw [← hc0] at hw
    rcases hcache with h | h
    · rw [h] at hw; cases hw
    · rw [h] at hw
      exact ⟨_, rfl, hw⟩
  · rw [if_neg hp]
    exact ⟨c0, hc0, hw⟩
theorem Sheet.GetCell_slot (s : Sheet Num AST) (pos : Position) (c : Cell Num AST)
    (h : s.GetCell pos = Except.ok (some c)) :
    pos.IsValid = true ∧ s.slot pos.row.toNat pos.col.toNat = some c := by
  have hv : pos.IsValid = true := by
    by_contra hv
    have hv1 : pos.IsValid = false := by simpa using hv
    rw [Sheet.GetCell_of_invalid s pos hv1] at h
    cases h
  rw [Sheet.GetCell_of_valid s pos hv] at h
  injection h with h
  exact ⟨hv, h⟩

theorem freshArg_settled_mono (fc : FormulaCompiler Num AST) (s s1 : Sheet Num AST)
    (hle : s.CacheLE s1) (d d1 : Nat) (hd : d ≤ d1) (p : Position)
    (r : Except FormulaError Num)
    (h : freshArg fc (s.settledValue fc d) s p = some r) :
    freshArg fc (s1.settledValue fc d1) s1 p = some r := by
  rw [freshArg_congr fc _ s s1 hle.1 p]
  exact freshArg_mono fc _ _ (fun q w hq => Sheet.settledValue_mono fc s s1 hle d d1 q w hd hq)
    s p r h

theorem runFresh_settled_mono (fc : FormulaCompiler Num AST) (s s1 : Sheet Num AST)
    (hle : s.CacheLE s1) (d d1 : Nat) (hd : d ≤ d1) (e : Exec Num)
    (r : Except FormulaError Num)
    (h : runFresh (freshArg fc (s.settledValue fc d) s) e = some r) :
    runFresh (freshArg fc (s1.settledValue fc d1) s1) e = some r :=
  runFresh_mono _ _ (fun q r1 h1 => freshArg_settled_mono fc s s1 hle d d1 hd q r1 h1) e r h

/-- Assigning to the cache of a cell the value its content evaluates to keeps the sheet
settled. -/
theorem Sheet.Settled_setCache (fc : FormulaCompiler Num AST) (s : Sheet Num AST)
    (pos : Position) (v : Value Num) (c : Cell Num AST) (hv : pos.IsValid = true)
    (hs : s.slot pos.row.toNat pos.col.toNat = some c)
    (hcache : c.cache_ = none ∨ c.cache_ = some v) (hset : s.Settled fc)
    (hval : ∃ d, (s.setCache pos v).settledValue fc d pos = some v) :
    (s.setCache pos v).Settled fc := by
  intro q c1 w hc1 hw
  obtain ⟨hqv, hq⟩ := Sheet.GetCell_slot _ q c1 hc1
  rw [Sheet.slot_setCache_eq] at hq
  by_cases hp : q.row.toNat = pos.row.toNat ∧ q.col.toNat = pos.col.toNat
  · have hqp : q = pos := Position.toNat_injective q pos hqv hv hp.1 hp.2
    subst hqp
    rw [if_pos ⟨rfl, rfl⟩, hs] at hq
    simp only [Option.map_some', Option.some.injEq] at hq
    rw [← hq] at hw
    simp only [Option.some.injEq] at hw
    rw [← hw]
    exact hval
  · rw [if_neg hp] at hq
    obtain ⟨d, hd⟩ := hset q c1 w (by rw [Sheet.GetCell_of_valid s q hqv, hq]) hw
    exact ⟨d, Sheet.settledValue_mono fc s _ (Sheet.CacheLE_setCache s pos v c hs hcache) d d q w
      (Nat.le_refl _) hd⟩

theorem args_func_settles (fc : FormulaCompiler Num AST)
    (getValue : Sheet Num AST → Position → Option (Value Num × Sheet Num AST))
    (hget : ∀ s pos v s1, pos.IsValid = true → s.Settled fc →
      getValue s pos = some (v, s1) →
      s1.Settled fc ∧ s.CacheLE s1 ∧ ∃ d, s1.settledValue fc d pos = some v)
    (s : Sheet Num AST) (p : Position) (r : Except FormulaError Num) (s1 : Sheet Num AST)
    (hset : s.Settled fc) (h : args_func fc getValue s p = some (r, s1)) :
    s1.Settled fc ∧ s.CacheLE s1 ∧ ∃ d, freshArg fc (s1.settledValue fc d) s1 p = some r := by
  unfold args_func at h
  by_cases hv : p.IsValid = true
  · simp only [hv, Bool.not_true, Bool.false_eq_true, if_false] at h
    cases hg : s.GetCell p with
    | error e => rw [hg] at h; cases h
    | ok oc =>
      rw [hg] at h
      cases oc with
      | none =>
        simp only [Option.some.injEq, Prod.mk.injEq] at h
        rw [← h.1, ← h.2]
        refine ⟨hset, Sheet.CacheLE_refl s, 0, ?_⟩
        simp only [freshArg, hv, Bool.not_true, Bool.false_eq_true, if_false, hg]
      | some c =>
        simp only at h
        cases hgv : getValue s p with
        | none => rw [hgv] at h; cases h
        | some vs =>
          obtain ⟨v, s2⟩ := vs
          rw [hgv] at h
          simp only [Option.some.injEq, Prod.mk.injEq] at h
          obtain ⟨hs2, hle, d, hd⟩ := hget s p v s2 hv hset hgv
          rw [← h.1, ← h.2]
          refine ⟨hs2, hle, d, ?_⟩
          obtain ⟨c2, hc2, _⟩ := Sheet.settledValue_cases fc d s2 p v hd
          simp only [freshArg, hv, Bool.not_true, Bool.false_eq_true, if_false,
            Sheet.GetCell_of_valid s2 p hv, hc2, hd]
  · have hv1 : p.IsValid = false := by simpa using hv
    simp only [hv1, Bool.not_false, if_true, Option.some.injEq, Prod.mk.injEq] at h
    rw [← h.1, ← h.2]
    refine ⟨hset, Sheet.CacheLE_refl s, 0, ?_⟩
    simp only [freshArg, hv1, Bool.not_false, if_true]

theorem runExec_settles (fc : FormulaCompiler Num AST)
    (resolve : Sheet Num AST → Position → Option (Except FormulaError Num × Sheet Num AST))
    (hres : ∀ s p r s1, s.Settled fc → resolve s p = some (r, s1) →
      s1.Settled fc ∧ s.CacheLE s1 ∧ ∃ d, freshArg fc (s1.settledValue fc d) s1 p = some r)
    (e : Exec Num) :
    ∀ (s : Sheet Num AST) (r : Except FormulaError Num) (s1 : Sheet Num AST),
      s.Settled fc → runExec resolve e s = some (r, s1) →
      s1.Settled fc ∧ s.CacheLE s1 ∧
        ∃ d, runFresh (freshArg fc (s1.settledValue fc d) s1) e = some r := by
  induction e with
  | done r0 =>
    intro s r s1 hset h
    simp only [runExec, Option.some.injEq, Prod.mk.injEq] at h
    rw [← h.1, ← h.2]
    exact ⟨hset, Sheet.CacheLE_refl s, 0, rfl⟩
  | ask p k ih =>
    intro s r s1 hset h
    simp only [runExec] at h
    cases hrs : resolve s p with
    | none => rw [hrs] at h; cases h
    | some rs =>
      obtain ⟨r2, s2⟩ := rs
      rw [hrs] at h
      obtain ⟨hs2, hle2, da, hda⟩ := hres s p r2 s2 hset hrs
      obtain ⟨hs1, hle1, db, hdb⟩ := ih r2 s2 r s1 hs2 h
      refine ⟨hs1, Sheet.CacheLE_trans s s2 s1 hle2 hle1, max da db, ?_⟩
      have h1 := freshArg_settled_mono fc s2 s1 hle1 da (max da db) (le_max_left _ _) p r2 hda
      have h2 := runFresh_settled_mono fc s1 s1 (Sheet.CacheLE_refl s1) db (max da db)
        (le_max_right _ _) (k r2) r hdb
      simp only [runFresh, h1]
      exact h2

/-- A `GetValue` call on a settled sheet leaves it settled, keeps every cached value, and
returns the settled value of the cell. -/
theorem Cell.GetValue_settles (fc : FormulaCompiler Num AST) (depth : Nat) :
    ∀ (s : Sheet Num AST) (pos : Position) (v : Value Num) (s1 : Sheet Num AST),
      pos.IsValid = true → s.Settled fc → Cell.GetValue fc depth s pos = some (v, s1) →
      s1.Settled fc ∧ s.CacheLE s1 ∧ ∃ d, s1.settledValue fc d pos = some v := by
  have hnf : ∀ (s : Sheet Num AST) (pos : Position) (v : Value Num) (c : Cell Num AST)
      (t : String), pos.IsValid = true → s.Settled fc →
      s.slot pos.row.toNat pos.col.toNat = some c → c.cache_ = none →
      (c.impl_ = Impl.EmptyImpl v t ∨ c.impl_ = Impl.TextImpl v t) →
      (s.setCache pos v).Settled fc ∧ s.CacheLE (s.setCache pos v) ∧
        ∃ d, (s.setCache pos v).settledValue fc d pos = some v := by
    intro s pos v c t hv hset hc hn hi
    have hval : (s.setCache pos v).settledValue fc 0 pos = some v :=
      Sheet.settledValue_of_not_formula fc 0 _ pos _ v t (s.slot_setCache pos v c hc) hi
    exact ⟨Sheet.Settled_setCache fc s pos v c hv hc (Or.inl hn) hset ⟨0, hval⟩,
      Sheet.CacheLE_setCache s pos v c hc (Or.inl hn), 0, hval⟩
  induction depth with
  | zero =>
    intro s pos v s1 hv hset h
    rcases Cell.GetValue_cases fc 0 s pos v s1 h with ⟨c, hc, hcache, hs⟩ |
      ⟨c, t, hc, hn, hi, hs⟩ | ⟨c, w, t, a, d, r, s2, _, _, _, hd, _⟩
    · rw [hs]
      exact ⟨hset, Sheet.CacheLE_refl s,
        hset pos c v (by rw [Sheet.GetCell_of_valid s pos hv, hc]) hcache⟩
    · rw [hs]; exact hnf s pos v c t hv hset hc hn hi
    · cases hd
  | succ n ih =>
    intro s pos v s1 hv hset h
    rcases Cell.GetValue_cases fc (n + 1) s pos v s1 h with ⟨c, hc, hcache, hs⟩ |
      ⟨c, t, hc, hn, hi, hs⟩ | ⟨c, w, t, a, d, r, s2, hc, hn, hi, hd, hrun, hval, hs⟩
    · rw [hs]
      exact ⟨hset, Sheet.CacheLE_refl s,
        hset pos c v (by rw [Sheet.GetCell_of_valid s pos hv, hc]) hcache⟩
    · rw [hs]; exact hnf s pos v c t hv hset hc hn hi
    · have hdn : d = n := by omega
      subst hdn
      obtain ⟨hs2, hle2, dr, hdr⟩ := runExec_settles fc _
        (fun s p r s1 hs hr => args_func_settles fc _ ih s p r s1 hs hr)
        (fc.Execute a) s r s2 hset hrun
      -- the cell at `pos` after the run: same content, cache empty or already the value
      have hi2 := Sheet.impl_of_eraseCaches s s2 hle2.1 pos.row.toNat pos.col.toNat
      rw [hc] at hi2
      cases hc2 : s2.slot pos.row.toNat pos.col.toNat with
      | none => rw [hc2] at hi2; cases hi2
      | some c2 =>
        rw [hc2] at hi2
        simp only [Option.map_some', Option.some.injEq] at hi2
        rw [hi] at hi2
        have hcache2 : c2.cache_ = none ∨ c2.cache_ = some v := by
          cases hcc : c2.cache_ with
          | none => exact Or.inl rfl
          | some v2 =>
            right
            obtain ⟨d2, hd2⟩ := hs2 pos c2 v2
              (by rw [Sheet.GetCell_of_valid s2 pos hv, hc2]) hcc
            obtain ⟨c3, hc3, hkind⟩ := Sheet.settledValue_cases fc d2 s2 pos v2 hd2
            rw [hc2] at hc3
            injection hc3 with hc3
            subst hc3
            rcases hkind with ⟨t3, h3 | h3⟩ | ⟨w3, u3, t3, a3, d3, r3, _, h3, _, hr3, hv3⟩
            · rw [hi2] at h3; cases h3
            · rw [hi2] at h3; cases h3
            · rw [hi2] at h3
              injection h3 with _ _ ha
              subst ha
              have e1 := runFresh_settled_mono fc s2 s2 (Sheet.CacheLE_refl s2) d3
                (max d3 dr) (le_max_left _ _) _ r3 hr3
              have e2 := runFresh_settled_mono fc s2 s2 (Sheet.CacheLE_refl s2) dr
                (max d3 dr) (le_max_right _ _) _ r hdr
              rw [e1] at e2
              injection e2 with e2
              rw [hv3, hval, e2]
        have hle1 := Sheet.CacheLE_setCache s2 pos v c2 hc2 hcache2
        have hv1 : (s2.setCache pos v).settledValue fc (dr + 1) pos = some v := by
          rw [hval]
          exact Sheet.settledValue_of_formula fc dr _ pos _ (Value.ofEvaluate r) w t a r
            (s2.slot_setCache pos _ c2 hc2) rfl hi2
            (runFresh_settled_mono fc s2 _ (by rw [← hval]; exact hle1) dr dr (Nat.le_refl _)
              _ r hdr)
        rw [hs]
        exact ⟨Sheet.Settled_setCache fc s2 pos v c2 hv hc2 hcache2 hs2 ⟨dr + 1, hv1⟩,
          Sheet.CacheLE_trans s s2 _ hle2 hle1, dr + 1, hv1⟩
theorem runFresh_mono_asks (resolve1 resolve2 : Position → Option (Except FormulaError Num))
    (e : Exec Num) :
    (∀ q r, e.Asks q → resolve1 q = some r → resolve2 q = some r) →
    ∀ r, runFresh resolve1 e = some r → runFresh resolve2 e = some r := by
  induction e with
  | done r0 => intro _ r hr; exact hr
  | ask p k ih =>
    intro h r hr
    simp only [runFresh] at hr ⊢
    cases h1 : resolve1 p with
    | none => rw [h1] at hr; cases hr
    | some r1 =>
      rw [h1] at hr
      rw [h p r1 (Exec.Asks.here p k) h1]
      exact ih r1 (fun q r2 hq hq1 => h q r2 (Exec.Asks.later p k r1 q hq) hq1) r hr

/-- The resolver gives `0.0` at a new empty cell, as it does where there is no cell. -/
theorem argOfValue_new (fc : FormulaCompiler Num AST) :
    argOfValue fc (Value.str "") = Except.ok fc.zero := by
  simp [argOfValue]

/-- A call that touches the slot at `pos` alone keeps the settled value of every cell, when
the slot is as before, or has gone from null to a new empty cell, in case the formula of a
cell with a present cache may read `pos`. -/
theorem Sheet.settledValue_frame (fc : FormulaCompiler Num AST) (s s1 : Sheet Num AST)
    (pos : Position) (hposv : pos.IsValid = true)
    (hother : ∀ row col, ¬ (row = pos.row.toNat ∧ col = pos.col.toNat) →
      s1.slot row col = s.slot row col)
    (hkept : s.CachedReader fc pos →
      s1.slot pos.row.toNat pos.col.toNat = s.slot pos.row.toNat pos.col.toNat ∨
      (s.slot pos.row.toNat pos.col.toNat = none ∧
        s1.slot pos.row.toNat pos.col.toNat = some Cell.new))
    (d : Nat) :
    ∀ (q : Position) (v : Value Num), q.IsValid = true →
      s1.slot q.row.toNat q.col.toNat = s.slot q.row.toNat q.col.toNat →
      s.settledValue fc d q = some v → s1.settledValue fc d q = some v := by
  induction d with
  | zero =>
    intro q v _ hq h
    apply Sheet.settledValue_transfer fc s s1 0 0 q v ?_ ?_ h
    · intro c hs
      exact ⟨c, by rw [hq, hs], rfl, fun w hw => ⟨w, hw⟩⟩
    · intro c w u t a d0 r _ _ _ hd
      cases hd
  | succ d ih =>
    intro q v hqv hq h
    apply Sheet.settledValue_transfer fc s s1 (d + 1) (d + 1) q v ?_ ?_ h
    · intro c hs
      exact ⟨c, by rw [hq, hs], rfl, fun w hw => ⟨w, hw⟩⟩
    · intro c w u t a d0 r hs hcache hi hd hr
      have hd0 : d0 = d := by omega
      subst hd0
      refine ⟨d0, rfl, ?_⟩
      apply runFresh_mono_asks _ _ (fc.Execute a) ?_ r hr
      intro p r1 hask h1
      unfold freshArg at h1 ⊢
      by_cases hpv : p.IsValid = true
      · simp only [hpv, Bool.not_true, Bool.false_eq_true, if_false] at h1 ⊢
        have hslot : s1.slot p.row.toNat p.col.toNat = s.slot p.row.toNat p.col.toNat ∨
            (s.slot p.row.toNat p.col.toNat = none ∧
              s1.slot p.row.toNat p.col.toNat = some Cell.new) := by
          by_cases hp : p = pos
          · rw [hp]
            apply hkept
            rw [← hp]
            exact ⟨q, c, w, u, t, a, by rw [Sheet.GetCell_of_valid s q hqv, hs], hcache, hi,
              hask⟩
          · exact Or.inl (hother _ _
              (fun hc => hp (Position.toNat_injective p pos hpv hposv hc.1 hc.2)))
        rw [Sheet.GetCell_of_valid s p hpv] at h1
        rw [Sheet.GetCell_of_valid s1 p hpv]
        cases hsp : s.slot p.row.toNat p.col.toNat with
        | none =>
          rw [hsp] at h1
          simp only at h1
          rcases hslot with he | ⟨_, hnew⟩
          · rw [he, hsp]
            exact h1
          · rw [hnew]
            simp only
            rw [Sheet.settledValue_of_not_formula fc d0 s1 p Cell.new (Value.str "") ""
              hnew (Or.inl rfl)]
            simp only
            rw [argOfValue_new]
            exact h1
        | some cp =>
          have he : s1.slot p.row.toNat p.col.toNat = s.slot p.row.toNat p.col.toNat := by
            rcases hslot with he | ⟨hn, _⟩
            · exact he
            · rw [hsp] at hn; cases hn
          rw [hsp] at h1
          rw [he, hsp]
          simp only at h1 ⊢
          cases hev : s.settledValue fc d0 p with
          | none => rw [hev] at h1; cases h1
          | some vp =>
            rw [hev] at h1
            rw [ih p vp hpv he hev]
            exact h1
      · have hpv1 : p.IsValid = false := by simpa using hpv
        simp only [hpv1, Bool.not_false, if_true] at h1 ⊢
        exact h1

theorem Sheet.Settled_of_frame (fc : FormulaCompiler Num AST) (s s1 : Sheet Num AST)
    (pos : Position) (hposv : pos.IsValid = true)
    (hother : ∀ row col, ¬ (row = pos.row.toNat ∧ col = pos.col.toNat) →
      s1.slot row col = s.slot row col)
    (hkept : s.CachedReader fc pos →
      s1.slot pos.row.toNat pos.col.toNat = s.slot pos.row.toNat pos.col.toNat ∨
      (s.slot pos.row.toNat pos.col.toNat = none ∧
        s1.slot pos.row.toNat pos.col.toNat = some Cell.new))
    (hcached : ∀ row col c v, s1.slot row col = some c → c.cache_ = some v →
      s.slot row col = some c)
    (hset : s.Settled fc) : s1.Settled fc := by
  intro q c v hc hv
  obtain ⟨hqv, hq⟩ := Sheet.GetCell_slot s1 q c hc
  have hqs := hcached _ _ c v hq hv
  obtain ⟨d, hd⟩ := hset q c v (by rw [Sheet.GetCell_of_valid s q hqv, hqs]) hv
  exact ⟨d, Sheet.settledValue_frame fc s s1 pos hposv hother hkept d q v hqv
    (by rw [hq, hqs]) hd⟩

theorem Sheet.Settled_SetCell (fc : FormulaCompiler Num AST) (s : Sheet Num AST)
    (pos : Position) (text : String) (hrule : ¬ s.Stales fc (Op.setCell pos text))
    (hset : s.Settled fc) : (Sheet.SetCell fc s pos text).2.Settled fc := by
  by_cases hv : pos.IsValid = true
  · have hres1 : (Sheet.SetCell fc s pos text).1 =
        (Cell.Set fc (s.prepared pos.row.toNat pos.col.toNat) pos
          (s.cellOrNew pos.row.toNat pos.col.toNat) text).1 := by
      rw [Sheet.SetCell_of_valid fc s pos text hv]
    apply Sheet.Settled_of_frame fc s _ pos hv ?_ ?_ ?_ hset
    · intro row col hne
      rw [Sheet.slot_SetCell fc s pos text hv, if_neg hne]
    · intro hreader
      rw [Sheet.slot_SetCell fc s pos text hv, if_pos ⟨rfl, rfl⟩]
      cases hres : (Cell.Set fc (s.prepared pos.row.toNat pos.col.toNat) pos
          (s.cellOrNew pos.row.toNat pos.col.toNat) text).1 with
      | error e =>
        rw [Cell.Set_of_error fc _ pos _ text e hres, Sheet.cellOrNew_eq]
        cases hs : s.slot pos.row.toNat pos.col.toNat with
        | none => exact Or.inr ⟨rfl, rfl⟩
        | some c0 => exact Or.inl rfl
      | ok u =>
        exact absurd ⟨hreader, by rw [hres1, hres]⟩ hrule
    · intro row col c v hc hcache
      rw [Sheet.slot_SetCell fc s pos text hv] at hc
      by_cases hp : row = pos.row.toNat ∧ col = pos.col.toNat
      · rw [if_pos hp] at hc
        injection hc with hc
        cases hres : (Cell.Set fc (s.prepared pos.row.toNat pos.col.toNat) pos
            (s.cellOrNew pos.row.toNat pos.col.toNat) text).1 with
        | error e =>
          rw [Cell.Set_of_error fc _ pos _ text e hres, Sheet.cellOrNew_eq] at hc
          rw [hp.1, hp.2]
          cases hs : s.slot pos.row.toNat pos.col.toNat with
          | none =>
            rw [hs] at hc
            rw [← hc] at hcache
            cases hcache
          | some c0 =>
            rw [hs] at hc
            simp only [Option.getD_some] at hc
            rw [hc]
        | ok u =>
          obtain ⟨impl, _, hcell⟩ := Cell.Set_of_ok fc _ pos _ text hres
          rw [hcell] at hc
          rw [← hc] at hcache
          cases hcache
      · rw [if_neg hp] at hc
        exact hc
  · have hv1 : pos.IsValid = false := by simpa using hv
    rw [Sheet.SetCell_of_invalid fc s pos text hv1]
    exact hset

theorem Sheet.Settled_ClearCell (fc : FormulaCompiler Num AST) (s : Sheet Num AST)
    (pos : Position) (hrule : ¬ s.Stales fc (Op.clearCell pos)) (hset : s.Settled fc) :
    (Sheet.ClearCell s pos).2.Settled fc := by
  by_cases hv : pos.IsValid = true
  · apply Sheet.Settled_of_frame fc s _ pos hv ?_ ?_ ?_ hset
    · intro row col hne
      rw [Sheet.slot_ClearCell, if_neg (fun h => hne h.2)]
    · intro hreader
      left
      rw [Sheet.slot_ClearCell, if_pos ⟨hv, rfl, rfl⟩]
      cases hs : s.slot pos.row.toNat pos.col.toNat with
      | none => rfl
      | some c0 =>
        exact absurd ⟨hreader, c0, by rw [Sheet.GetCell_of_valid s pos hv, hs]⟩ hrule
    · intro row col c v hc hcache
      rw [Sheet.slot_ClearCell] at hc
      by_cases hp : pos.IsValid = true ∧ row = pos.row.toNat ∧ col = pos.col.toNat
      · rw [if_pos hp] at hc
        cases hs : s.slot row col with
        | none => rw [hs] at hc; cases hc
        | some c0 =>
          rw [hs] at hc
          simp only [Option.map_some', Option.some.injEq] at hc
          rw [← hc] at hcache
          cases hcache
      · rw [if_neg hp] at hc
        exact hc
  · have hv1 : pos.IsValid = false := by simpa using hv
    rw [Sheet.ClearCell_of_invalid s pos hv1]
    exact hset

theorem Sheet.Settled_step (fc : FormulaCompiler Num AST) (s s1 : Sheet Num AST) (op : Op)
    (hstep : s.step fc op = some s1) (hrule : ¬ s.Stales fc op) (hset : s.Settled fc) :
    s1.Settled fc := by
  cases op with
  | setCell p text =>
    simp only [Sheet.step, Option.some.injEq] at hstep
    subst hstep
    exact Sheet.Settled_SetCell fc s p text hrule hset
  | clearCell p =>
    simp only [Sheet.step, Option.some.injEq] at hstep
    subst hstep
    exact Sheet.Settled_ClearCell fc s p hrule hset
  | getValue d p =>
    obtain ⟨c, v, hc, hgv⟩ := Sheet.step_getValue fc s s1 d p hstep
    exact (Cell.GetValue_settles fc d s p v s1 (Sheet.GetCell_slot s p c hc).1 hset hgv).1

theorem Sheet.Settled_run (fc : FormulaCompiler Num AST) (ops : List Op) :
    ∀ (s0 s : Sheet Num AST), Sheet.run fc s0 ops = some s → Sheet.KeepsCaches fc s0 ops →
      s0.Settled fc → s.Settled fc := by
  induction ops with
  | nil =>
    intro s0 s hrun _ h
    simp only [Sheet.run, Option.some.injEq] at hrun
    rw [← hrun]; exact h
  | cons op ops ih =>
    intro s0 s hrun hkeep h
    simp only [Sheet.run] at hrun
    cases hstep : s0.step fc op with
    | none => rw [hstep] at hrun; cases hrun
    | some s1 =>
      rw [hstep] at hrun
      exact ih s1 s hrun (hkeep.2 s1 hstep) (Sheet.Settled_step fc s0 s1 op hstep hkeep.1 h)

theorem Sheet.Settled_empty (fc : FormulaCompiler Num AST) :
    (Sheet.empty : Sheet Num AST).Settled fc := by
  intro pos c v hc
  obtain ⟨_, h⟩ := Sheet.GetCell_slot _ pos c hc
  simp [Sheet.empty, Sheet.slot] at h
theorem Sheet.cachedLister_of_reader (fc : FormulaCompiler Num AST) (hlaw : fc.AsksOnlyCells)
    (s : Sheet Num AST) (pos : Position) (h : s.CachedReader fc pos) :
    s.cachedLister fc pos = true := by
  obtain ⟨q, c, v, w, t, a, hc, hcache, hi, hask⟩ := h
  obtain ⟨_, hs⟩ := Sheet.GetCell_slot s q c hc
  obtain ⟨h1, h2⟩ := s.slot_some_lt _ _ c hs
  unfold Sheet.slot at hs
  rw [List.getD_eq_getElem _ _ h2] at hs
  unfold Sheet.cachedLister
  rw [List.any_eq_true]
  refine ⟨s.cells_.getD q.row.toNat [], ?_, ?_⟩
  · rw [List.getD_eq_getElem _ _ h1]
    exact List.getElem_mem _
  · rw [List.any_eq_true]
    refine ⟨some c, ?_, ?_⟩
    · rw [← hs]
      exact List.getElem_mem _
    · simp only [hcache, hi, decide_eq_true_eq]
      exact hlaw a pos hask

/-- The test with `GetCells()` is enough when `Execute` calls the resolver only at positions
of the expression. -/
theorem Sheet.KeepsCaches_of_test (fc : FormulaCompiler Num AST) (hlaw : fc.AsksOnlyCells)
    (ops : List Op) :
    ∀ (s : Sheet Num AST), Sheet.keepsCachesTest fc s ops = true → Sheet.KeepsCaches fc s ops := by
  induction ops with
  | nil => intro s _; exact True.intro
  | cons op ops ih =>
    intro s h
    simp only [Sheet.keepsCachesTest, Bool.and_eq_true] at h
    refine ⟨?_, ?_⟩
    · intro hst
      cases op with
      | setCell p text =>
        have h1 := Sheet.cachedLister_of_reader fc hlaw s p hst.1
        have h2 := hst.2
        simp [h1, h2] at h
      | clearCell p =>
        have h1 := Sheet.cachedLister_of_reader fc hlaw s p hst.1
        obtain ⟨c, hc⟩ := hst.2
        simp [h1, hc] at h
      | getValue d p => exact hst
    · intro s1 hstep
      have h2 := h.2
      rw [hstep] at h2
      exact ih s1 h2

theorem Sheet.not_CachedReader_of_NoCache (fc : FormulaCompiler Num AST) (s : Sheet Num AST)
    (h : s.NoCache) (pos : Position) : ¬ s.CachedReader fc pos := by
  rintro ⟨q, c, v, w, t, a, hc, hcache, _, _⟩
  obtain ⟨_, hs⟩ := Sheet.GetCell_slot s q c hc
  rw [h _ _ c hs] at hcache
  cases hcache

theorem Sheet.KeepsCaches_reads (fc : FormulaCompiler Num AST) (reads : List Op) :
    ∀ (s : Sheet Num AST), (∀ op, op ∈ reads → op.isMutation = false) →
      Sheet.KeepsCaches fc s reads := by
  induction reads with
  | nil => intro s _; exact True.intro
  | cons op ops ih =>
    intro s hr
    have hop := hr op (List.mem_cons_self _ _)
    refine ⟨?_, fun s1 _ => ih s1 (fun o ho => hr o (List.mem_cons_of_mem _ ho))⟩
    cases op with
    | setCell p t => simp [Op.isMutation] at hop
    | clearCell p => simp [Op.isMutation] at hop
    | getValue d p => exact fun h => h

theorem Sheet.KeepsCaches_mutations_reads (fc : FormulaCompiler Num AST) (muts reads : List Op)
    (hreads : ∀ op, op ∈ reads → op.isMutation = false) :
    ∀ (s : Sheet Num AST), (∀ op, op ∈ muts → op.isMutation = true) → s.NoCache →
      Sheet.KeepsCaches fc s (muts ++ reads) := by
  induction muts with
  | nil => intro s _ _; exact Sheet.KeepsCaches_reads fc reads s hreads
  | cons op ops ih =>
    intro s hm hno
    have hop := hm op (List.mem_cons_self _ _)
    have hrest : ∀ o, o ∈ ops → o.isMutation = true :=
      fun o ho => hm o (List.mem_cons_of_mem _ ho)
    rw [List.cons_append]
    cases op with
    | setCell p t =>
      refine ⟨fun h => Sheet.not_CachedReader_of_NoCache fc s hno p h.1, ?_⟩
      intro s1 hstep
      simp only [Sheet.step, Option.some.injEq] at hstep
      rw [← hstep]
      exact ih _ hrest (Sheet.NoCache_SetCell fc s p t hno)
    | clearCell p =>
      refine ⟨fun h => Sheet.not_CachedReader_of_NoCache fc s hno p h.1, ?_⟩
      intro s1 hstep
      simp only [Sheet.step, Option.some.injEq] at hstep
      rw [← hstep]
      exact ih _ hrest (Sheet.NoCache_ClearCell s p hno)
    | getValue d p => simp [Op.isMutation] at hop

/-- C6, amended: in every sheet reached from the empty sheet by `SetCell`, `ClearCell` and
`GetValue` calls in any order, in which no successful `SetCell` and no `ClearCell` of an
existing cell is made on a position that, at the time of the call, the formula of a cell with
a present cache may read, for every cell whose cache is present, the cached value is the value
that evaluating the cell's current content against the current sheet, with all caches ignored,
produces: that evaluation returns the cached value from some nesting bound on, and never
returns anything else. Every sequence of `SetCell`/`ClearCell` calls followed by `GetValue`
calls is such a sequence. -/
theorem C6_cache_coherent_unless_read_cell_written (fc : FormulaCompiler Num AST) :
    (∀ (ops : List Op) (s : Sheet Num AST), Sheet.run fc Sheet.empty ops = some s →
      Sheet.KeepsCaches fc Sheet.empty ops →
      ∀ (pos : Position) (c : Cell Num AST) (v : Value Num),
        s.GetCell pos = Except.ok (some c) → c.cache_ = some v →
        (∃ d, ∀ d1, d ≤ d1 → s.freshValue fc d1 pos = some v) ∧
        (∀ d w, s.freshValue fc d pos = some w → w = v)) ∧
    (∀ (muts reads : List Op), (∀ op, op ∈ muts → op.isMutation = true) →
      (∀ op, op ∈ reads → op.isMutation = false) →
      Sheet.KeepsCaches fc Sheet.empty (muts ++ reads)) := by
  constructor
  · intro ops s hrun hkeep pos c v hcell hcache
    have hset := Sheet.Settled_run fc ops Sheet.empty s hrun hkeep (Sheet.Settled_empty fc)
    obtain ⟨d, hd0⟩ := hset pos c v hcell hcache
    have hd := Sheet.settledValue_fresh fc s d pos v hd0
    refine ⟨⟨d, fun d1 hd1 => Sheet.freshValue_mono fc s d d1 hd1 pos v hd⟩, ?_⟩
    intro d2 w hw
    have h1 := Sheet.freshValue_mono fc s d (max d d2) (le_max_left _ _) pos v hd
    have h2 := Sheet.freshValue_mono fc s d2 (max d d2) (le_max_right _ _) pos w hw
    rw [h1] at h2
    injection h2 with h2
    exact h2.symm
  · intro muts reads hmuts hreads
    apply Sheet.KeepsCaches_mutations_reads fc muts reads hreads Sheet.empty hmuts
    intro row col c0 h0
    simp [Sheet.empty, Sheet.slot] at h0

/-- Witness for C6: after `SetCell(B1, "1")`, `SetCell(A1, "=B1")`, `GetValue()` on `A1`,
`SetCell(C1, "5")`, the failing `SetCell(B1, "=A1")` and `GetValue()` on `C1`, where two writes
follow the read of `A1`, the cache of `A1` holds the number 1, the value of its content. And after `SetCell(A1, "1")`,
`GetValue()` on `A1` and `SetCell(B1, "2")`, the cache of `A1` holds the string `1`, the value
of its content. The sequence that leaves a stale cache is not of this kind: on the sheet with
`1` in `B1` and `=B1` in `A1`, both read, `SetCell(B1, "2")` succeeds and writes a position
that the formula of `A1`, whose cache is present, reads. -/
theorem C6_cache_coherent_unless_read_cell_written_witness :
    (∃ d, ∀ d1, d ≤ d1 →
      Example.sheetKept.freshValue Example.compiler d1 Example.A1 = some (Value.num 1)) ∧
    (∃ d, ∀ d1, d ≤ d1 →
      Sheet.freshValue Example.compiler d1
        ({ cells_ := [[some ⟨Impl.TextImpl (Value.str "1") "1", some (Value.str "1")⟩,
                       some ⟨Impl.TextImpl (Value.str "2") "2", none⟩]] } :
          Sheet Int (List Position))
        Example.A1 = some (Value.str "1")) ∧
    Sheet.Stales Example.compiler Example.sheetB1A1read (Op.setCell Example.B1 "2") :=
  ⟨((C6_cache_coherent_unless_read_cell_written Example.compiler).1 Example.opsKept
      Example.sheetKept (by decide)
      (Sheet.KeepsCaches_of_test Example.compiler Example.compiler_asksOnlyCells
        Example.opsKept Sheet.empty (by decide))
      Example.A1
      ⟨Impl.FormulaImpl (Value.str "B1") "=B1" [Example.B1], some (Value.num 1)⟩ (Value.num 1)
      (by decide) rfl).1,
   ((C6_cache_coherent_unless_read_cell_written Example.compiler).1
      [Op.setCell Example.A1 "1", Op.getValue 0 Example.A1, Op.setCell Example.B1 "2"]
      { cells_ := [[some ⟨Impl.TextImpl (Value.str "1") "1", some (Value.str "1")⟩,
                    some ⟨Impl.TextImpl (Value.str "2") "2", none⟩]] }
      (by decide)
      (Sheet.KeepsCaches_of_test Example.compiler Example.compiler_asksOnlyCells
        [Op.setCell Example.A1 "1", Op.getValue 0 Example.A1, Op.setCell Example.B1 "2"]
        Sheet.empty (by decide))
      Example.A1 ⟨Impl.TextImpl (Value.str "1") "1", some (Value.str "1")⟩ (Value.str "1")
      (by decide) rfl).1,
   ⟨⟨Example.A1, ⟨Impl.FormulaImpl (Value.str "B1") "=B1" [Example.B1], some (Value.num 1)⟩,
      Value.num 1, Value.str "B1", "=B1", [Example.B1], by decide, rfl, rfl,
      Exec.Asks.here Example.B1 _⟩,
    by decide⟩⟩

end Spreadsheet
